import Mathlib

/-!
# DownloaderTube: format selector, output-line classifier, unit converter

A shallow embedding of `internal/downloader/youtube.go` (and of the line
handler it shares with `facebook.go`).

Go strings are modelled as lists of Unicode code points (`Str`); every
format string, separator and regular expression of the source is ASCII, and
the lines handed to the handler are assumed to be valid UTF-8.
-/

namespace DownloaderTube

/-- Go `string`, as the sequence of its code points. -/
abbrev Str := List Char

/-! ## Format expression builder (`buildFormatString`) -/

/-- `strconv.Itoa`: base-10 rendering, with a leading `-` for negatives. -/
def itoa (i : Int) : Str :=
  if i < 0 then '-' :: Nat.toDigits 10 i.natAbs else Nat.toDigits 10 i.natAbs

/-- `strings.SplitN(s, sep, 2)` for a one-character separator: the text before
the first separator and the text after it, or `s` alone when it has none. -/
def splitN2 (s : Str) (sep : Char) : List Str :=
  match s.span (fun c => c != sep) with
  | (a, []) => [a]
  | (a, _ :: b) => [a, b]

/-- `fmt.Sprintf` for a format whose only verb is `%s`: the arguments replace
the verbs from left to right (every call of the source passes as many
arguments as its format has verbs). -/
def sprintf : Str → List Str → Str
  | '%' :: 's' :: rest, a :: args => a ++ sprintf rest args
  | c :: rest, args => c :: sprintf rest args
  | [], _ => []

/-- `buildFormatString(height, langCode)` of `youtube.go`. -/
def buildFormatString (height : Int) (langCode : Str) : Str :=
  let h := itoa height
  if langCode ≠ [] then
    let base := (splitN2 langCode '-').headD []
    if base ≠ langCode then
      sprintf
        "bv[height<=%s]+ba[language=%s]/bv[height<=%s]+ba[language=%s]/b[language=%s][height<=%s]/b[language=%s][height<=%s]/bv[height<=%s]+ba[ext=m4a]/bv[height<=%s]+ba/b[height<=%s]".toList
        [h, langCode, h, base, langCode, h, base, h, h, h, h]
    else
      sprintf
        "bv[height<=%s]+ba[language=%s]/b[language=%s][height<=%s]/bv[height<=%s]+ba[ext=m4a]/bv[height<=%s]+ba/b[height<=%s]".toList
        [h, langCode, langCode, h, h, h, h]
  else
    sprintf "bv[height<=%s]+ba[ext=m4a]/bv[height<=%s]+ba/b[height<=%s]".toList [h, h, h]

/-! ### The branches, as the specification names them -/

/-- Dedicated video and audio streams, audio filtered by language: `bv[height<=H]+ba[language=L]`. -/
def branchDedicated (h l : Str) : Str :=
  "bv[height<=".toList ++ h ++ "]+ba[language=".toList ++ l ++ "]".toList

/-- Pre-combined stream filtered by language: `b[language=L][height<=H]`. -/
def branchCombinedLang (h l : Str) : Str :=
  "b[language=".toList ++ l ++ "][height<=".toList ++ h ++ "]".toList

/-- Video and audio with the audio-container preference: `bv[height<=H]+ba[ext=m4a]`. -/
def branchM4a (h : Str) : Str :=
  "bv[height<=".toList ++ h ++ "]+ba[ext=m4a]".toList

/-- Video and audio, unfiltered: `bv[height<=H]+ba`. -/
def branchAny (h : Str) : Str :=
  "bv[height<=".toList ++ h ++ "]+ba".toList

/-- Any combined stream: `b[height<=H]`. -/
def branchCombined (h : Str) : Str :=
  "b[height<=".toList ++ h ++ "]".toList

/-- The height cap every branch carries: `[height<=H]`. -/
def heightCap (h : Str) : Str :=
  "[height<=".toList ++ h ++ "]".toList

/-- Value of a string of decimal digits. -/
def digitsValue (s : Str) : Nat :=
  s.foldl (fun acc c => 10 * acc + (c.toNat - 48)) 0

/-- Value of an optionally signed decimal numeral. -/
def decimalValue : Str → Int
  | '-' :: t => -(digitsValue t : Int)
  | t => (digitsValue t : Int)

/-! ## Regular expressions (`regexp`)

The five patterns of the source use only literal characters, an optional
character, and greedy repetitions of a character class, each capture group
being one such repetition.  `matchHere` is the backtracking search whose first
success Go's `regexp` reports ("leftmost-first"): a greedy repetition takes as
many characters as it can and gives them back one at a time while the rest of
the pattern fails. -/

/-- One piece of a pattern. -/
inductive Piece where
  /-- A literal character. -/
  | lit (c : Char)
  /-- An optional character, `c?`. -/
  | opt (c : Char)
  /-- Greedy `[class]*`. -/
  | star (p : Char → Bool)
  /-- Greedy `[class]+`, not capturing. -/
  | plus (p : Char → Bool)
  /-- Greedy `([class]+)`, a capture group. -/
  | group (p : Char → Bool)

/-- The literal pieces of a text. -/
def lits (s : String) : List Piece := s.toList.map Piece.lit

/-- The class `.`: any character but the line feed. -/
def isAny (c : Char) : Bool := c != '\n'

/-- The class `\s`: `[\t\n\f\r ]`. -/
def isSpace (c : Char) : Bool :=
  c == '\t' || c == '\n' || c == '\x0c' || c == '\r' || c == ' '

/-- The class `[\d.]`: an ASCII digit or a dot. -/
def isDigitDot (c : Char) : Bool := c.isDigit || c == '.'

/-- The class `[\w]`: `[0-9A-Za-z_]`. -/
def isWord (c : Char) : Bool := c.isAlphanum || c == '_'

/-- Greedy repetition of the class `p` followed by the continuation `k`: the
longest run of `p` after which `k` succeeds, with what the run consumed. -/
def greedy {α : Type} (p : Char → Bool) (k : Str → Option α) : Str → Option (Str × α)
  | [] => (k []).map (fun r => ([], r))
  | c :: s =>
    if p c then
      match greedy p k s with
      | some (cap, r) => some (c :: cap, r)
      | none => (k (c :: s)).map (fun r => ([], r))
    else (k (c :: s)).map (fun r => ([], r))

/-- Match a pattern at the start of the input: the input left after the match
and the text of the capture groups, in order. -/
def matchHere : List Piece → Str → Option (Str × List Str)
  | [], s => some (s, [])
  | Piece.lit c :: ps, s =>
    match s with
    | d :: t => if d = c then matchHere ps t else none
    | [] => none
  | Piece.opt c :: ps, s =>
    match s with
    | d :: t =>
      if d = c then
        match matchHere ps t with
        | some r => some r
        | none => matchHere ps s
      else matchHere ps s
    | [] => matchHere ps []
  | Piece.star p :: ps, s => (greedy p (matchHere ps) s).map (fun r => r.2)
  | Piece.plus p :: ps, s =>
    match greedy p (matchHere ps) s with
    | some (_ :: _, r) => some r
    | _ => none
  | Piece.group p :: ps, s =>
    match greedy p (matchHere ps) s with
    | some (c :: cap, (rest, gs)) => some (rest, (c :: cap) :: gs)
    | _ => none

/-- `(*Regexp).FindStringSubmatch`: the leftmost match, as the matched text
followed by the text of each capture group; the empty slice (`nil`) when the
pattern matches nowhere. -/
def FindStringSubmatch (re : List Piece) : Str → List Str
  | [] =>
    match matchHere re [] with
    | some (_, gs) => [] :: gs
    | none => []
  | c :: s =>
    match matchHere re (c :: s) with
    | some (rest, gs) => (c :: s).take ((c :: s).length - rest.length) :: gs
    | none => FindStringSubmatch re s

/-- `\[Merger\] Merging formats into "(.+)"`. -/
def mergerRegex : List Piece :=
  lits "[Merger] Merging formats into \"" ++ [Piece.group isAny, Piece.lit '"']

/-- `\[MoveFiles\] Moving file ".+" to "(.+)"`. -/
def moveRegex : List Piece :=
  lits "[MoveFiles] Moving file \"" ++ [Piece.plus isAny] ++ lits "\" to \"" ++
    [Piece.group isAny, Piece.lit '"']

/-- `\[download\] Destination: (.+)`. -/
def destRegex : List Piece :=
  lits "[download] Destination: " ++ [Piece.group isAny]

/-- `\[download\] (.+) has already been downloaded`. -/
def alreadyRegex : List Piece :=
  lits "[download] " ++ [Piece.group isAny] ++ lits " has already been downloaded"

/-- `\[download\]\s+([\d.]+)%\s+of\s+~?\s*([\d.]+)([\w]+)`. -/
def progressRegex : List Piece :=
  lits "[download]" ++
    [Piece.plus isSpace, Piece.group isDigitDot, Piece.lit '%', Piece.plus isSpace,
     Piece.lit 'o', Piece.lit 'f', Piece.plus isSpace, Piece.opt '~', Piece.star isSpace,
     Piece.group isDigitDot, Piece.group isWord]

/-- `extractFilePath(line)`: the capture of the first of the move, merger,
destination and already-downloaded patterns that matches, else the empty string. -/
def extractFilePath (line : Str) : Str :=
  let m := FindStringSubmatch moveRegex line
  if 2 ≤ m.length then m.getD 1 []
  else
    let m := FindStringSubmatch mergerRegex line
    if 2 ≤ m.length then m.getD 1 []
    else
      let m := FindStringSubmatch destRegex line
      if 2 ≤ m.length then m.getD 1 []
      else
        let m := FindStringSubmatch alreadyRegex line
        if 2 ≤ m.length then m.getD 1 []
        else []

/-! ## float64 arithmetic

A `float64` is modelled by the rational number it denotes; `none` stands for
an infinity or a NaN, which every operation used here propagates.  Results are
rounded to the nearest double, ties to even: 53 significant bits, least
exponent `-1074`, overflow from `2^1024` on.  Signed zeros are not told apart
(no operation below depends on the sign of a zero). -/

/-- A `float64`: a finite value, or `none` for an infinity or a NaN. -/
abbrev F64 := Option ℚ

/-- Nearest integer, ties to the even one. -/
def roundHalfEven (x : ℚ) : ℤ :=
  if x - ⌊x⌋ < 1 / 2 then ⌊x⌋
  else if 1 / 2 < x - ⌊x⌋ then ⌊x⌋ + 1
  else if ⌊x⌋ % 2 = 0 then ⌊x⌋ else ⌊x⌋ + 1

/-- Exponent of the last place of the doubles near `q`. -/
def f64Exp (q : ℚ) : ℤ := max (Int.log 2 |q| - 52) (-1074)

/-- Rounding of a real result to `float64`. -/
def f64Round (q : ℚ) : F64 :=
  if |(roundHalfEven (q / 2 ^ f64Exp q) : ℚ) * 2 ^ f64Exp q| < 2 ^ (1024 : ℕ) then
    some ((roundHalfEven (q / 2 ^ f64Exp q) : ℚ) * 2 ^ f64Exp q)
  else none

/-- Product of two `float64`. -/
def fmul (a b : F64) : F64 :=
  match a, b with
  | some x, some y => f64Round (x * y)
  | _, _ => none

/-- Quotient of two `float64`. -/
def fdiv (a b : F64) : F64 :=
  match a, b with
  | some x, some y => if y = 0 then none else f64Round (x / y)
  | _, _ => none

/-- Truncation toward zero. -/
def truncate (q : ℚ) : ℤ := if 0 ≤ q then ⌊q⌋ else ⌈q⌉

/-- Conversion `int64(x)` of a `float64`: the value truncated toward zero when
it fits; otherwise (also for an infinity or a NaN) Go leaves the result to the
implementation, here `none`. -/
def toInt64 (x : F64) : Option ℤ :=
  match x with
  | some q =>
    if -(2 : ℤ) ^ 63 ≤ truncate q ∧ truncate q < (2 : ℤ) ^ 63 then some (truncate q) else none
  | none => none

/-- Conversion `float64(i)` of an `int64` (`none`: an undetermined integer). -/
def ofInt64 (i : Option ℤ) : F64 :=
  match i with
  | some n => f64Round n
  | none => none

/-- `strconv.ParseFloat(s, 64)` with the error dropped, on the texts the class
`[\d.]` can capture: a numeral `digits`, `digits.`, `.digits` or
`digits.digits` gives the double nearest to its value (an infinity when out of
range), anything else is a syntax error, for which `ParseFloat` returns `0`. -/
def parseFloat (s : Str) : F64 :=
  match s.dropWhile Char.isDigit with
  | [] => if s = [] then some 0 else f64Round (digitsValue s)
  | '.' :: frac =>
    if frac.all Char.isDigit && !(s.takeWhile Char.isDigit ++ frac).isEmpty then
      f64Round ((digitsValue (s.takeWhile Char.isDigit ++ frac) : ℚ) / 10 ^ frac.length)
    else some 0
  | _ => some 0

/-! ## Unit converter (`toBytes`) -/

/-- `unicode.ToLower` on the characters whose lower case is an ASCII letter:
`A`-`Z`, the Kelvin sign (U+212A) and the dotted capital I (U+0130).  The other characters are
left as they are; their lower case is not an ASCII letter, so the comparisons
of `toBytes` cannot tell the difference. -/
def toLowerChar (c : Char) : Char :=
  if c = '\u212A' then 'k' else if c = '\u0130' then 'i' else c.toLower

/-- `strings.ToLower`, through `toLowerChar`. -/
def toLower (s : Str) : Str := s.map toLowerChar

/-- `toBytes(val, unit)`. -/
def toBytes (val : F64) (unit : Str) : Option ℤ :=
  if toLower unit = "kib".toList then toInt64 (fmul val (some 1024))
  else if toLower unit = "mib".toList then toInt64 (fmul (fmul val (some 1024)) (some 1024))
  else if toLower unit = "gib".toList then
    toInt64 (fmul (fmul (fmul val (some 1024)) (some 1024)) (some 1024))
  else toInt64 val

/-! ## The line handler of `Download` (`parseLine`) -/

/-- One invocation `progress(current, total)` of the caller's callback; `none`
is an `int64` the conversion from `float64` leaves to the implementation. -/
structure ProgressCall where
  current : Option ℤ
  total : Option ℤ
deriving DecidableEq

/-- What the handler has done so far: the shared `filePath` cell and the
invocations of the progress callback, oldest first. -/
structure Harvest where
  filePath : Str
  calls : List ProgressCall
deriving DecidableEq

/-- The closure `parseLine` of `Download`, run on one line; `hasProgress` tells
whether the caller supplied a callback (`progress != nil`). -/
def parseLine (hasProgress : Bool) (st : Harvest) (line : Str) : Harvest :=
  let ms := FindStringSubmatch progressRegex line
  let st1 : Harvest :=
    if 4 ≤ ms.length ∧ hasProgress = true then
      let pct := parseFloat (ms.getD 1 [])
      let totalVal := parseFloat (ms.getD 2 [])
      let unit := ms.getD 3 []
      let totalBytes := toBytes totalVal unit
      let currentBytes := toInt64 (fdiv (fmul (ofInt64 totalBytes) pct) (some 100))
      { st with calls := st.calls ++ [⟨currentBytes, totalBytes⟩] }
    else st
  if extractFilePath line ≠ [] then { st1 with filePath := extractFilePath line } else st1

/-- The lines of both output streams, in the order the handler receives them,
starting from the empty path and no invocation. -/
def harvest (hasProgress : Bool) (lines : List Str) : Harvest :=
  lines.foldl (parseLine hasProgress) ⟨[], []⟩

/-! ## `Download`

The child process is what the operating system makes of it: whether the two
pipes and the start succeed, the lines of both streams in the order the
handler receives them, and the exit status `cmd.Wait` reports (an error exactly
when the status is not zero). -/

/-- `DownloadResult` of `downloader.go`. -/
structure DownloadResult where
  FilePath : Str
deriving DecidableEq

/-- The four errors `Download` returns, by the step that failed. -/
inductive DownloadError where
  /-- `erro ao criar pipe stdout`. -/
  | stdoutPipe
  /-- `erro ao criar pipe stderr`. -/
  | stderrPipe
  /-- `erro ao iniciar yt-dlp`. -/
  | start
  /-- `erro durante download`. -/
  | wait
deriving DecidableEq

/-- One execution of the extraction tool, as `Download` observes it. -/
structure ToolRun where
  stdoutPipeOk : Bool
  stderrPipeOk : Bool
  startOk : Bool
  lines : List Str
  exitStatus : Int

/-- `Download` of `youtube.go` and `facebook.go` (they differ in the selector
passed to the tool only): the invocations of the progress callback and the
value returned. -/
def Download (hasProgress : Bool) (run : ToolRun) :
    List ProgressCall × Except DownloadError DownloadResult :=
  if run.stdoutPipeOk = false then ([], Except.error DownloadError.stdoutPipe)
  else if run.stderrPipeOk = false then ([], Except.error DownloadError.stderrPipe)
  else if run.startOk = false then ([], Except.error DownloadError.start)
  else if run.exitStatus ≠ 0 then
    ((harvest hasProgress run.lines).calls, Except.error DownloadError.wait)
  else
    ((harvest hasProgress run.lines).calls,
      Except.ok ⟨(harvest hasProgress run.lines).filePath⟩)

/-! ## The progress bars of the menu and of the dependency download -/

/-- `strings.Repeat(s, count)`: it panics on a negative count (`none`). -/
def stringsRepeat (s : Str) (count : Int) : Option Str :=
  if count < 0 then none else some (List.replicate count.toNat s).flatten

/-- The number of filled cells, `int(pct / 100 * float64(barLen))` with
`pct := float64(current) / float64(total) * 100` and `barLen := 30`. -/
def barFilled (current total : Int) : Option Int :=
  toInt64 (fmul (fdiv (fmul (fdiv (ofInt64 (some current)) (ofInt64 (some total))) (some 100))
    (some 100)) (ofInt64 (some 30)))

/-- What a progress bar does: nothing, a bar on the terminal, or a panic. -/
inductive BarOutcome where
  /-- The callback returned at once (`total <= 0`). -/
  | skipped
  /-- The bar that was printed. -/
  | printed (bar : Str)
  /-- A run-time panic. -/
  | panicked
  /-- The `int` conversion was left to the implementation. -/
  | undetermined
deriving DecidableEq

/-- The bar `strings.Repeat("█", filled) + strings.Repeat("░", barLen-filled)`. -/
def renderBar (filled : Int) : BarOutcome :=
  match stringsRepeat ['█'] filled, stringsRepeat ['░'] (30 - filled) with
  | some a, some b => BarOutcome.printed (a ++ b)
  | _, _ => BarOutcome.panicked

/-- The progress callback of `App.startDownload` (`menu.go`). -/
def menuProgress (current total : Int) : BarOutcome :=
  if total ≤ 0 then BarOutcome.skipped
  else
    match barFilled current total with
    | none => BarOutcome.undetermined
    | some filled => renderBar filled

/-- The bar of `progressWriter.printProgress` (`manager.go`), which caps the
filled cells at `barLen`. -/
def printProgress (downloaded total : Int) : BarOutcome :=
  if total ≤ 0 then BarOutcome.skipped
  else
    match barFilled downloaded total with
    | none => BarOutcome.undetermined
    | some filled => renderBar (if filled > 30 then 30 else filled)

/-! ## Dependency bootstrap (`deps/manager.go`) -/

/-- What the system answers to one run of `EnsureDependencies`. -/
structure DepsWorld where
  /-- `getBinDir()`: the install directory, `none` when the cache directory is unknown. -/
  binDir : Option Str
  /-- Whether `os.MkdirAll(binDir)` succeeds. -/
  mkdirOk : Bool
  /-- `os.PathListSeparator`. -/
  pathListSeparator : Char
  /-- `isAvailable("yt-dlp")` and `isAvailable("ffmpeg")` once the path is set. -/
  haveYtDlp : Bool
  haveFfmpeg : Bool
  /-- Whether `installYtDlp` and `installFfmpeg` succeed. -/
  installYtDlpOk : Bool
  installFfmpegOk : Bool
  /-- `isAvailable` of the two tools in `verifyDependencies`. -/
  verifyYtDlp : Bool
  verifyFfmpeg : Bool

/-- The errors of `EnsureDependencies`. -/
inductive DepsError where
  | cacheDir
  | mkdir
  | installYtDlp
  | installFfmpeg
  | ytDlpMissing
  | ffmpegMissing
deriving DecidableEq

/-- `verifyDependencies()`. -/
def verifyDependencies (w : DepsWorld) : Except DepsError Unit :=
  if w.verifyYtDlp = false then Except.error DepsError.ytDlpMissing
  else if w.verifyFfmpeg = false then Except.error DepsError.ffmpegMissing
  else Except.ok ()

/-- `EnsureDependencies()`, with the environment variable `PATH` as explicit
state: the value of `PATH` afterwards and the value returned. -/
def EnsureDependencies (w : DepsWorld) (path : Str) : Str × Except DepsError Unit :=
  match w.binDir with
  | none => (path, Except.error DepsError.cacheDir)
  | some binDir =>
    if w.mkdirOk = false then (path, Except.error DepsError.mkdir)
    else
      let newPath := binDir ++ [w.pathListSeparator] ++ path
      let needYtDlp := !w.haveYtDlp
      let needFfmpeg := !w.haveFfmpeg
      if !needYtDlp && !needFfmpeg then (newPath, Except.ok ())
      else if needYtDlp && !w.installYtDlpOk then (newPath, Except.error DepsError.installYtDlp)
      else if needFfmpeg && !w.installFfmpegOk then
        (newPath, Except.error DepsError.installFfmpeg)
      else (newPath, verifyDependencies w)

/-- An entry of a zip archive: its name and whether it is a directory. -/
structure ZipEntry where
  Name : Str
  isDir : Bool
deriving DecidableEq

/-- The errors of `extractFromZip`. -/
inductive ZipError where
  /-- `erro ao abrir zip`. -/
  | openFailed
  /-- `erro ao extrair`, with the entry that failed. -/
  | entryFailed (e : ZipEntry)
  /-- `arquivos alvo não encontrados dentro do zip`. -/
  | noTarget
deriving DecidableEq

/-- The loop of `extractFromZip` over the entries of the archive: the entries
written so far, and the entry whose extraction failed, if one did.  `lower` is
`strings.ToLower`, `base` is `filepath.Base` and `entryOk` tells whether
`extractZipEntry` succeeds. -/
def extractEntries (lower base : Str → Str) (entryOk : ZipEntry → Bool) (targetSet : List Str) :
    List ZipEntry → List ZipEntry → List ZipEntry × Option ZipEntry
  | [], done => (done, none)
  | f :: rest, done =>
    if f.isDir then extractEntries lower base entryOk targetSet rest done
    else if !(targetSet.contains (lower (base f.Name))) then
      extractEntries lower base entryOk targetSet rest done
    else if !(entryOk f) then (done, some f)
    else extractEntries lower base entryOk targetSet rest (done ++ [f])

/-- `extractFromZip(zipPath, destDir, targets)`: the entries it wrote into
`destDir` and the value returned; `archive` is what `zip.OpenReader` finds,
`none` when the archive cannot be opened. -/
def extractFromZip (lower base : Str → Str) (entryOk : ZipEntry → Bool)
    (archive : Option (List ZipEntry)) (targets : List Str) :
    List ZipEntry × Except ZipError Unit :=
  match archive with
  | none => ([], Except.error ZipError.openFailed)
  | some files =>
    match extractEntries lower base entryOk (targets.map lower) files [] with
    | (done, some f) => (done, Except.error (ZipError.entryFailed f))
    | (done, none) =>
      if done.length = 0 then (done, Except.error ZipError.noTarget)
      else (done, Except.ok ())

/-- `filepath.Base` for the separator `/` (the names of zip members carry no
volume name): the last element of the path, trailing separators removed;
`.` for the empty path and `/` for a path of separators only. -/
def filepathBase (path : Str) : Str :=
  if path = [] then ['.']
  else
    match ((path.reverse.dropWhile (fun c => c == '/')).takeWhile (fun c => c != '/')).reverse with
    | [] => ['/']
    | b => b

/-! ## `GetVideoInfo` -/

/-- The fields of `ytdlpFormat` that `GetVideoInfo` reads. -/
structure ytdlpFormat where
  Height : Int
  VCodec : Str
  ACodec : Str
  Language : Str
deriving DecidableEq

/-- `Format` of `downloader.go`: a quality option. -/
structure Format where
  Height : Int
  Label : Str
deriving DecidableEq

/-- `AudioLang` of `downloader.go`: an audio track. -/
structure AudioLang where
  Code : Str
  Name : Str
deriving DecidableEq

/-- A Go `map[string]string`, as the list of its entries with distinct keys. -/
abbrev StrMap := List (Str × Str)

/-- The map lookup `m[k]`, `none` when the key is absent. -/
def mapGet : StrMap → Str → Option Str
  | [], _ => none
  | (k', v') :: m, k => if k' = k then some v' else mapGet m k

/-- The map assignment `m[k] = v`. -/
def mapSet : StrMap → Str → Str → StrMap
  | [], k, v => [(k, v)]
  | (k', v') :: m, k, v => if k' = k then (k, v) :: m else (k', v') :: mapSet m k v

/-- The table `langNames`. -/
def langNames : StrMap :=
  [("pt".toList, "Português".toList),
   ("pt-BR".toList, "Português (Brasil)".toList),
   ("en".toList, "English".toList),
   ("en-US".toList, "English (US)".toList),
   ("es".toList, "Español".toList),
   ("es-US".toList, "Español (US)".toList),
   ("fr".toList, "Français".toList),
   ("fr-FR".toList, "Français".toList),
   ("de".toList, "Deutsch".toList),
   ("de-DE".toList, "Deutsch".toList),
   ("it".toList, "Italiano".toList),
   ("ja".toList, "日本語".toList),
   ("ko".toList, "한국어".toList),
   ("zh".toList, "中文".toList),
   ("ru".toList, "Русский".toList),
   ("ar".toList, "العربية".toList),
   ("hi".toList, "हिन्दी".toList),
   ("nl".toList, "Nederlands".toList),
   ("pl".toList, "Polski".toList),
   ("tr".toList, "Türkçe".toList),
   ("sv".toList, "Svenska".toList),
   ("id".toList, "Bahasa Indonesia".toList),
   ("th".toList, "ไทย".toList),
   ("vi".toList, "Tiếng Việt".toList)]

/-- `baseLang(code)`: `strings.SplitN(code, "-", 2)[0]`. -/
def baseLang (code : Str) : Str := (splitN2 code '-').headD []

/-- `resolveLangName(code)`. -/
def resolveLangName (code : Str) : Str :=
  match mapGet langNames code with
  | some name => name
  | none =>
    match mapGet langNames ((splitN2 code '-').headD []) with
    | some name => name
    | none => code

/-- `len(s)` of a Go string: the number of bytes of its UTF-8 encoding. -/
def byteLen (s : Str) : Nat := (s.map Char.utf8Size).sum

/-- The first loop of `GetVideoInfo`: the set `heightSeen` and the slice
`formats`, one option per height in the order the heights are first seen. -/
def collectFormats : List ytdlpFormat → List Int × List Format → List Int × List Format
  | [], st => st
  | f :: rest, (heightSeen, formats) =>
    if f.VCodec = "none".toList ∨ f.Height = 0 then collectFormats rest (heightSeen, formats)
    else if heightSeen.contains f.Height then collectFormats rest (heightSeen, formats)
    else
      collectFormats rest
        (f.Height :: heightSeen, formats ++ [⟨f.Height, itoa f.Height ++ "p".toList⟩])

/-- The second loop of `GetVideoInfo`: the map `langMap` from a base language to
the longest code seen for it. -/
def collectLangs : List ytdlpFormat → StrMap → StrMap
  | [], langMap => langMap
  | f :: rest, langMap =>
    if f.ACodec = "none".toList ∨ f.Language = [] then collectLangs rest langMap
    else
      match mapGet langMap (baseLang f.Language) with
      | none => collectLangs rest (mapSet langMap (baseLang f.Language) f.Language)
      | some existing =>
        if byteLen f.Language > byteLen existing then
          collectLangs rest (mapSet langMap (baseLang f.Language) f.Language)
        else collectLangs rest langMap

/-- The audio tracks of a `langMap`, in the order of its entries. -/
def langEntries (langMap : StrMap) : List AudioLang :=
  langMap.map (fun e => ⟨e.2, resolveLangName e.2⟩)

/-- Insertion into a slice sorted by `less`, behind the elements that are not
greater. -/
def insertSorted {α : Type} (less : α → α → Bool) (x : α) : List α → List α
  | [] => [x]
  | y :: ys => if less x y then x :: y :: ys else y :: insertSorted less x ys

/-- One way `sort.Slice` may sort a slice: by insertion. -/
def sortSlice {α : Type} (less : α → α → Bool) : List α → List α
  | [] => []
  | x :: xs => insertSorted less x (sortSlice less xs)

/-- What `sort.Slice` promises of its result, whatever the algorithm: the same
elements, and no element before one that is less. -/
def IsSorted {α : Type} (less : α → α → Bool) (input output : List α) : Prop :=
  output.Perm input ∧ output.Pairwise (fun a b => less b a = false)

/-- The comparison of the first `sort.Slice`: by height. -/
def lessHeight (a b : Format) : Bool := decide (a.Height < b.Height)

/-- The comparison of the second `sort.Slice`: by name.  Go compares the bytes of the
UTF-8 encodings, which orders two strings as their sequences of code points. -/
def lessName (a b : AudioLang) : Bool := decide (a.Name < b.Name)

/-- `VideoInfo` of `downloader.go`, without the title and the duration. -/
structure VideoInfo where
  Formats : List Format
  Languages : List AudioLang
deriving DecidableEq

/-- The results `YouTubeDownloader.GetVideoInfo` can return for the formats of
the metadata: Go fixes neither the order in which `range` visits `langMap` nor
the order `sort.Slice` gives to equal elements. -/
def IsVideoInfo (formats : List ytdlpFormat) (info : VideoInfo) : Prop :=
  IsSorted lessHeight (collectFormats formats ([], [])).2 info.Formats ∧
  ∃ visited : List AudioLang,
    visited.Perm (langEntries (collectLangs formats [])) ∧
    IsSorted lessName visited info.Languages

/-- `YouTubeDownloader.GetVideoInfo` on the formats of the metadata, the map
visited in the order its keys were inserted and the slices sorted by
insertion; `FacebookDownloader.GetVideoInfo` builds the same `Formats` and no
`Languages`. -/
def GetVideoInfo (formats : List ytdlpFormat) : VideoInfo :=
  { Formats := sortSlice lessHeight (collectFormats formats ([], [])).2
    Languages := sortSlice lessName (langEntries (collectLangs formats [])) }

/-! ## Specification-side notions -/

/-- Number of capture groups of a pattern. -/
def groupCount : List Piece → Nat
  | [] => 0
  | Piece.group _ :: ps => groupCount ps + 1
  | _ :: ps => groupCount ps

/-- The four path lines of the output grammar, for a path `path` (and, for the move
line, a source file `x`). -/
def mergerLine (path : Str) : Str :=
  "[Merger] Merging formats into \"".toList ++ path ++ "\"".toList

/-- `[MoveFiles] Moving file "X" to "PATH"`. -/
def moveLine (x path : Str) : Str :=
  "[MoveFiles] Moving file \"".toList ++ x ++ "\" to \"".toList ++ path ++ "\"".toList

/-- `[download] Destination: PATH`. -/
def destLine (path : Str) : Str :=
  "[download] Destination: ".toList ++ path

/-- `[download] PATH has already been downloaded`. -/
def alreadyLine (path : Str) : Str :=
  "[download] ".toList ++ path ++ " has already been downloaded".toList

/-- A non-empty run of characters of a class. -/
def Run1 (p : Char → Bool) (s : Str) : Prop := s ≠ [] ∧ ∀ c ∈ s, p c = true

/-- The texts one piece of a pattern stands for. -/
def Piece.Accepts : Piece → Str → Prop
  | Piece.lit c, s => s = [c]
  | Piece.opt c, s => s = [] ∨ s = [c]
  | Piece.star p, s => ∀ x ∈ s, p x = true
  | Piece.plus p, s => Run1 p s
  | Piece.group p, s => Run1 p s

/-- The texts a pattern stands for: its language. -/
def Accepts : List Piece → Str → Prop
  | [], s => s = []
  | pc :: ps, s => ∃ a b, s = a ++ b ∧ pc.Accepts a ∧ Accepts ps b

/-- The shape of a progress report: `[download]`, white space, a percentage, `%`, white
space, `of`, white space, an optional `~`, optional white space, a size and a unit, the
percentage and the size being runs of digits and dots and the unit a run of word
characters. -/
def ProgressShape (m : Str) : Prop :=
  ∃ ws1 pct ws2 ws3 tilde ws4 size unit : Str,
    m = "[download]".toList ++ ws1 ++ pct ++ "%".toList ++ ws2 ++ "of".toList ++ ws3 ++ tilde ++
          ws4 ++ size ++ unit ∧
    Run1 isSpace ws1 ∧ Run1 isDigitDot pct ∧ Run1 isSpace ws2 ∧ Run1 isSpace ws3 ∧
    (tilde = [] ∨ tilde = ['~']) ∧ (∀ c ∈ ws4, isSpace c = true) ∧
    Run1 isDigitDot size ∧ Run1 isWord unit

/-- A line that contains a progress report. -/
def HasProgressReport (line : Str) : Prop :=
  ∃ pre m post : Str, line = pre ++ m ++ post ∧ ProgressShape m

/-- The progress line of the output grammar, `[download]  P% of ~SU`. -/
def progressLine (pct size unit : Str) : Str :=
  "[download]  ".toList ++ pct ++ "% of ~".toList ++ size ++ unit

/-- The finite values of a `float64`: the numbers `m * 2 ^ k` below `2 ^ 1024` in
magnitude, with a significand of at most 53 bits and an exponent of at least `-1074`. -/
def IsF64 (v : ℚ) : Prop :=
  |v| < 2 ^ (1024 : ℕ) ∧ ∃ m k : ℤ, |m| < 2 ^ 53 ∧ -1074 ≤ k ∧ v = (m : ℚ) * 2 ^ k


/-- The raw formats the language loop of `GetVideoInfo` looks at: an audio codec other
than `none` and a language that is not empty. -/
def HasAudioLanguage (f : ytdlpFormat) : Prop :=
  f.ACodec ≠ "none".toList ∧ f.Language ≠ []

/-- What `langMap` holds once the codes `S` have been seen: distinct keys; every entry maps
the base language of its code to that code, which was seen and is at least as long as every
code seen with the same base language; every base language seen is a key. -/
def LangInv (m : StrMap) (S : Str → Prop) : Prop :=
  (m.map Prod.fst).Nodup ∧
  (∀ e ∈ m, S e.2 ∧ baseLang e.2 = e.1 ∧
    ∀ c, S c → baseLang c = e.1 → byteLen c ≤ byteLen e.2) ∧
  (∀ c, S c → baseLang c ∈ m.map Prod.fst)
/-! ## Lemmas on the builder -/

theorem digitChar_toNat_sub (k : Nat) (hk : k < 10) : (Nat.digitChar k).toNat - 48 = k := by
  interval_cases k <;> rfl

theorem digitChar_ne_slash (k : Nat) (hk : k < 10) : Nat.digitChar k ≠ '/' := by
  interval_cases k <;> decide

theorem digitChar_ne_minus (k : Nat) (hk : k < 10) : Nat.digitChar k ≠ '-' := by
  interval_cases k <;> decide

theorem toDigitsCore_foldl (fuel : Nat) : ∀ (n : Nat) (ds : Str), n < fuel →
    (Nat.toDigitsCore 10 fuel n ds).foldl (fun acc c => 10 * acc + (c.toNat - 48)) 0
      = ds.foldl (fun acc c => 10 * acc + (c.toNat - 48)) n := by
  induction fuel with
  | zero => intro n ds h; omega
  | succ f ih =>
    intro n ds h
    have hd : (Nat.digitChar (n % 10)).toNat - 48 = n % 10 :=
      digitChar_toNat_sub _ (Nat.mod_lt _ (by decide))
    simp only [Nat.toDigitsCore]
    split
    · rename_i h0
      have : n = n % 10 := by omega
      simp only [List.foldl_cons, hd]
      congr 1
      omega
    · rename_i h0
      rw [ih (n / 10) _ (by omega)]
      simp only [List.foldl_cons, hd]
      congr 1
      omega

theorem toDigitsCore_no_slash (fuel : Nat) : ∀ (n : Nat) (ds : Str), '/' ∉ ds →
    '/' ∉ Nat.toDigitsCore 10 fuel n ds := by
  induction fuel with
  | zero => intro n ds h; simpa [Nat.toDigitsCore] using h
  | succ f ih =>
    intro n ds h
    have hd : Nat.digitChar (n % 10) ≠ '/' := digitChar_ne_slash _ (Nat.mod_lt _ (by decide))
    have hcons : '/' ∉ Nat.digitChar (n % 10) :: ds := by
      simp only [List.mem_cons, not_or]
      exact ⟨fun e => hd e.symm, h⟩
    simp only [Nat.toDigitsCore]
    split
    · exact hcons
    · exact ih _ _ hcons

theorem digitsValue_toDigits (n : Nat) : digitsValue (Nat.toDigits 10 n) = n := by
  unfold digitsValue Nat.toDigits
  rw [toDigitsCore_foldl (n + 1) n [] (by omega)]
  rfl

theorem toDigits_head_ne_minus (n : Nat) : ∀ t, Nat.toDigits 10 n ≠ '-' :: t := by
  intro t h
  have key : ∀ (fuel n : Nat) (ds : Str), (∀ t, ds ≠ '-' :: t) →
      ∀ t, Nat.toDigitsCore 10 fuel n ds ≠ '-' :: t := by
    intro fuel
    induction fuel with
    | zero => intro n ds h t; simpa [Nat.toDigitsCore] using h t
    | succ f ih =>
      intro n ds _ t
      have hd : Nat.digitChar (n % 10) ≠ '-' := digitChar_ne_minus _ (Nat.mod_lt _ (by decide))
      have hcons : ∀ t, Nat.digitChar (n % 10) :: ds ≠ '-' :: t := by
        intro t e
        exact hd (List.cons.inj e).1
      simp only [Nat.toDigitsCore]
      split
      · exact hcons t
      · exact ih _ _ hcons t
  exact key (n + 1) n [] (by intro t e; cases e) t h

/-- `itoa` writes its argument in base ten: reading the numeral back gives the number. -/
theorem decimalValue_itoa (i : Int) : decimalValue (itoa i) = i := by
  unfold itoa
  split
  · rename_i h
    simp only [decimalValue, digitsValue_toDigits]
    omega
  · rename_i h
    have hne := toDigits_head_ne_minus i.natAbs
    have : decimalValue (Nat.toDigits 10 i.natAbs) = (digitsValue (Nat.toDigits 10 i.natAbs) : Int) := by
      unfold decimalValue
      split
      · rename_i t heq
        exact absurd heq (hne t)
      · rfl
    rw [this, digitsValue_toDigits]
    omega

theorem itoa_no_slash (i : Int) : '/' ∉ itoa i := by
  unfold itoa
  have h := toDigitsCore_no_slash (i.natAbs + 1) i.natAbs [] (by simp)
  split
  · simp only [List.mem_cons, not_or]
    exact ⟨by decide, h⟩
  · exact h

theorem splitN2_head (s : Str) (sep : Char) :
    (splitN2 s sep).headD [] = s.takeWhile (fun c => c != sep) := by
  unfold splitN2
  rw [List.span_eq_take_drop]
  split <;> rename_i heq <;> simp only [Prod.mk.injEq] at heq <;> simp [heq.1]

theorem takeWhile_ne_self_of_mem (s : Str) (sep : Char) (h : sep ∈ s) :
    s.takeWhile (fun c => c != sep) ≠ s := by
  intro e
  rw [List.takeWhile_eq_self_iff] at e
  simpa using e sep h

theorem takeWhile_eq_self_of_not_mem (s : Str) (sep : Char) (h : sep ∉ s) :
    s.takeWhile (fun c => c != sep) = s := by
  rw [List.takeWhile_eq_self_iff]
  intro c hc
  simp only [bne_iff_ne, ne_eq]
  intro e
  exact h (e ▸ hc)

theorem sprintf_region (h l b : Str) :
    sprintf
      "bv[height<=%s]+ba[language=%s]/bv[height<=%s]+ba[language=%s]/b[language=%s][height<=%s]/b[language=%s][height<=%s]/bv[height<=%s]+ba[ext=m4a]/bv[height<=%s]+ba/b[height<=%s]".toList
      [h, l, h, b, l, h, b, h, h, h, h]
    = ['/'].intercalate [branchDedicated h l, branchDedicated h b, branchCombinedLang h l,
        branchCombinedLang h b, branchM4a h, branchAny h, branchCombined h] := by
  simp [sprintf, branchDedicated, branchCombinedLang, branchM4a, branchAny, branchCombined,
    List.intercalate]

theorem sprintf_plain (h l : Str) :
    sprintf
      "bv[height<=%s]+ba[language=%s]/b[language=%s][height<=%s]/bv[height<=%s]+ba[ext=m4a]/bv[height<=%s]+ba/b[height<=%s]".toList
      [h, l, l, h, h, h, h]
    = ['/'].intercalate [branchDedicated h l, branchCombinedLang h l, branchM4a h, branchAny h,
        branchCombined h] := by
  simp [sprintf, branchDedicated, branchCombinedLang, branchM4a, branchAny, branchCombined,
    List.intercalate]

theorem sprintf_nolang (h : Str) :
    sprintf "bv[height<=%s]+ba[ext=m4a]/bv[height<=%s]+ba/b[height<=%s]".toList [h, h, h]
    = ['/'].intercalate [branchM4a h, branchAny h, branchCombined h] := by
  simp [sprintf, branchM4a, branchAny, branchCombined, List.intercalate]


/-! ## Claims on the builder -/

/-- C1: for a language code `L` that contains a `-`, with base `B` the text before its
first `-` (which then differs from `L`), `buildFormatString H L` is exactly the seven-step
chain `bv[height<=H]+ba[language=L]`, `bv[height<=H]+ba[language=B]`,
`b[language=L][height<=H]`, `b[language=B][height<=H]`, `bv[height<=H]+ba[ext=m4a]`,
`bv[height<=H]+ba`, `b[height<=H]`, in this order and joined by `/`, where `H` is written
in decimal (reading `itoa H` back as a decimal numeral gives `H`). -/
theorem buildFormatString_region (H : Int) (L : Str) (hdash : '-' ∈ L) :
    L.takeWhile (fun c => c != '-') ≠ L ∧
    decimalValue (itoa H) = H ∧
    buildFormatString H L =
      ['/'].intercalate
        [branchDedicated (itoa H) L,
         branchDedicated (itoa H) (L.takeWhile (fun c => c != '-')),
         branchCombinedLang (itoa H) L,
         branchCombinedLang (itoa H) (L.takeWhile (fun c => c != '-')),
         branchM4a (itoa H),
         branchAny (itoa H),
         branchCombined (itoa H)] := by
  have hne : L ≠ [] := by
    intro e
    simp [e] at hdash
  have hb := takeWhile_ne_self_of_mem L '-' hdash
  refine ⟨hb, decimalValue_itoa H, ?_⟩
  have hb2 : (splitN2 L '-').headD [] ≠ L := by
    rw [splitN2_head]
    exact hb
  simp only [buildFormatString, if_pos hne, if_pos hb2]
  rw [sprintf_region, splitN2_head]

theorem buildFormatString_region_witness :
    '-' ∈ "en-US".toList ∧
    buildFormatString 720 "en-US".toList =
      ['/'].intercalate
        [branchDedicated (itoa 720) "en-US".toList,
         branchDedicated (itoa 720) ("en-US".toList.takeWhile (fun c => c != '-')),
         branchCombinedLang (itoa 720) "en-US".toList,
         branchCombinedLang (itoa 720) ("en-US".toList.takeWhile (fun c => c != '-')),
         branchM4a (itoa 720),
         branchAny (itoa 720),
         branchCombined (itoa 720)] :=
  ⟨by decide, (buildFormatString_region 720 "en-US".toList (by decide)).2.2⟩


theorem branchDedicated_no_slash (h l : Str) (hh : '/' ∉ h) (hl : '/' ∉ l) :
    '/' ∉ branchDedicated h l := by
  simp [branchDedicated, hh, hl]

theorem branchCombinedLang_no_slash (h l : Str) (hh : '/' ∉ h) (hl : '/' ∉ l) :
    '/' ∉ branchCombinedLang h l := by
  simp [branchCombinedLang, hh, hl]

theorem branchM4a_no_slash (h : Str) (hh : '/' ∉ h) : '/' ∉ branchM4a h := by
  simp [branchM4a, hh]

theorem branchAny_no_slash (h : Str) (hh : '/' ∉ h) : '/' ∉ branchAny h := by
  simp [branchAny, hh]

theorem branchCombined_no_slash (h : Str) (hh : '/' ∉ h) : '/' ∉ branchCombined h := by
  simp [branchCombined, hh]

theorem heightCap_infix_dedicated (h l : Str) : heightCap h <:+: branchDedicated h l :=
  ⟨"bv".toList, "+ba[language=".toList ++ l ++ "]".toList, by simp [heightCap, branchDedicated]⟩

theorem heightCap_infix_combinedLang (h l : Str) : heightCap h <:+: branchCombinedLang h l :=
  ⟨"b[language=".toList ++ l ++ "]".toList, [], by simp [heightCap, branchCombinedLang]⟩

theorem heightCap_infix_m4a (h : Str) : heightCap h <:+: branchM4a h :=
  ⟨"bv".toList, "+ba[ext=m4a]".toList, by simp [heightCap, branchM4a]⟩

theorem heightCap_infix_any (h : Str) : heightCap h <:+: branchAny h :=
  ⟨"bv".toList, "+ba".toList, by simp [heightCap, branchAny]⟩

theorem heightCap_infix_combined (h : Str) : heightCap h <:+: branchCombined h :=
  ⟨"b".toList, [], by simp [heightCap, branchCombined]⟩

theorem splitOn_region (H : Int) (L : Str) (hdash : '-' ∈ L) (hslash : '/' ∉ L) :
    List.splitOn '/' (buildFormatString H L) =
      [branchDedicated (itoa H) L,
       branchDedicated (itoa H) (L.takeWhile (fun c => c != '-')),
       branchCombinedLang (itoa H) L,
       branchCombinedLang (itoa H) (L.takeWhile (fun c => c != '-')),
       branchM4a (itoa H),
       branchAny (itoa H),
       branchCombined (itoa H)] := by
  have hne : L ≠ [] := by
    intro e
    simp [e] at hdash
  have hb2 : (splitN2 L '-').headD [] ≠ L := by
    rw [splitN2_head]
    exact takeWhile_ne_self_of_mem L '-' hdash
  have hh := itoa_no_slash H
  have hB : '/' ∉ L.takeWhile (fun c => c != '-') :=
    fun hm => hslash ((List.takeWhile_sublist _).subset hm)
  simp only [buildFormatString, if_pos hne, if_pos hb2]
  rw [sprintf_region, splitN2_head]
  apply List.splitOn_intercalate
  · intro b hb
    simp only [List.mem_cons, List.mem_singleton, List.not_mem_nil, or_false] at hb
    rcases hb with rfl | rfl | rfl | rfl | rfl | rfl | rfl
    · exact branchDedicated_no_slash _ _ hh hslash
    · exact branchDedicated_no_slash _ _ hh hB
    · exact branchCombinedLang_no_slash _ _ hh hslash
    · exact branchCombinedLang_no_slash _ _ hh hB
    · exact branchM4a_no_slash _ hh
    · exact branchAny_no_slash _ hh
    · exact branchCombined_no_slash _ hh
  · simp

/-- C2, as the code has it: for a language code `L` with a `-` and no `/`, the output of
`buildFormatString H L` split on `/` has exactly 7 branches (not 6); every branch carries the
height cap `[height<=H]`; branch 1 filters audio by the exact code `L` and branch 2 by the
base code, the text of `L` before its first `-`. -/
theorem buildFormatString_region_branches (H : Int) (L : Str)
    (hdash : '-' ∈ L) (hslash : '/' ∉ L) :
    (List.splitOn '/' (buildFormatString H L)).length = 7 ∧
    (∀ b ∈ List.splitOn '/' (buildFormatString H L), heightCap (itoa H) <:+: b) ∧
    (List.splitOn '/' (buildFormatString H L))[0]? = some (branchDedicated (itoa H) L) ∧
    (List.splitOn '/' (buildFormatString H L))[1]? =
      some (branchDedicated (itoa H) (L.takeWhile (fun c => c != '-'))) := by
  rw [splitOn_region H L hdash hslash]
  refine ⟨rfl, ?_, rfl, rfl⟩
  intro b hb
  simp only [List.mem_cons, List.mem_singleton, List.not_mem_nil, or_false] at hb
  rcases hb with rfl | rfl | rfl | rfl | rfl | rfl | rfl
  · exact heightCap_infix_dedicated _ _
  · exact heightCap_infix_dedicated _ _
  · exact heightCap_infix_combinedLang _ _
  · exact heightCap_infix_combinedLang _ _
  · exact heightCap_infix_m4a _
  · exact heightCap_infix_any _
  · exact heightCap_infix_combined _

theorem buildFormatString_region_branches_witness :
    '-' ∈ "pt-BR".toList ∧ '/' ∉ "pt-BR".toList ∧
    (List.splitOn '/' (buildFormatString 1080 "pt-BR".toList)).length = 7 :=
  ⟨by decide, by decide,
    (buildFormatString_region_branches 1080 "pt-BR".toList (by decide) (by decide)).1⟩

set_option maxRecDepth 100000 in
/-- C2 as stated fails: for height 720 and the code `en-US` the selector has 7 branches,
so it does not have exactly 6. -/
theorem buildFormatString_region_not_six :
    (List.splitOn '/' (buildFormatString 720 "en-US".toList)).length = 7 ∧
    ¬ (List.splitOn '/' (buildFormatString 720 "en-US".toList)).length = 6 := by
  decide

/-- C3: for a non-empty language code `L` without `-`, `buildFormatString H L` is exactly the
five-step chain `bv[height<=H]+ba[language=L]`, `b[language=L][height<=H]`,
`bv[height<=H]+ba[ext=m4a]`, `bv[height<=H]+ba`, `b[height<=H]`, in this order, joined by `/`. -/
theorem buildFormatString_plain (H : Int) (L : Str) (hne : L ≠ []) (hdash : '-' ∉ L) :
    buildFormatString H L =
      ['/'].intercalate
        [branchDedicated (itoa H) L,
         branchCombinedLang (itoa H) L,
         branchM4a (itoa H),
         branchAny (itoa H),
         branchCombined (itoa H)] := by
  have hb2 : ¬ (splitN2 L '-').headD [] ≠ L := by
    rw [splitN2_head, takeWhile_eq_self_of_not_mem L '-' hdash]
    simp
  simp only [buildFormatString, if_pos hne, if_neg hb2]
  rw [sprintf_plain]

theorem buildFormatString_plain_witness :
    "ja".toList ≠ [] ∧ '-' ∉ "ja".toList ∧
    buildFormatString 480 "ja".toList =
      ['/'].intercalate
        [branchDedicated (itoa 480) "ja".toList,
         branchCombinedLang (itoa 480) "ja".toList,
         branchM4a (itoa 480),
         branchAny (itoa 480),
         branchCombined (itoa 480)] :=
  ⟨by decide, by decide, buildFormatString_plain 480 "ja".toList (by decide) (by decide)⟩

/-- C4: with no language code, `buildFormatString H ""` ends with `/b[height<=H]` and, split
on `/`, consists of exactly the 3 branches `bv[height<=H]+ba[ext=m4a]`, `bv[height<=H]+ba`,
`b[height<=H]`. -/
theorem buildFormatString_nolang (H : Int) :
    ("/b[height<=".toList ++ itoa H ++ "]".toList) <:+ buildFormatString H [] ∧
    (List.splitOn '/' (buildFormatString H [])).length = 3 ∧
    List.splitOn '/' (buildFormatString H []) =
      [branchM4a (itoa H), branchAny (itoa H), branchCombined (itoa H)] := by
  have hh := itoa_no_slash H
  have hbuild : buildFormatString H [] =
      ['/'].intercalate [branchM4a (itoa H), branchAny (itoa H), branchCombined (itoa H)] := by
    simp only [buildFormatString, ne_eq, not_true_eq_false, if_false]
    rw [sprintf_nolang]
  have hsplit : List.splitOn '/' (buildFormatString H []) =
      [branchM4a (itoa H), branchAny (itoa H), branchCombined (itoa H)] := by
    rw [hbuild]
    apply List.splitOn_intercalate
    · intro b hb
      simp only [List.mem_cons, List.mem_singleton, List.not_mem_nil, or_false] at hb
      rcases hb with rfl | rfl | rfl
      · exact branchM4a_no_slash _ hh
      · exact branchAny_no_slash _ hh
      · exact branchCombined_no_slash _ hh
    · simp
  refine ⟨?_, ?_, hsplit⟩
  · rw [hbuild]
    refine ⟨branchM4a (itoa H) ++ '/' :: branchAny (itoa H), ?_⟩
    simp [List.intercalate, branchCombined]
  · rw [hsplit]
    rfl

/-! ## The backtracking search -/

theorem greedy_nil {α : Type} (p : Char → Bool) (k : Str → Option α) :
    greedy p k [] = (k []).map (fun r => ([], r)) := rfl

theorem greedy_cons_neg {α : Type} (p : Char → Bool) (k : Str → Option α) (c : Char) (s : Str)
    (h : p c = false) : greedy p k (c :: s) = (k (c :: s)).map (fun r => ([], r)) := by
  simp [greedy, h]

/-- A run of the class in front of the input is taken whole when the search succeeds
behind it. -/
theorem greedy_append_some {α : Type} (p : Char → Bool) (k : Str → Option α) (a r cap : Str)
    (x : α) (ha : ∀ c ∈ a, p c = true) (h : greedy p k r = some (cap, x)) :
    greedy p k (a ++ r) = some (a ++ cap, x) := by
  induction a with
  | nil => simpa using h
  | cons c a ih =>
    have hc : p c = true := ha c (List.mem_cons_self _ _)
    have ih2 := ih (fun d hd => ha d (List.mem_cons_of_mem _ hd))
    simp [greedy, hc, ih2]

/-- The repetition stops in front of a character outside the class. -/
theorem greedy_stop {α : Type} (p : Char → Bool) (k : Str → Option α) (a r : Str) (x : α)
    (ha : ∀ c ∈ a, p c = true) (hr : ∀ c ∈ r.head?, p c = false) (hk : k r = some x) :
    greedy p k (a ++ r) = some (a, x) := by
  have h0 : greedy p k r = some ([], x) := by
    cases r with
    | nil => simp [greedy, hk]
    | cons c s =>
      have hc : p c = false := hr c (by simp)
      rw [greedy_cons_neg p k c s hc, hk]
      rfl
  simpa using greedy_append_some p k a r [] x ha h0

/-- When the continuation fails behind every non-empty run of the class, the repetition
takes nothing. -/
theorem greedy_none_beyond {α : Type} (p : Char → Bool) (k : Str → Option α) (r : Str)
    (h : ∀ r1 r2, r = r1 ++ r2 → r1 ≠ [] → (∀ c ∈ r1, p c = true) → k r2 = none) :
    greedy p k r = (k r).map (fun x => ([], x)) := by
  induction r with
  | nil => rfl
  | cons c s ih =>
    by_cases hc : p c = true
    · have hs : k s = none := h [c] s rfl (by simp) (by simpa using hc)
      have ih2 : greedy p k s = (k s).map (fun x => ([], x)) := by
        apply ih
        intro r1 r2 e hne hall
        apply h (c :: r1) r2 (by simp [e]) (by simp)
        intro d hd
        rcases List.mem_cons.mp hd with rfl | hd
        · exact hc
        · exact hall d hd
      simp [greedy, hc, ih2, hs]
    · have hc2 : p c = false := by simpa using hc
      exact greedy_cons_neg p k c s hc2

/-- What a successful repetition took is a run of the class, and the continuation
succeeded on the rest. -/
theorem greedy_some_split {α : Type} (p : Char → Bool) (k : Str → Option α) :
    ∀ (s cap : Str) (x : α), greedy p k s = some (cap, x) →
      ∃ r, s = cap ++ r ∧ (∀ c ∈ cap, p c = true) ∧ k r = some x := by
  intro s
  induction s with
  | nil =>
    intro cap x h
    rw [greedy_nil] at h
    cases hk : k [] with
    | none => simp [hk] at h
    | some y =>
      simp only [hk, Option.map_some', Option.some.injEq, Prod.mk.injEq] at h
      obtain ⟨rfl, rfl⟩ := h
      exact ⟨[], rfl, by simp, hk⟩
  | cons c s ih =>
    intro cap x h
    have hkcase : (k (c :: s)).map (fun r => (([] : Str), r)) = some (cap, x) →
        ∃ r, c :: s = cap ++ r ∧ (∀ d ∈ cap, p d = true) ∧ k r = some x := by
      intro h2
      cases hk : k (c :: s) with
      | none => simp [hk] at h2
      | some y =>
        simp only [hk, Option.map_some', Option.some.injEq, Prod.mk.injEq] at h2
        obtain ⟨rfl, rfl⟩ := h2
        exact ⟨c :: s, rfl, by simp, hk⟩
    by_cases hc : p c = true
    · cases hg : greedy p k s with
      | some res =>
        obtain ⟨cap2, y⟩ := res
        simp only [greedy, hc, if_true, hg, Option.some.injEq, Prod.mk.injEq] at h
        obtain ⟨rfl, rfl⟩ := h
        obtain ⟨r, e, hall, hk⟩ := ih cap2 y hg
        refine ⟨r, by simp [e], ?_, hk⟩
        intro d hd
        rcases List.mem_cons.mp hd with rfl | hd
        · exact hc
        · exact hall d hd
      | none =>
        simp only [greedy, hc, if_true, hg] at h
        exact hkcase h
    · have hc2 : p c = false := by simpa using hc
      rw [greedy_cons_neg p k c s hc2] at h
      exact hkcase h

/-- The repetition succeeds as soon as the continuation succeeds behind some run of the
class. -/
theorem greedy_isSome_of_split {α : Type} (p : Char → Bool) (k : Str → Option α) :
    ∀ (a r : Str), (∀ c ∈ a, p c = true) → (k r).isSome = true →
      (greedy p k (a ++ r)).isSome = true := by
  intro a
  induction a with
  | nil =>
    intro r _ hk
    obtain ⟨x, hx⟩ := Option.isSome_iff_exists.mp hk
    cases r with
    | nil => simp [greedy, hx]
    | cons c s =>
      by_cases hc : p c = true
      · cases hg : greedy p k s with
        | some res => simp [greedy, hc, hg]
        | none => simp [greedy, hc, hg, hx]
      · have hc2 : p c = false := by simpa using hc
        simp [greedy, hc2, hx]
  | cons c a ih =>
    intro r ha hk
    have hc : p c = true := ha c (List.mem_cons_self _ _)
    have h2 := ih r (fun d hd => ha d (List.mem_cons_of_mem _ hd)) hk
    obtain ⟨res, hres⟩ := Option.isSome_iff_exists.mp h2
    simp [greedy, hc, hres]

theorem matchHere_lits (l : Str) (ps : List Piece) (s : Str) :
    matchHere (l.map Piece.lit ++ ps) (l ++ s) = matchHere ps s := by
  induction l with
  | nil => rfl
  | cons c l ih => simp [matchHere, ih]

/-- A pattern that starts with literal text matches only an input that starts with it. -/
theorem matchHere_lits_some (l : Str) (ps : List Piece) :
    ∀ (s : Str) (x : Str × List Str), matchHere (l.map Piece.lit ++ ps) s = some x →
      ∃ t, s = l ++ t ∧ matchHere ps t = some x := by
  induction l with
  | nil => intro s x h; exact ⟨s, rfl, h⟩
  | cons c l ih =>
    intro s x h
    cases s with
    | nil => simp [matchHere] at h
    | cons d t =>
      by_cases hd : d = c
      · subst hd
        simp only [List.map_cons, List.cons_append, matchHere, if_true] at h
        obtain ⟨t2, e, h2⟩ := ih t x h
        exact ⟨t2, by simp [e], h2⟩
      · simp [matchHere, hd] at h

theorem FindStringSubmatch_of_matchHere (re : List Piece) (s rest : Str) (gs : List Str)
    (h : matchHere re s = some (rest, gs)) :
    FindStringSubmatch re s = s.take (s.length - rest.length) :: gs := by
  cases s with
  | nil =>
    simp only [FindStringSubmatch, h]
    simp
  | cons c s => simp only [FindStringSubmatch, h]

/-! ## Path extraction -/

theorem matchHere_group_run (p : Char → Bool) (ps : List Piece) (a r rest : Str)
    (gs : List Str) (hne : a ≠ []) (ha : ∀ c ∈ a, p c = true)
    (h : greedy p (matchHere ps) r = some ([], (rest, gs))) :
    matchHere (Piece.group p :: ps) (a ++ r) = some (rest, a :: gs) := by
  have hg := greedy_append_some p (matchHere ps) a r [] (rest, gs) ha h
  cases a with
  | nil => exact absurd rfl hne
  | cons c a =>
    simp only [List.append_nil] at hg
    simp only [matchHere, hg]

theorem matchHere_plus_run (p : Char → Bool) (ps : List Piece) (a r : Str)
    (x : Str × List Str) (hne : a ≠ []) (ha : ∀ c ∈ a, p c = true)
    (h : greedy p (matchHere ps) r = some ([], x)) :
    matchHere (Piece.plus p :: ps) (a ++ r) = some x := by
  have hg := greedy_append_some p (matchHere ps) a r [] x ha h
  cases a with
  | nil => exact absurd rfl hne
  | cons c a =>
    simp only [List.append_nil] at hg
    simp only [matchHere, hg]

theorem isAny_of_not_mem (s : Str) (h : '\n' ∉ s) : ∀ c ∈ s, isAny c = true := by
  intro c hc
  simp only [isAny, bne_iff_ne, ne_eq]
  intro e
  exact h (e ▸ hc)

theorem matchHere_destRegex (path : Str) (hne : path ≠ []) (hnl : '\n' ∉ path) :
    matchHere destRegex (destLine path) = some ([], [path]) := by
  have h := matchHere_group_run isAny [] path [] [] [] hne (isAny_of_not_mem path hnl) rfl
  rw [List.append_nil] at h
  unfold destRegex destLine lits
  rw [matchHere_lits, h]

theorem matchHere_mergerRegex (path : Str) (hne : path ≠ []) (hnl : '\n' ∉ path) :
    matchHere mergerRegex (mergerLine path) = some ([], [path]) := by
  have h := matchHere_group_run isAny [Piece.lit '"'] path ['"'] [] [] hne
    (isAny_of_not_mem path hnl) rfl
  unfold mergerRegex mergerLine lits
  rw [List.append_assoc, matchHere_lits]
  exact h

theorem matchHere_alreadyRegex (path : Str) (hne : path ≠ []) (hnl : '\n' ∉ path) :
    matchHere alreadyRegex (alreadyLine path) = some ([], [path]) := by
  have h := matchHere_group_run isAny (lits " has already been downloaded") path
    " has already been downloaded".toList [] [] hne (isAny_of_not_mem path hnl) (by decide)
  unfold alreadyRegex alreadyLine
  rw [List.append_assoc, List.append_assoc]
  unfold lits
  rw [matchHere_lits]
  exact h

/-- A successful match of `(.+)"` takes at least one character and a closing quote. -/
theorem matchHere_group_quote_some (t : Str) (x : Str × List Str)
    (h : matchHere [Piece.group isAny, Piece.lit '"'] t = some x) :
    ∃ c cap r, t = c :: (cap ++ '"' :: r) := by
  simp only [matchHere] at h
  split at h
  · rename_i c cap rest gs hg
    obtain ⟨r, e, -, hk⟩ := greedy_some_split isAny _ t (c :: cap) (rest, gs) hg
    cases r with
    | nil => simp at hk
    | cons d r =>
      by_cases hd : d = '"'
      · subst hd
        exact ⟨c, cap, r, by simpa using e⟩
      · simp [hd] at hk
  · exact absurd h (by simp)

/-- Behind the source file of a move line the rest of the move pattern matches at one
place only, when no `" to "` followed by a further character occurs in `"PATH`. -/
theorem move_tail_none (path r1 r2 : Str)
    (hsafe : ∀ c : Char, ¬ ("\" to \"".toList ++ [c]) <:+: ('"' :: path))
    (e : "\" to \"".toList ++ path ++ "\"".toList = r1 ++ r2) (hne : r1 ≠ []) :
    matchHere (lits "\" to \"" ++ [Piece.group isAny, Piece.lit '"']) r2 = none := by
  cases hm : matchHere (lits "\" to \"" ++ [Piece.group isAny, Piece.lit '"']) r2 with
  | none => rfl
  | some x =>
    exfalso
    unfold lits at hm
    obtain ⟨t, e2, hm2⟩ := matchHere_lits_some _ _ r2 x hm
    obtain ⟨c, cap, r, e3⟩ := matchHere_group_quote_some t x hm2
    subst e3
    subst e2
    have hz : cap ++ '"' :: r ≠ [] := by simp
    obtain ⟨z, l, hzl⟩ : ∃ z l, cap ++ '"' :: r = z ++ [l] :=
      ⟨_, _, (List.dropLast_append_getLast hz).symm⟩
    rw [hzl] at e
    rcases r1 with _ | ⟨x1, _ | ⟨x2, _ | ⟨x3, _ | ⟨x4, _ | ⟨x5, r1⟩⟩⟩⟩⟩
    · exact hne rfl
    · simp at e
    · simp at e
    · simp at e
    · simp at e
    · have e4 : ('"' :: path) ++ ['"'] = (r1 ++ ("\" to \"".toList ++ [c]) ++ z) ++ [l] := by
        simp only [String.toList, List.cons_append, List.nil_append, List.cons.injEq] at e
        simp [e.2.2.2.2.2]
      have e5 := (List.append_inj' e4 rfl).1
      exact hsafe c ⟨r1, z, e5.symm⟩

theorem matchHere_moveRegex (x path : Str) (hx : x ≠ []) (hxnl : '\n' ∉ x)
    (hne : path ≠ []) (hnl : '\n' ∉ path)
    (hsafe : ∀ c : Char, ¬ ("\" to \"".toList ++ [c]) <:+: ('"' :: path)) :
    matchHere moveRegex (moveLine x path) = some ([], [path]) := by
  have hq : matchHere (lits "\" to \"" ++ [Piece.group isAny, Piece.lit '"'])
      ("\" to \"".toList ++ path ++ "\"".toList) = some ([], [path]) := by
    have h := matchHere_group_run isAny [Piece.lit '"'] path ['"'] [] [] hne
      (isAny_of_not_mem path hnl) rfl
    unfold lits
    rw [List.append_assoc, matchHere_lits]
    exact h
  have hg : greedy isAny (matchHere (lits "\" to \"" ++ [Piece.group isAny, Piece.lit '"']))
      ("\" to \"".toList ++ path ++ "\"".toList) = some ([], ([], [path])) := by
    rw [greedy_none_beyond, hq]
    · rfl
    · intro r1 r2 e hr1 _
      exact move_tail_none path r1 r2 hsafe e hr1
  have h := matchHere_plus_run isAny _ x _ _ hx (isAny_of_not_mem x hxnl) hg
  unfold moveRegex moveLine
  simp only [List.append_assoc]
  unfold lits
  rw [matchHere_lits]
  simpa [lits, List.append_assoc] using h

/-- A path in whose quoted form `" to "` does not occur at all meets the condition of
`matchHere_moveRegex`. -/
theorem move_safe_of_absent (path : Str)
    (h : ¬ "\" to \"".toList <:+: ('"' :: path)) :
    ∀ c : Char, ¬ ("\" to \"".toList ++ [c]) <:+: ('"' :: path) := by
  intro c hc
  obtain ⟨s, t, e⟩ := hc
  exact h ⟨s, c :: t, by simpa [List.append_assoc] using e⟩

theorem matchHere_groups_length (re : List Piece) :
    ∀ (s rest : Str) (gs : List Str), matchHere re s = some (rest, gs) →
      gs.length = groupCount re := by
  induction re with
  | nil =>
    intro s rest gs h
    simp only [matchHere, Option.some.injEq, Prod.mk.injEq] at h
    simp [← h.2, groupCount]
  | cons pc ps ih =>
    intro s rest gs h
    cases pc with
    | lit c =>
      cases s with
      | nil => simp [matchHere] at h
      | cons d t =>
        by_cases hd : d = c
        · simp only [matchHere, hd, if_true] at h
          simpa [groupCount] using ih t rest gs h
        · simp [matchHere, hd] at h
    | opt c =>
      have key : ∀ s2, matchHere ps s2 = some (rest, gs) → gs.length = groupCount (Piece.opt c :: ps) :=
        fun s2 h2 => by simpa [groupCount] using ih s2 rest gs h2
      cases s with
      | nil => exact key [] (by simpa [matchHere] using h)
      | cons d t =>
        by_cases hd : d = c
        · simp only [matchHere, hd, if_true] at h
          cases hm : matchHere ps t with
          | some r =>
            rw [hm] at h
            simp only [Option.some.injEq] at h
            exact key t (by rw [hm, h])
          | none =>
            rw [hm] at h
            exact key _ h
        · simp only [matchHere, hd, if_false] at h
          exact key _ h
    | star p =>
      simp only [matchHere] at h
      cases hg : greedy p (matchHere ps) s with
      | none => simp [hg] at h
      | some res =>
        obtain ⟨cap, x⟩ := res
        simp only [hg, Option.map_some', Option.some.injEq] at h
        subst h
        obtain ⟨r, -, -, hk⟩ := greedy_some_split p _ s cap _ hg
        simpa [groupCount] using ih r rest gs hk
    | plus p =>
      simp only [matchHere] at h
      split at h
      · rename_i c cap x hg
        simp only [Option.some.injEq] at h
        subst h
        obtain ⟨r, -, -, hk⟩ := greedy_some_split p _ s (c :: cap) _ hg
        simpa [groupCount] using ih r rest gs hk
      · exact absurd h (by simp)
    | group p =>
      simp only [matchHere] at h
      split at h
      · rename_i c cap rest2 gs2 hg
        simp only [Option.some.injEq, Prod.mk.injEq] at h
        obtain ⟨-, rfl⟩ := h
        obtain ⟨r, -, -, hk⟩ := greedy_some_split p _ s (c :: cap) _ hg
        simpa [groupCount] using ih r rest2 gs2 hk
      · exact absurd h (by simp)

/-- A match is reported as the matched text followed by one text per capture group. -/
theorem FindStringSubmatch_length (re : List Piece) (s : Str) :
    FindStringSubmatch re s = [] ∨ (FindStringSubmatch re s).length = groupCount re + 1 := by
  induction s with
  | nil =>
    cases hm : matchHere re [] with
    | none => left; simp [FindStringSubmatch, hm]
    | some x =>
      right
      simp only [FindStringSubmatch, hm, List.length_cons]
      rw [matchHere_groups_length re [] x.1 x.2 hm]
  | cons c s ih =>
    cases hm : matchHere re (c :: s) with
    | none =>
      simp only [FindStringSubmatch, hm]
      exact ih
    | some x =>
      right
      simp only [FindStringSubmatch, hm, List.length_cons]
      rw [matchHere_groups_length re (c :: s) x.1 x.2 hm]

theorem FindStringSubmatch_two_le_iff (re : List Piece) (hre : groupCount re = 1) (s : Str) :
    2 ≤ (FindStringSubmatch re s).length ↔ FindStringSubmatch re s ≠ [] := by
  rcases FindStringSubmatch_length re s with h | h
  · simp [h]
  · rw [hre] at h
    constructor
    · intro _ e
      rw [e] at h
      simp at h
    · intro _
      omega

theorem extractFilePath_eq (line : Str) :
    extractFilePath line =
      if FindStringSubmatch moveRegex line ≠ [] then
        (FindStringSubmatch moveRegex line).getD 1 []
      else if FindStringSubmatch mergerRegex line ≠ [] then
        (FindStringSubmatch mergerRegex line).getD 1 []
      else if FindStringSubmatch destRegex line ≠ [] then
        (FindStringSubmatch destRegex line).getD 1 []
      else if FindStringSubmatch alreadyRegex line ≠ [] then
        (FindStringSubmatch alreadyRegex line).getD 1 []
      else [] := by
  unfold extractFilePath
  simp only [FindStringSubmatch_two_le_iff moveRegex rfl, FindStringSubmatch_two_le_iff mergerRegex rfl,
    FindStringSubmatch_two_le_iff destRegex rfl, FindStringSubmatch_two_le_iff alreadyRegex rfl]

theorem extractFilePath_of_matchHere_move (line rest path : Str)
    (h : matchHere moveRegex line = some (rest, [path])) : extractFilePath line = path := by
  rw [extractFilePath_eq, FindStringSubmatch_of_matchHere _ _ _ _ h]
  simp

theorem extractFilePath_of_matchHere_merger (line rest path : Str)
    (h0 : FindStringSubmatch moveRegex line = [])
    (h : matchHere mergerRegex line = some (rest, [path])) : extractFilePath line = path := by
  rw [extractFilePath_eq, h0, FindStringSubmatch_of_matchHere _ _ _ _ h]
  simp

theorem extractFilePath_of_matchHere_dest (line rest path : Str)
    (h0 : FindStringSubmatch moveRegex line = [])
    (h1 : FindStringSubmatch mergerRegex line = [])
    (h : matchHere destRegex line = some (rest, [path])) : extractFilePath line = path := by
  rw [extractFilePath_eq, h0, h1, FindStringSubmatch_of_matchHere _ _ _ _ h]
  simp

theorem extractFilePath_of_matchHere_already (line rest path : Str)
    (h0 : FindStringSubmatch moveRegex line = [])
    (h1 : FindStringSubmatch mergerRegex line = [])
    (h2 : FindStringSubmatch destRegex line = [])
    (h : matchHere alreadyRegex line = some (rest, [path])) : extractFilePath line = path := by
  rw [extractFilePath_eq, h0, h1, h2, FindStringSubmatch_of_matchHere _ _ _ _ h]
  simp

/-- C6, as the code has it: for a non-empty `PATH` without line feed, `extractFilePath`
returns exactly `PATH` on each of the four grammar lines as long as no pattern of higher
priority matches the same line, and, for the move line, the source `X` is non-empty without
line feed and `"PATH` contains no `" to "` followed by a further character; and it returns
the empty string on every line that none of the four patterns matches. -/
theorem extractFilePath_grammar (path : Str) (hne : path ≠ []) (hnl : '\n' ∉ path) :
    (∀ x : Str, x ≠ [] → '\n' ∉ x →
      (∀ c : Char, ¬ ("\" to \"".toList ++ [c]) <:+: ('"' :: path)) →
      extractFilePath (moveLine x path) = path) ∧
    (FindStringSubmatch moveRegex (mergerLine path) = [] →
      extractFilePath (mergerLine path) = path) ∧
    (FindStringSubmatch moveRegex (destLine path) = [] →
      FindStringSubmatch mergerRegex (destLine path) = [] →
      extractFilePath (destLine path) = path) ∧
    (FindStringSubmatch moveRegex (alreadyLine path) = [] →
      FindStringSubmatch mergerRegex (alreadyLine path) = [] →
      FindStringSubmatch destRegex (alreadyLine path) = [] →
      extractFilePath (alreadyLine path) = path) ∧
    (∀ line : Str, FindStringSubmatch moveRegex line = [] →
      FindStringSubmatch mergerRegex line = [] →
      FindStringSubmatch destRegex line = [] →
      FindStringSubmatch alreadyRegex line = [] →
      extractFilePath line = []) := by
  refine ⟨?_, ?_, ?_, ?_, ?_⟩
  · intro x hx hxnl hsafe
    exact extractFilePath_of_matchHere_move _ _ _ (matchHere_moveRegex x path hx hxnl hne hnl hsafe)
  · intro h0
    exact extractFilePath_of_matchHere_merger _ _ _ h0 (matchHere_mergerRegex path hne hnl)
  · intro h0 h1
    exact extractFilePath_of_matchHere_dest _ _ _ h0 h1 (matchHere_destRegex path hne hnl)
  · intro h0 h1 h2
    exact extractFilePath_of_matchHere_already _ _ _ h0 h1 h2 (matchHere_alreadyRegex path hne hnl)
  · intro line h0 h1 h2 h3
    rw [extractFilePath_eq, h0, h1, h2, h3]
    simp

set_option maxRecDepth 100000 in
theorem extractFilePath_grammar_witness :
    "/tmp/a.mp4".toList ≠ [] ∧ '\n' ∉ "/tmp/a.mp4".toList ∧
    extractFilePath (moveLine "/tmp/a.temp.mp4".toList "/tmp/a.mp4".toList) = "/tmp/a.mp4".toList ∧
    extractFilePath (mergerLine "/tmp/a.mp4".toList) = "/tmp/a.mp4".toList ∧
    extractFilePath (destLine "/tmp/a.mp4".toList) = "/tmp/a.mp4".toList ∧
    extractFilePath (alreadyLine "/tmp/a.mp4".toList) = "/tmp/a.mp4".toList :=
  ⟨by decide, by decide,
   (extractFilePath_grammar "/tmp/a.mp4".toList (by decide) (by decide)).1
      "/tmp/a.temp.mp4".toList (by decide) (by decide)
      (move_safe_of_absent _ (by decide)),
   (extractFilePath_grammar "/tmp/a.mp4".toList (by decide) (by decide)).2.1 (by decide),
   (extractFilePath_grammar "/tmp/a.mp4".toList (by decide) (by decide)).2.2.1
      (by decide) (by decide),
   (extractFilePath_grammar "/tmp/a.mp4".toList (by decide) (by decide)).2.2.2.1
      (by decide) (by decide) (by decide)⟩

set_option maxRecDepth 100000 in
/-- C6 as stated fails: on the already-downloaded line of the path `Destination: x` the
destination pattern wins and the result is `x has already been downloaded`; on the move line
of the path `b" to "c` the result is `c`. -/
theorem extractFilePath_grammar_fails :
    extractFilePath (alreadyLine "Destination: x".toList) = "x has already been downloaded".toList ∧
    extractFilePath (alreadyLine "Destination: x".toList) ≠ "Destination: x".toList ∧
    extractFilePath (moveLine "a".toList "b\" to \"c".toList) = "c".toList ∧
    extractFilePath (moveLine "a".toList "b\" to \"c".toList) ≠ "b\" to \"c".toList := by
  decide

set_option maxRecDepth 100000 in
/-- C7: `extractFilePath` returns the capture of the first pattern that matches, in the order
move, merger, destination, already-downloaded (the empty string when none matches); a line
that both the destination and the merger pattern match yields the merger capture. -/
theorem extractFilePath_priority :
    (∀ line : Str,
      extractFilePath line =
        if FindStringSubmatch moveRegex line ≠ [] then
          (FindStringSubmatch moveRegex line).getD 1 []
        else if FindStringSubmatch mergerRegex line ≠ [] then
          (FindStringSubmatch mergerRegex line).getD 1 []
        else if FindStringSubmatch destRegex line ≠ [] then
          (FindStringSubmatch destRegex line).getD 1 []
        else if FindStringSubmatch alreadyRegex line ≠ [] then
          (FindStringSubmatch alreadyRegex line).getD 1 []
        else []) ∧
    (FindStringSubmatch destRegex
        "[download] Destination: [Merger] Merging formats into \"/tmp/a.mkv\"".toList).getD 1 []
      = "[Merger] Merging formats into \"/tmp/a.mkv\"".toList ∧
    (FindStringSubmatch mergerRegex
        "[download] Destination: [Merger] Merging formats into \"/tmp/a.mkv\"".toList).getD 1 []
      = "/tmp/a.mkv".toList ∧
    extractFilePath
        "[download] Destination: [Merger] Merging formats into \"/tmp/a.mkv\"".toList
      = "/tmp/a.mkv".toList :=
  ⟨extractFilePath_eq, by decide, by decide, by decide⟩

/-! ## The line handler -/

theorem parseLine_filePath (hp : Bool) (st : Harvest) (line : Str) :
    (parseLine hp st line).filePath =
      if extractFilePath line ≠ [] then extractFilePath line else st.filePath := by
  unfold parseLine
  dsimp only
  split_ifs <;> rfl

theorem foldl_parseLine_filePath (hp : Bool) (lines : List Str) :
    ∀ st : Harvest, (lines.foldl (parseLine hp) st).filePath =
      ((lines.reverse.find? (fun l => !(extractFilePath l).isEmpty)).map extractFilePath).getD
        st.filePath := by
  induction lines with
  | nil => intro st; rfl
  | cons l ls ih =>
    intro st
    rw [List.foldl_cons, ih, List.reverse_cons, List.find?_append]
    cases hf : ls.reverse.find? (fun l => !(extractFilePath l).isEmpty) with
    | some v => simp
    | none =>
      rw [parseLine_filePath]
      by_cases h : extractFilePath l = []
      · simp [h]
      · simp [h]

/-- C5: fed the lines in arrival order, the handler ends with `extractFilePath` of the last
line for which `extractFilePath` is non-empty (the empty path when there is none): each such
line overwrites the path whatever was recorded before.  So a destination line after a merger
or move line replaces their path, and for `[download] Destination: /tmp/a.mp4` followed by
`[Merger] Merging formats into "/tmp/a.mkv"` the harvested path is `/tmp/a.mkv`. -/
theorem harvest_last_wins :
    (∀ (hp : Bool) (lines : List Str),
      (harvest hp lines).filePath =
        ((lines.reverse.find? (fun l => !(extractFilePath l).isEmpty)).map extractFilePath).getD
          []) ∧
    (∀ (hp : Bool) (lines : List Str) (l : Str), extractFilePath l ≠ [] →
      (harvest hp (lines ++ [l])).filePath = extractFilePath l) ∧
    (∀ hp : Bool,
      (harvest hp [destLine "/tmp/a.mp4".toList, mergerLine "/tmp/a.mkv".toList]).filePath
        = "/tmp/a.mkv".toList) ∧
    (∀ hp : Bool,
      (harvest hp [mergerLine "/tmp/a.mkv".toList, destLine "/tmp/b.mp4".toList]).filePath
        = "/tmp/b.mp4".toList) ∧
    (∀ hp : Bool,
      (harvest hp [moveLine "/tmp/a.tmp".toList "/tmp/a.mkv".toList,
        destLine "/tmp/b.mp4".toList]).filePath = "/tmp/b.mp4".toList) := by
  have hgen : ∀ (hp : Bool) (lines : List Str),
      (harvest hp lines).filePath =
        ((lines.reverse.find? (fun l => !(extractFilePath l).isEmpty)).map extractFilePath).getD
          [] := fun hp lines => foldl_parseLine_filePath hp lines ⟨[], []⟩
  have hd : ∀ p : Str, p ≠ [] → '\n' ∉ p →
      FindStringSubmatch moveRegex (destLine p) = [] →
      FindStringSubmatch mergerRegex (destLine p) = [] →
      extractFilePath (destLine p) = p := fun p h1 h2 h3 h4 =>
    extractFilePath_of_matchHere_dest _ _ _ h3 h4 (matchHere_destRegex p h1 h2)
  have hm : ∀ p : Str, p ≠ [] → '\n' ∉ p →
      FindStringSubmatch moveRegex (mergerLine p) = [] →
      extractFilePath (mergerLine p) = p := fun p h1 h2 h3 =>
    extractFilePath_of_matchHere_merger _ _ _ h3 (matchHere_mergerRegex p h1 h2)
  have e2 : extractFilePath (mergerLine "/tmp/a.mkv".toList) = "/tmp/a.mkv".toList :=
    hm _ (by decide) (by decide) (by decide)
  have e3 : extractFilePath (destLine "/tmp/b.mp4".toList) = "/tmp/b.mp4".toList :=
    hd _ (by decide) (by decide) (by decide) (by decide)
  have hlast : ∀ (hp : Bool) (lines : List Str) (l : Str), extractFilePath l ≠ [] →
      (harvest hp (lines ++ [l])).filePath = extractFilePath l := by
    intro hp lines l hl
    rw [hgen, List.reverse_append]
    simp [hl]
  refine ⟨hgen, hlast, ?_, ?_, ?_⟩
  · intro hp
    exact (hlast hp [destLine "/tmp/a.mp4".toList] (mergerLine "/tmp/a.mkv".toList)
      (by rw [e2]; decide)).trans e2
  · intro hp
    exact (hlast hp [mergerLine "/tmp/a.mkv".toList] (destLine "/tmp/b.mp4".toList)
      (by rw [e3]; decide)).trans e3
  · intro hp
    exact (hlast hp [moveLine "/tmp/a.tmp".toList "/tmp/a.mkv".toList]
      (destLine "/tmp/b.mp4".toList) (by rw [e3]; decide)).trans e3

/-! ## The search finds exactly the language of the pattern -/

theorem greedy_cons_some {α : Type} (p : Char → Bool) (k : Str → Option α) (c : Char) (s : Str)
    (hc : p c = true) (h : (greedy p k s).isSome = true) :
    ∃ cap x, greedy p k (c :: s) = some (c :: cap, x) := by
  obtain ⟨res, hres⟩ := Option.isSome_iff_exists.mp h
  exact ⟨res.1, res.2, by simp [greedy, hc, hres]⟩

/-- Soundness: what `matchHere` consumes belongs to the language of the pattern. -/
theorem matchHere_sound (re : List Piece) :
    ∀ (s rest : Str) (gs : List Str), matchHere re s = some (rest, gs) →
      ∃ m, s = m ++ rest ∧ Accepts re m := by
  induction re with
  | nil =>
    intro s rest gs h
    simp only [matchHere, Option.some.injEq, Prod.mk.injEq] at h
    exact ⟨[], by simp [h.1], rfl⟩
  | cons pc ps ih =>
    intro s rest gs h
    cases pc with
    | lit c =>
      cases s with
      | nil => simp [matchHere] at h
      | cons d t =>
        by_cases hd : d = c
        · simp only [matchHere, hd, if_true] at h
          obtain ⟨m, e, hm⟩ := ih t rest gs h
          exact ⟨c :: m, by simp [hd, e], [c], m, rfl, rfl, hm⟩
        · simp [matchHere, hd] at h
    | opt c =>
      have skip : ∀ s2, matchHere ps s2 = some (rest, gs) →
          ∃ m, s2 = m ++ rest ∧ Accepts (Piece.opt c :: ps) m := by
        intro s2 h2
        obtain ⟨m, e, hm⟩ := ih s2 rest gs h2
        exact ⟨m, e, [], m, rfl, Or.inl rfl, hm⟩
      cases s with
      | nil => exact skip [] (by simpa [matchHere] using h)
      | cons d t =>
        by_cases hd : d = c
        · simp only [matchHere, hd, if_true] at h
          cases hm : matchHere ps t with
          | some r =>
            rw [hm] at h
            simp only [Option.some.injEq] at h
            subst h
            obtain ⟨m, e, hm2⟩ := ih t rest gs hm
            exact ⟨c :: m, by simp [hd, e], [c], m, rfl, Or.inr rfl, hm2⟩
          | none =>
            rw [hm] at h
            rw [hd]
            exact skip _ h
        · simp only [matchHere, hd, if_false] at h
          exact skip _ h
    | star p =>
      simp only [matchHere] at h
      cases hg : greedy p (matchHere ps) s with
      | none => simp [hg] at h
      | some res =>
        obtain ⟨cap, x⟩ := res
        simp only [hg, Option.map_some', Option.some.injEq] at h
        subst h
        obtain ⟨r, e, hall, hk⟩ := greedy_some_split p _ s cap _ hg
        obtain ⟨m, e2, hm⟩ := ih r rest gs hk
        exact ⟨cap ++ m, by simp [e, e2], cap, m, rfl, hall, hm⟩
    | plus p =>
      simp only [matchHere] at h
      split at h
      · rename_i c cap x hg
        simp only [Option.some.injEq] at h
        subst h
        obtain ⟨r, e, hall, hk⟩ := greedy_some_split p _ s (c :: cap) _ hg
        obtain ⟨m, e2, hm⟩ := ih r rest gs hk
        exact ⟨(c :: cap) ++ m, by simp [e, e2], c :: cap, m, rfl, ⟨by simp, hall⟩, hm⟩
      · exact absurd h (by simp)
    | group p =>
      simp only [matchHere] at h
      split at h
      · rename_i c cap rest2 gs2 hg
        simp only [Option.some.injEq, Prod.mk.injEq] at h
        obtain ⟨rfl, -⟩ := h
        obtain ⟨r, e, hall, hk⟩ := greedy_some_split p _ s (c :: cap) _ hg
        obtain ⟨m, e2, hm⟩ := ih r rest2 gs2 hk
        exact ⟨(c :: cap) ++ m, by simp [e, e2], c :: cap, m, rfl, ⟨by simp, hall⟩, hm⟩
      · exact absurd h (by simp)

/-- Completeness: `matchHere` succeeds on every input that starts with a text of the
language of the pattern. -/
theorem matchHere_complete (re : List Piece) :
    ∀ (m rest : Str), Accepts re m → (matchHere re (m ++ rest)).isSome = true := by
  induction re with
  | nil => intro m rest _; rfl
  | cons pc ps ih =>
    intro m rest h
    obtain ⟨a, b, rfl, ha, hb⟩ := h
    have ihb := ih b rest hb
    cases pc with
    | lit c =>
      have ha2 : a = [c] := ha
      subst ha2
      simpa [matchHere] using ihb
    | opt c =>
      have skip : ∀ s2, (matchHere ps s2).isSome = true →
          (matchHere (Piece.opt c :: ps) s2).isSome = true := by
        intro s2 h2
        cases s2 with
        | nil => simpa [matchHere] using h2
        | cons d t =>
          by_cases hd : d = c
          · simp only [matchHere, hd, if_true]
            cases hm : matchHere ps t with
            | some r => rfl
            | none => simpa [hd] using h2
          · simpa [matchHere, hd] using h2
      rcases (show a = [] ∨ a = [c] from ha) with rfl | rfl
      · simpa using skip _ ihb
      · obtain ⟨r, hr⟩ := Option.isSome_iff_exists.mp ihb
        show (matchHere (Piece.opt c :: ps) (c :: (b ++ rest))).isSome = true
        simp only [matchHere, if_true, hr]
        rfl
    | star p =>
      have ha2 : ∀ x ∈ a, p x = true := ha
      have hg := greedy_isSome_of_split p (matchHere ps) a (b ++ rest) ha2 ihb
      obtain ⟨res, hres⟩ := Option.isSome_iff_exists.mp hg
      simp [matchHere, List.append_assoc, hres]
    | plus p =>
      obtain ⟨hne, hall⟩ := (show Run1 p a from ha)
      cases a with
      | nil => exact absurd rfl hne
      | cons c a =>
        have hg := greedy_isSome_of_split p (matchHere ps) a (b ++ rest)
          (fun d hd => hall d (List.mem_cons_of_mem _ hd)) ihb
        obtain ⟨cap, x, hx⟩ := greedy_cons_some p (matchHere ps) c (a ++ (b ++ rest))
          (hall c (List.mem_cons_self _ _)) hg
        simp [matchHere, List.append_assoc, hx]
    | group p =>
      obtain ⟨hne, hall⟩ := (show Run1 p a from ha)
      cases a with
      | nil => exact absurd rfl hne
      | cons c a =>
        have hg := greedy_isSome_of_split p (matchHere ps) a (b ++ rest)
          (fun d hd => hall d (List.mem_cons_of_mem _ hd)) ihb
        obtain ⟨cap, x, hx⟩ := greedy_cons_some p (matchHere ps) c (a ++ (b ++ rest))
          (hall c (List.mem_cons_self _ _)) hg
        simp [matchHere, List.append_assoc, hx]

/-- `FindStringSubmatch` reports a match exactly when the input contains a text of the
language of the pattern. -/
theorem FindStringSubmatch_ne_nil_iff (re : List Piece) (s : Str) :
    FindStringSubmatch re s ≠ [] ↔ ∃ pre m post, s = pre ++ m ++ post ∧ Accepts re m := by
  induction s with
  | nil =>
    constructor
    · intro h
      cases hm : matchHere re [] with
      | none => simp [FindStringSubmatch, hm] at h
      | some x =>
        obtain ⟨m, e, hacc⟩ := matchHere_sound re [] x.1 x.2 hm
        exact ⟨[], m, x.1, by simpa using e, hacc⟩
    · rintro ⟨pre, m, post, e, hacc⟩
      have hpre : pre = [] ∧ m = [] ∧ post = [] := by
        have := congrArg List.length e
        simp at this
        simp [List.length_eq_zero.mp (by omega : pre.length = 0),
          List.length_eq_zero.mp (by omega : m.length = 0),
          List.length_eq_zero.mp (by omega : post.length = 0)]
      obtain ⟨rfl, rfl, rfl⟩ := hpre
      have hc := matchHere_complete re [] [] hacc
      obtain ⟨x, hx⟩ := Option.isSome_iff_exists.mp hc
      simp only [List.append_nil] at hx
      simp [FindStringSubmatch, hx]
  | cons c s ih =>
    cases hm : matchHere re (c :: s) with
    | some x =>
      constructor
      · intro _
        obtain ⟨m, e, hacc⟩ := matchHere_sound re (c :: s) x.1 x.2 hm
        exact ⟨[], m, x.1, by simpa using e, hacc⟩
      · intro _
        simp [FindStringSubmatch, hm]
    | none =>
      have hstep : FindStringSubmatch re (c :: s) = FindStringSubmatch re s := by
        simp only [FindStringSubmatch, hm]
      rw [hstep, ih]
      constructor
      · rintro ⟨pre, m, post, e, hacc⟩
        exact ⟨c :: pre, m, post, by simp [e], hacc⟩
      · rintro ⟨pre, m, post, e, hacc⟩
        cases pre with
        | nil =>
          exfalso
          have hc := matchHere_complete re m post hacc
          simp only [List.nil_append] at e
          rw [← e, hm] at hc
          simp at hc
        | cons d pre =>
          simp only [List.cons_append, List.cons.injEq] at e
          exact ⟨pre, m, post, e.2, hacc⟩

/-! ## Progress lines -/

theorem accepts_lits (l : Str) (ps : List Piece) (s : Str) :
    Accepts (l.map Piece.lit ++ ps) s ↔ ∃ t, s = l ++ t ∧ Accepts ps t := by
  induction l generalizing s with
  | nil => simp
  | cons c l ih =>
    simp only [List.map_cons, List.cons_append, Accepts, Piece.Accepts]
    constructor
    · rintro ⟨a, b, rfl, rfl, hb⟩
      obtain ⟨t, rfl, ht⟩ := (ih b).mp hb
      exact ⟨t, by simp, ht⟩
    · rintro ⟨t, rfl, ht⟩
      exact ⟨[c], l ++ t, by simp, rfl, (ih (l ++ t)).mpr ⟨t, rfl, ht⟩⟩

/-- The language of the progress pattern is the shape of a progress report. -/
theorem accepts_progressRegex (m : Str) : Accepts progressRegex m ↔ ProgressShape m := by
  unfold progressRegex lits ProgressShape
  rw [accepts_lits]
  simp only [Accepts, Piece.Accepts]
  constructor
  · rintro ⟨t, rfl, ws1, b1, rfl, h1, pct, b2, rfl, h2, p, b3, rfl, rfl, ws2, b4, rfl, h4,
      o, b5, rfl, rfl, f, b6, rfl, rfl, ws3, b7, rfl, h7, tl, b8, rfl, h8, ws4, b9, rfl, h9,
      size, b10, rfl, h10, unit, b11, rfl, h11, rfl⟩
    exact ⟨ws1, pct, ws2, ws3, tl, ws4, size, unit, by simp, h1, h2, h4, h7, h8, h9, h10, h11⟩
  · rintro ⟨ws1, pct, ws2, ws3, tl, ws4, size, unit, rfl, h1, h2, h4, h7, h8, h9, h10, h11⟩
    exact ⟨_, by simp only [List.append_assoc]; rfl, ws1, _, rfl, h1, pct, _, rfl, h2,
      ['%'], _, rfl, rfl, ws2, _, rfl, h4, ['o'], _, rfl, rfl, ['f'], _, rfl, rfl,
      ws3, _, rfl, h7, tl, _, rfl, h8, ws4, _, rfl, h9, size, _, rfl, h10, unit, [],
      by simp, h11, rfl⟩

theorem FindStringSubmatch_progress_iff (line : Str) :
    FindStringSubmatch progressRegex line ≠ [] ↔ HasProgressReport line := by
  rw [FindStringSubmatch_ne_nil_iff]
  unfold HasProgressReport
  simp only [accepts_progressRegex]

theorem FindStringSubmatch_progress_four (line : Str) :
    4 ≤ (FindStringSubmatch progressRegex line).length ↔
      FindStringSubmatch progressRegex line ≠ [] := by
  rcases FindStringSubmatch_length progressRegex line with h | h
  · simp [h]
  · have hc : groupCount progressRegex = 3 := rfl
    rw [hc] at h
    constructor
    · intro _ e
      rw [e] at h
      simp at h
    · intro _
      omega

/-- The call `parseLine` makes for a line the progress pattern matches. -/
theorem parseLine_calls (hp : Bool) (st : Harvest) (line : Str) :
    (parseLine hp st line).calls =
      if FindStringSubmatch progressRegex line ≠ [] ∧ hp = true then
        st.calls ++
          [⟨toInt64 (fdiv (fmul
              (ofInt64 (toBytes (parseFloat ((FindStringSubmatch progressRegex line).getD 2 []))
                ((FindStringSubmatch progressRegex line).getD 3 [])))
              (parseFloat ((FindStringSubmatch progressRegex line).getD 1 []))) (some 100)),
            toBytes (parseFloat ((FindStringSubmatch progressRegex line).getD 2 []))
              ((FindStringSubmatch progressRegex line).getD 3 [])⟩]
      else st.calls := by
  unfold parseLine
  simp only [FindStringSubmatch_progress_four]
  split_ifs <;> rfl

theorem parseLine_calls_length (hp : Bool) (st : Harvest) (line : Str) :
    (parseLine hp st line).calls.length =
      if FindStringSubmatch progressRegex line ≠ [] ∧ hp = true then st.calls.length + 1
      else st.calls.length := by
  rw [parseLine_calls]
  split_ifs <;> simp

/-- C9, as the code has it: the handler invokes the progress callback for a line exactly
when a callback is supplied and the line contains a progress report, that is `[download]`,
white space, `<percent>%`, white space, `of`, white space, an optional `~`, optional white
space, and `<size><unit>` with a unit of one or more word characters; it then invokes it
once.  A line that contains no such text produces no progress event. -/
theorem progress_iff_report (hp : Bool) (st : Harvest) (line : Str) :
    (HasProgressReport line ∧ hp = true →
      ∃ call, (parseLine hp st line).calls = st.calls ++ [call]) ∧
    (¬ (HasProgressReport line ∧ hp = true) → (parseLine hp st line).calls = st.calls) := by
  rw [← FindStringSubmatch_progress_iff, parseLine_calls]
  constructor
  · intro h
    rw [if_pos h]
    exact ⟨_, rfl⟩
  · intro h
    rw [if_neg h]

set_option maxRecDepth 100000 in
/-- C9 as stated fails: a line without the `~` before the size, and a line without a unit
after the size (the last digit of the size is taken for the unit), each produce a progress
event. -/
theorem progress_without_tilde_or_unit :
    '~' ∉ "[download]  50.0% of 100.00MiB".toList ∧
    (parseLine true ⟨[], []⟩ "[download]  50.0% of 100.00MiB".toList).calls.length = 1 ∧
    FindStringSubmatch progressRegex "[download]  50% of ~100".toList =
      ["[download]  50% of ~100".toList, "50".toList, "10".toList, "0".toList] ∧
    (parseLine true ⟨[], []⟩ "[download]  50% of ~100".toList).calls.length = 1 := by
  refine ⟨by decide, ?_, by decide, ?_⟩
  · rw [parseLine_calls_length, if_pos ⟨by decide, rfl⟩]
    rfl
  · rw [parseLine_calls_length, if_pos ⟨by decide, rfl⟩]
    rfl

/-! ## float64 rounding -/

theorem roundHalfEven_intCast (n : ℤ) : roundHalfEven (n : ℚ) = n := by
  unfold roundHalfEven
  simp

theorem roundHalfEven_abs_sub_le (x : ℚ) : |(roundHalfEven x : ℚ) - x| ≤ 1 / 2 := by
  have h1 : (⌊x⌋ : ℚ) ≤ x := Int.floor_le x
  have h2 : x < ⌊x⌋ + 1 := Int.lt_floor_add_one x
  unfold roundHalfEven
  split_ifs with ha hb hc
  · rw [abs_le]
    constructor <;> linarith
  · rw [abs_le]
    push_cast
    constructor <;> linarith
  · rw [abs_le]
    constructor <;> linarith
  · rw [abs_le]
    push_cast
    constructor <;> linarith

theorem roundHalfEven_nonneg (x : ℚ) (hx : 0 ≤ x) : 0 ≤ roundHalfEven x := by
  have h0 : 0 ≤ ⌊x⌋ := Int.floor_nonneg.mpr hx
  unfold roundHalfEven
  split_ifs <;> omega

theorem two_zpow_pos (e : ℤ) : (0 : ℚ) < 2 ^ e := zpow_pos (by norm_num) e

theorem log_two_bounds (q : ℚ) (hq : q ≠ 0) :
    (2 : ℚ) ^ Int.log 2 |q| ≤ |q| ∧ |q| < (2 : ℚ) ^ (Int.log 2 |q| + 1) := by
  have hpos : 0 < |q| := abs_pos.mpr hq
  have h1 := Int.zpow_log_le_self (b := 2) (r := |q|) (by norm_num) hpos
  have h2 := Int.lt_zpow_succ_log_self (b := 2) (by norm_num) |q|
  simp only [Nat.cast_ofNat] at h1 h2
  exact ⟨h1, h2⟩

theorem log_two_eq (q : ℚ) (l : ℤ) (h1 : (2 : ℚ) ^ l ≤ |q|) (h2 : |q| < (2 : ℚ) ^ (l + 1)) :
    Int.log 2 |q| = l := by
  have hpos : 0 < |q| := lt_of_lt_of_le (two_zpow_pos l) h1
  have a := (Int.zpow_le_iff_le_log (b := 2) (by norm_num) hpos (x := l)).mp
    (by simpa using h1)
  have b := (Int.lt_zpow_iff_log_lt (b := 2) (by norm_num) hpos (x := l + 1)).mp
    (by simpa using h2)
  omega

theorem f64Exp_ge (q : ℚ) : -1074 ≤ f64Exp q := le_max_right _ _

/-- The rounding error is at most half a unit in the last place. -/
theorem f64_round_error (q : ℚ) :
    |(roundHalfEven (q / 2 ^ f64Exp q) : ℚ) * 2 ^ f64Exp q - q| ≤ |q| / 2 ^ 53 + 1 / 2 ^ 1075 := by
  by_cases hq : q = 0
  · subst hq
    have h0 : roundHalfEven ((0 : ℚ) / 2 ^ f64Exp 0) = 0 := by
      rw [zero_div]
      exact roundHalfEven_intCast 0
    rw [h0]
    simp
  · have hpe := two_zpow_pos (f64Exp q)
    have herr := roundHalfEven_abs_sub_le (q / 2 ^ f64Exp q)
    have hmul : |(roundHalfEven (q / 2 ^ f64Exp q) : ℚ) * 2 ^ f64Exp q - q|
        = |(roundHalfEven (q / 2 ^ f64Exp q) : ℚ) - q / 2 ^ f64Exp q| * 2 ^ f64Exp q := by
      rw [← abs_of_pos hpe, ← abs_mul, abs_of_pos hpe]
      congr 1
      field_simp
    have hstep : |(roundHalfEven (q / 2 ^ f64Exp q) : ℚ) * 2 ^ f64Exp q - q|
        ≤ 1 / 2 * 2 ^ f64Exp q := by
      rw [hmul]
      exact mul_le_mul_of_nonneg_right herr hpe.le
    have hulp : (1 : ℚ) / 2 * 2 ^ f64Exp q ≤ |q| / 2 ^ 53 + 1 / 2 ^ 1075 := by
      obtain ⟨hl, -⟩ := log_two_bounds q hq
      have habs : 0 ≤ |q| / 2 ^ 53 := by positivity
      unfold f64Exp
      rcases max_cases (Int.log 2 |q| - 52) (-1074) with ⟨he, -⟩ | ⟨he, -⟩
      · rw [he]
        have : (1 : ℚ) / 2 * 2 ^ (Int.log 2 |q| - 52) = 2 ^ Int.log 2 |q| / 2 ^ 53 := by
          rw [zpow_sub₀ (by norm_num : (2 : ℚ) ≠ 0)]
          norm_num
          ring
        rw [this]
        have : (2 : ℚ) ^ Int.log 2 |q| / 2 ^ 53 ≤ |q| / 2 ^ 53 :=
          div_le_div_of_nonneg_right hl (by positivity)
        have h3 : (0 : ℚ) ≤ 1 / 2 ^ 1075 := by positivity
        linarith
      · rw [he]
        have : (1 : ℚ) / 2 * 2 ^ (-1074 : ℤ) = 1 / 2 ^ 1075 := by
          rw [zpow_neg]
          norm_num
        rw [this]
        linarith
    exact le_trans hstep hulp

theorem f64Round_some (q : ℚ)
    (h : |(roundHalfEven (q / 2 ^ f64Exp q) : ℚ) * 2 ^ f64Exp q| < 2 ^ (1024 : ℕ)) :
    f64Round q = some ((roundHalfEven (q / 2 ^ f64Exp q) : ℚ) * 2 ^ f64Exp q) := by
  unfold f64Round
  rw [if_pos h]

/-- Rounding a non-negative value below `2^1023`: the result is finite, non-negative,
and exceeds the value by at most half a unit in the last place. -/
theorem f64Round_nonneg_bound (q : ℚ) (h0 : 0 ≤ q) (hb : q ≤ 2 ^ 1023) :
    ∃ y, f64Round q = some y ∧ 0 ≤ y ∧ y ≤ q + q / 2 ^ 53 + 1 / 2 ^ 1075 := by
  have herr := f64_round_error q
  rw [abs_of_nonneg h0] at herr
  have hle := (abs_le.mp herr).2
  have hy0 : (0 : ℚ) ≤ (roundHalfEven (q / 2 ^ f64Exp q) : ℚ) * 2 ^ f64Exp q := by
    apply mul_nonneg
    · exact_mod_cast roundHalfEven_nonneg _ (div_nonneg h0 (two_zpow_pos _).le)
    · exact (two_zpow_pos _).le
  refine ⟨_, f64Round_some q ?_, hy0, by linarith⟩
  rw [abs_of_nonneg hy0]
  have h1 : q / 2 ^ 53 ≤ 2 ^ 1023 / 2 ^ 53 := div_le_div_of_nonneg_right hb (by positivity)
  have h2 : (2 : ℚ) ^ 1023 + 2 ^ 1023 / 2 ^ 53 + 1 / 2 ^ 1075 < 2 ^ (1024 : ℕ) := by norm_num
  linarith

/-- A value `m * 2 ^ k` with a 53-bit significand is rounded to itself. -/
theorem f64Round_exact (m k : ℤ) (hm : |m| < 2 ^ 53) (hk : -1074 ≤ k)
    (hb : |(m : ℚ) * 2 ^ k| < 2 ^ (1024 : ℕ)) :
    f64Round ((m : ℚ) * 2 ^ k) = some ((m : ℚ) * 2 ^ k) := by
  have key : (roundHalfEven ((m : ℚ) * 2 ^ k / 2 ^ f64Exp ((m : ℚ) * 2 ^ k)) : ℚ)
      * 2 ^ f64Exp ((m : ℚ) * 2 ^ k) = (m : ℚ) * 2 ^ k := by
    by_cases hm0 : m = 0
    · subst hm0
      have h0 : roundHalfEven (0 : ℚ) = 0 := by simpa using roundHalfEven_intCast 0
      simp only [Int.cast_zero, zero_mul, zero_div, h0]
    · have hq : (m : ℚ) * 2 ^ k ≠ 0 :=
        mul_ne_zero (by exact_mod_cast hm0) (two_zpow_pos k).ne'
      have hpos : 0 < |(m : ℚ) * 2 ^ k| := abs_pos.mpr hq
      have hlt : |(m : ℚ) * 2 ^ k| < (2 : ℚ) ^ (53 + k) := by
        rw [abs_mul, abs_of_pos (two_zpow_pos k), zpow_add₀ (by norm_num : (2 : ℚ) ≠ 0)]
        apply mul_lt_mul_of_pos_right _ (two_zpow_pos k)
        have : |(m : ℚ)| = ((|m| : ℤ) : ℚ) := by simp
        rw [this]
        exact_mod_cast hm
      have hlog : Int.log 2 |(m : ℚ) * 2 ^ k| < 53 + k :=
        (Int.lt_zpow_iff_log_lt (b := 2) (by norm_num) hpos).mp (by simpa using hlt)
      have he : f64Exp ((m : ℚ) * 2 ^ k) ≤ k := by
        unfold f64Exp
        exact max_le (by omega) hk
      obtain ⟨n, hn⟩ : ∃ n : ℕ, k = f64Exp ((m : ℚ) * 2 ^ k) + n :=
        ⟨(k - f64Exp ((m : ℚ) * 2 ^ k)).toNat, by omega⟩
      generalize f64Exp ((m : ℚ) * 2 ^ k) = e at hn ⊢
      have hdiv : (m : ℚ) * 2 ^ k / 2 ^ e = ((m * 2 ^ n : ℤ) : ℚ) := by
        rw [hn, zpow_add₀ (by norm_num : (2 : ℚ) ≠ 0), zpow_natCast]
        push_cast
        field_simp
        ring
      rw [hdiv, roundHalfEven_intCast, hn, zpow_add₀ (by norm_num : (2 : ℚ) ≠ 0), zpow_natCast]
      push_cast
      ring
  have h := f64Round_some ((m : ℚ) * 2 ^ k) (by rw [key]; exact hb)
  rw [h, key]

/-- Rounding leaves a `float64` value as it is. -/
theorem f64Round_of_isF64 (v : ℚ) (hv : IsF64 v) : f64Round v = some v := by
  obtain ⟨hb, m, k, hm, hk, rfl⟩ := hv
  exact f64Round_exact m k hm hk hb

theorem f64Round_intCast (n : ℤ) (hn : |n| < 2 ^ 53) : f64Round (n : ℚ) = some (n : ℚ) := by
  have hb : |(n : ℚ) * 2 ^ (0 : ℤ)| < 2 ^ (1024 : ℕ) := by
    have h1 : |(n : ℚ)| = ((|n| : ℤ) : ℚ) := by simp
    have h2 : ((|n| : ℤ) : ℚ) < 2 ^ 53 := by exact_mod_cast hn
    have h3 : (2 : ℚ) ^ 53 < 2 ^ (1024 : ℕ) := by norm_num
    rw [zpow_zero, mul_one, h1]
    linarith
  have h := f64Round_exact n 0 hn (by norm_num) hb
  simpa using h

/-- Rounding, given the exponent of the value and the rounded significand. -/
theorem f64Round_cert (q : ℚ) (l m : ℤ) (h1 : (2 : ℚ) ^ l ≤ |q|) (h2 : |q| < (2 : ℚ) ^ (l + 1))
    (h3 : -1074 ≤ l - 52) (hm : roundHalfEven (q / 2 ^ (l - 52)) = m)
    (hb : |(m : ℚ) * 2 ^ (l - 52)| < 2 ^ (1024 : ℕ)) :
    f64Round q = some ((m : ℚ) * 2 ^ (l - 52)) := by
  have he : f64Exp q = l - 52 := by
    unfold f64Exp
    rw [log_two_eq q l h1 h2]
    exact max_eq_left h3
  have h := f64Round_some q (by rw [he, hm]; exact hb)
  rw [h, he, hm]

theorem f64Round_cert_nonneg (q : ℚ) (l m : ℤ) (h0 : 0 ≤ q) (h1 : (2 : ℚ) ^ l ≤ q)
    (h2 : q < (2 : ℚ) ^ (l + 1)) (h3 : -1074 ≤ l - 52)
    (hm : roundHalfEven (q / 2 ^ (l - 52)) = m)
    (hb : (m : ℚ) * 2 ^ (l - 52) < 2 ^ (1024 : ℕ)) (hm0 : 0 ≤ m) :
    f64Round q = some ((m : ℚ) * 2 ^ (l - 52)) := by
  apply f64Round_cert q l m _ _ h3 hm
  · rw [abs_of_nonneg]
    · exact hb
    · exact mul_nonneg (by exact_mod_cast hm0) (two_zpow_pos _).le
  · rw [abs_of_nonneg h0]
    exact h1
  · rw [abs_of_nonneg h0]
    exact h2

/-! ## Unit converter -/

theorem truncate_intCast (n : ℤ) : truncate (n : ℚ) = n := by
  unfold truncate
  split_ifs <;> simp

theorem toInt64_of_abs_lt (q : ℚ) (h : |q| < 2 ^ 63) : toInt64 (some q) = some (truncate q) := by
  have hlo : -(2 : ℚ) ^ 63 < q := (abs_lt.mp h).1
  have hhi : q < (2 : ℚ) ^ 63 := (abs_lt.mp h).2
  have hrange : -(2 : ℤ) ^ 63 ≤ truncate q ∧ truncate q < (2 : ℤ) ^ 63 := by
    unfold truncate
    split_ifs with h0
    · constructor
      · have : 0 ≤ ⌊q⌋ := Int.floor_nonneg.mpr h0
        omega
      · rw [Int.floor_lt]
        exact_mod_cast hhi
    · have hneg : q < 0 := lt_of_not_ge h0
      constructor
      · have h1 : ((-(2 : ℤ) ^ 63 : ℤ) : ℚ) ≤ (⌈q⌉ : ℚ) := by
          have := Int.le_ceil q
          push_cast
          linarith
        exact_mod_cast h1
      · have : ⌈q⌉ ≤ 0 := Int.ceil_le.mpr (by exact_mod_cast hneg.le)
        omega
  show (if -(2 : ℤ) ^ 63 ≤ truncate q ∧ truncate q < (2 : ℤ) ^ 63 then some (truncate q)
    else none) = some (truncate q)
  rw [if_pos hrange]

theorem isF64_mul_1024 (v : ℚ) (hv : IsF64 v) (hb : |v * 1024| < 2 ^ 63) :
    IsF64 (v * 1024) := by
  obtain ⟨-, m, k, hm, hk, rfl⟩ := hv
  refine ⟨lt_trans hb (by norm_num), m, k + 10, hm, by omega, ?_⟩
  rw [zpow_add₀ (by norm_num : (2 : ℚ) ≠ 0)]
  norm_num
  ring

/-- Multiplying a `float64` by 1024 is exact, short of overflow. -/
theorem fmul_1024 (v : ℚ) (hv : IsF64 v) (hb : |v * 1024| < 2 ^ 63) :
    fmul (some v) (some 1024) = some (v * 1024) := by
  exact f64Round_of_isF64 (v * 1024) (isF64_mul_1024 v hv hb)

theorem abs_mul_1024_lt (x : ℚ) (h : |x * 1024| < 2 ^ 63) : |x| < 2 ^ 63 := by
  rw [abs_mul] at h
  have h2 : |(1024 : ℚ)| = 1024 := by norm_num
  rw [h2] at h
  have h3 : 0 ≤ |x| := abs_nonneg x
  linarith

theorem toBytes_kib (v : ℚ) (u : Str) (hv : IsF64 v) (hb : |v * 1024| < 2 ^ 63)
    (hu : toLower u = "kib".toList) : toBytes (some v) u = some (truncate (v * 1024)) := by
  unfold toBytes
  rw [if_pos hu, fmul_1024 v hv hb, toInt64_of_abs_lt _ hb]

theorem toBytes_mib (v : ℚ) (u : Str) (hv : IsF64 v) (hb : |v * 1024 * 1024| < 2 ^ 63)
    (hu : toLower u = "mib".toList) :
    toBytes (some v) u = some (truncate (v * 1024 * 1024)) := by
  have hu1 : toLower u ≠ "kib".toList := by rw [hu]; decide
  unfold toBytes
  rw [if_neg hu1, if_pos hu, fmul_1024 v hv (abs_mul_1024_lt _ hb),
    fmul_1024 _ (isF64_mul_1024 v hv (abs_mul_1024_lt _ hb)) hb, toInt64_of_abs_lt _ hb]

theorem toBytes_gib (v : ℚ) (u : Str) (hv : IsF64 v) (hb : |v * 1024 * 1024 * 1024| < 2 ^ 63)
    (hu : toLower u = "gib".toList) :
    toBytes (some v) u = some (truncate (v * 1024 * 1024 * 1024)) := by
  have hu1 : toLower u ≠ "kib".toList := by rw [hu]; decide
  have hu2 : toLower u ≠ "mib".toList := by rw [hu]; decide
  have hb2 := abs_mul_1024_lt _ hb
  unfold toBytes
  have hb3 := abs_mul_1024_lt _ hb2
  rw [if_neg hu1, if_neg hu2, if_pos hu, fmul_1024 v hv hb3,
    fmul_1024 _ (isF64_mul_1024 v hv hb3) hb2,
    fmul_1024 _ (isF64_mul_1024 _ (isF64_mul_1024 v hv hb3) hb2) hb, toInt64_of_abs_lt _ hb]

theorem toBytes_other (v : ℚ) (u : Str) (hb : |v| < 2 ^ 63)
    (h1 : toLower u ≠ "kib".toList) (h2 : toLower u ≠ "mib".toList)
    (h3 : toLower u ≠ "gib".toList) : toBytes (some v) u = some (truncate v) := by
  unfold toBytes
  rw [if_neg h1, if_neg h2, if_neg h3, toInt64_of_abs_lt _ hb]

/-- `strings.ToLower` agrees with the ASCII lower case wherever that yields one of the
letters of the three units. -/
theorem toLowerChar_of_toLower (c x : Char) (h : c.toLower = x)
    (hx : x = 'k' ∨ x = 'i' ∨ x = 'b' ∨ x = 'm' ∨ x = 'g') : toLowerChar c = x := by
  unfold toLowerChar
  split_ifs with h1 h2
  · subst h1
    rcases hx with rfl | rfl | rfl | rfl | rfl
    · rfl
    all_goals exact absurd h (by decide)
  · subst h2
    rcases hx with rfl | rfl | rfl | rfl | rfl
    · exact absurd h (by decide)
    · rfl
    all_goals exact absurd h (by decide)
  · exact h

theorem toLower_of_ascii3 (u : Str) (x y z : Char)
    (hx : x = 'k' ∨ x = 'i' ∨ x = 'b' ∨ x = 'm' ∨ x = 'g')
    (hy : y = 'k' ∨ y = 'i' ∨ y = 'b' ∨ y = 'm' ∨ y = 'g')
    (hz : z = 'k' ∨ z = 'i' ∨ z = 'b' ∨ z = 'm' ∨ z = 'g')
    (h : u.map Char.toLower = [x, y, z]) : toLower u = [x, y, z] := by
  rcases u with _ | ⟨a, _ | ⟨b, _ | ⟨c, _ | ⟨d, u⟩⟩⟩⟩
  · simp at h
  · simp at h
  · simp at h
  · simp only [List.map_cons, List.map_nil, List.cons.injEq, and_true] at h
    simp [toLower, toLowerChar_of_toLower a x h.1 hx, toLowerChar_of_toLower b y h.2.1 hy,
      toLowerChar_of_toLower c z h.2.2 hz]
  · simp at h

theorem isF64_one : IsF64 1 :=
  ⟨by rw [abs_of_pos (by norm_num)]; norm_num, 1, 0, by norm_num, by norm_num, by norm_num⟩

theorem isF64_five_halves : IsF64 (5 / 2) :=
  ⟨by rw [abs_of_pos (by norm_num)]; norm_num, 5, -1, by norm_num, by norm_num,
    by rw [zpow_neg]; norm_num⟩

/-- C10: `toBytes(v, u)` compares the unit without regard to case and returns, truncated
toward zero, `v×1024` for `kib`, `v×1024²` for `mib`, `v×1024³` for `gib`, and `v` itself
for every other unit, for every `float64` value `v` whose result fits an `int64`; in
particular `toBytes(1.0, "GiB") = 1073741824` and `toBytes(2.5, "MiB") = 2621440`. -/
theorem toBytes_units :
    (∀ (v : ℚ) (u : Str), IsF64 v → |v * 1024| < 2 ^ 63 →
      toLower u = "kib".toList → toBytes (some v) u = some (truncate (v * 1024))) ∧
    (∀ (v : ℚ) (u : Str), IsF64 v → |v * 1024 * 1024| < 2 ^ 63 →
      toLower u = "mib".toList → toBytes (some v) u = some (truncate (v * 1024 * 1024))) ∧
    (∀ (v : ℚ) (u : Str), IsF64 v → |v * 1024 * 1024 * 1024| < 2 ^ 63 →
      toLower u = "gib".toList →
      toBytes (some v) u = some (truncate (v * 1024 * 1024 * 1024))) ∧
    (∀ (v : ℚ) (u : Str), |v| < 2 ^ 63 →
      toLower u ≠ "kib".toList → toLower u ≠ "mib".toList → toLower u ≠ "gib".toList →
      toBytes (some v) u = some (truncate v)) ∧
    (∀ u : Str, u.map Char.toLower = "kib".toList → toLower u = "kib".toList) ∧
    (∀ u : Str, u.map Char.toLower = "mib".toList → toLower u = "mib".toList) ∧
    (∀ u : Str, u.map Char.toLower = "gib".toList → toLower u = "gib".toList) ∧
    toBytes (some 1) "GiB".toList = some 1073741824 ∧
    toBytes (some (5 / 2)) "MiB".toList = some 2621440 := by
  refine ⟨toBytes_kib, toBytes_mib, toBytes_gib, toBytes_other, ?_, ?_, ?_, ?_, ?_⟩
  · intro u hu
    exact toLower_of_ascii3 u 'k' 'i' 'b' (by simp) (by simp) (by simp) hu
  · intro u hu
    exact toLower_of_ascii3 u 'm' 'i' 'b' (by simp) (by simp) (by simp) hu
  · intro u hu
    exact toLower_of_ascii3 u 'g' 'i' 'b' (by simp) (by simp) (by simp) hu
  · have h := toBytes_gib 1 "GiB".toList isF64_one (by norm_num) (by decide)
    have e : (1 : ℚ) * 1024 * 1024 * 1024 = ((1073741824 : ℤ) : ℚ) := by norm_num
    rw [h, e, truncate_intCast]
  · have h := toBytes_mib (5 / 2) "MiB".toList isF64_five_halves (by norm_num) (by decide)
    have e : (5 / 2 : ℚ) * 1024 * 1024 = ((2621440 : ℤ) : ℚ) := by norm_num
    rw [h, e, truncate_intCast]

/-! ## The captures of a progress line -/

theorem matchHere_plus_stop (p : Char → Bool) (ps : List Piece) (a r : Str)
    (x : Str × List Str) (hne : a ≠ []) (ha : ∀ c ∈ a, p c = true)
    (hr : ∀ c ∈ r.head?, p c = false) (hk : matchHere ps r = some x) :
    matchHere (Piece.plus p :: ps) (a ++ r) = some x := by
  have hg := greedy_stop p (matchHere ps) a r x ha hr hk
  cases a with
  | nil => exact absurd rfl hne
  | cons c a => simp only [matchHere, hg]

theorem matchHere_group_stop (p : Char → Bool) (ps : List Piece) (a r rest : Str)
    (gs : List Str) (hne : a ≠ []) (ha : ∀ c ∈ a, p c = true)
    (hr : ∀ c ∈ r.head?, p c = false) (hk : matchHere ps r = some (rest, gs)) :
    matchHere (Piece.group p :: ps) (a ++ r) = some (rest, a :: gs) := by
  have hg := greedy_stop p (matchHere ps) a r (rest, gs) ha hr hk
  cases a with
  | nil => exact absurd rfl hne
  | cons c a => simp only [matchHere, hg]

theorem matchHere_star_stop (p : Char → Bool) (ps : List Piece) (a r : Str)
    (x : Str × List Str) (ha : ∀ c ∈ a, p c = true)
    (hr : ∀ c ∈ r.head?, p c = false) (hk : matchHere ps r = some x) :
    matchHere (Piece.star p :: ps) (a ++ r) = some x := by
  have hg := greedy_stop p (matchHere ps) a r x ha hr hk
  simp only [matchHere, hg, Option.map_some']

theorem isSpace_of_isDigitDot (c : Char) (h : isDigitDot c = true) : isSpace c = false := by
  cases hs : isSpace c with
  | false => rfl
  | true =>
    exfalso
    simp only [isSpace, Bool.or_eq_true, beq_iff_eq] at hs
    rcases hs with (((rfl | rfl) | rfl) | rfl) | rfl <;> exact absurd h (by decide)

theorem isDigitDot_of_isWord (c : Char) (hw : isWord c = true) (hd : c.isDigit = false) :
    isDigitDot c = false := by
  cases hs : isDigitDot c with
  | false => rfl
  | true =>
    exfalso
    simp only [isDigitDot, Bool.or_eq_true, beq_iff_eq, hd, Bool.false_eq_true, false_or] at hs
    subst hs
    exact absurd hw (by decide)

theorem head?_append_of_ne_nil (a b : Str) (h : a ≠ []) : (a ++ b).head? = a.head? := by
  cases a with
  | nil => exact absurd rfl h
  | cons c a => rfl

theorem head?_mem_of_run (p : Char → Bool) (a : Str) (h : Run1 p a) :
    ∀ c ∈ a.head?, p c = true := by
  intro c hc
  cases a with
  | nil => simp at hc
  | cons d a =>
    simp only [List.head?_cons, Option.mem_def, Option.some.injEq] at hc
    subst hc
    exact h.2 _ (List.mem_cons_self _ _)

theorem head?_cons_pred (p : Char → Bool) (d : Char) (t : Str) (h : p d = false) :
    ∀ c ∈ (d :: t).head?, p c = false := by
  intro c hc
  simp only [List.head?_cons, Option.mem_def, Option.some.injEq] at hc
  subst hc
  exact h

/-- On the progress line `[download]  P% of ~SU` the pattern captures `P`, `S` and `U`. -/
theorem matchHere_progressRegex (pct size unit : Str) (hP : Run1 isDigitDot pct)
    (hS : Run1 isDigitDot size) (hU : Run1 isWord unit)
    (hU0 : ∀ c ∈ unit.head?, c.isDigit = false) :
    matchHere progressRegex (progressLine pct size unit) = some ([], [pct, size, unit]) := by
  have hUd : ∀ c ∈ unit.head?, isDigitDot c = false := fun c hc =>
    isDigitDot_of_isWord c (head?_mem_of_run isWord unit hU c hc) (hU0 c hc)
  have hSs : ∀ c ∈ (size ++ unit).head?, isSpace c = false := by
    intro c hc
    rw [head?_append_of_ne_nil _ _ hS.1] at hc
    exact isSpace_of_isDigitDot c (head?_mem_of_run isDigitDot size hS c hc)
  have hPs : ∀ c ∈ (pct ++ ("% of ~".toList ++ (size ++ unit))).head?, isSpace c = false := by
    intro c hc
    rw [head?_append_of_ne_nil _ _ hP.1] at hc
    exact isSpace_of_isDigitDot c (head?_mem_of_run isDigitDot pct hP c hc)
  have h11 : matchHere [Piece.group isWord] unit = some ([], [unit]) := by
    have h := matchHere_group_run isWord [] unit [] [] [] hU.1 hU.2 rfl
    simpa using h
  have h10 : matchHere [Piece.group isDigitDot, Piece.group isWord] (size ++ unit)
      = some ([], [size, unit]) :=
    matchHere_group_stop isDigitDot _ size unit [] [unit] hS.1 hS.2 hUd h11
  have h9 : matchHere [Piece.star isSpace, Piece.group isDigitDot, Piece.group isWord]
      (size ++ unit) = some ([], [size, unit]) := by
    have h := matchHere_star_stop isSpace _ [] (size ++ unit) _ (by simp) hSs h10
    simpa using h
  have h8 : matchHere [Piece.opt '~', Piece.star isSpace, Piece.group isDigitDot,
      Piece.group isWord] ('~' :: (size ++ unit)) = some ([], [size, unit]) := by
    simp only [matchHere, if_true, h9]
    simp only [matchHere] at h9
    rw [h9]
  have h7 : matchHere [Piece.plus isSpace, Piece.opt '~', Piece.star isSpace,
      Piece.group isDigitDot, Piece.group isWord] (" ".toList ++ '~' :: (size ++ unit))
      = some ([], [size, unit]) :=
    matchHere_plus_stop isSpace _ " ".toList _ _ (by decide) (by decide)
      (head?_cons_pred isSpace '~' _ rfl) h8
  have h5 : matchHere [Piece.lit 'o', Piece.lit 'f', Piece.plus isSpace, Piece.opt '~',
      Piece.star isSpace, Piece.group isDigitDot, Piece.group isWord]
      ('o' :: 'f' :: (" ".toList ++ '~' :: (size ++ unit))) = some ([], [size, unit]) := by
    have h := matchHere_lits "of".toList _ (" ".toList ++ '~' :: (size ++ unit)) ▸ h7
    exact h
  have h4 : matchHere [Piece.plus isSpace, Piece.lit 'o', Piece.lit 'f', Piece.plus isSpace,
      Piece.opt '~', Piece.star isSpace, Piece.group isDigitDot, Piece.group isWord]
      (" ".toList ++ 'o' :: 'f' :: (" ".toList ++ '~' :: (size ++ unit)))
      = some ([], [size, unit]) :=
    matchHere_plus_stop isSpace _ " ".toList _ _ (by decide) (by decide)
      (head?_cons_pred isSpace 'o' _ rfl) h5
  have h3 : matchHere [Piece.lit '%', Piece.plus isSpace, Piece.lit 'o', Piece.lit 'f',
      Piece.plus isSpace, Piece.opt '~', Piece.star isSpace, Piece.group isDigitDot,
      Piece.group isWord] ("% of ~".toList ++ (size ++ unit)) = some ([], [size, unit]) := by
    have h := matchHere_lits "%".toList _
      (" ".toList ++ 'o' :: 'f' :: (" ".toList ++ '~' :: (size ++ unit))) ▸ h4
    exact h
  have h2 : matchHere [Piece.group isDigitDot, Piece.lit '%', Piece.plus isSpace,
      Piece.lit 'o', Piece.lit 'f', Piece.plus isSpace, Piece.opt '~', Piece.star isSpace,
      Piece.group isDigitDot, Piece.group isWord] (pct ++ ("% of ~".toList ++ (size ++ unit)))
      = some ([], [pct, size, unit]) :=
    matchHere_group_stop isDigitDot _ pct _ [] [size, unit] hP.1 hP.2
      (head?_cons_pred isDigitDot '%' _ rfl) h3
  have h1 : matchHere [Piece.plus isSpace, Piece.group isDigitDot, Piece.lit '%',
      Piece.plus isSpace, Piece.lit 'o', Piece.lit 'f', Piece.plus isSpace, Piece.opt '~',
      Piece.star isSpace, Piece.group isDigitDot, Piece.group isWord]
      ("  ".toList ++ (pct ++ ("% of ~".toList ++ (size ++ unit))))
      = some ([], [pct, size, unit]) :=
    matchHere_plus_stop isSpace _ "  ".toList _ _ (by decide) (by decide) hPs h2
  have h0 := matchHere_lits "[download]".toList
    [Piece.plus isSpace, Piece.group isDigitDot, Piece.lit '%',
      Piece.plus isSpace, Piece.lit 'o', Piece.lit 'f', Piece.plus isSpace, Piece.opt '~',
      Piece.star isSpace, Piece.group isDigitDot, Piece.group isWord]
    ("  ".toList ++ (pct ++ ("% of ~".toList ++ (size ++ unit))))
  rw [h1] at h0
  have hline : progressLine pct size unit
      = "[download]".toList ++ ("  ".toList ++ (pct ++ ("% of ~".toList ++ (size ++ unit)))) := by
    unfold progressLine
    simp [List.append_assoc]
  rw [hline]
  exact h0

theorem FindStringSubmatch_progressLine (pct size unit : Str) (hP : Run1 isDigitDot pct)
    (hS : Run1 isDigitDot size) (hU : Run1 isWord unit)
    (hU0 : ∀ c ∈ unit.head?, c.isDigit = false) :
    FindStringSubmatch progressRegex (progressLine pct size unit)
      = [progressLine pct size unit, pct, size, unit] := by
  rw [FindStringSubmatch_of_matchHere _ _ _ _ (matchHere_progressRegex pct size unit hP hS hU hU0)]
  simp

/-! ## The progress call -/

theorem f64Round_nonneg (q y : ℚ) (h0 : 0 ≤ q) (h : f64Round q = some y) : 0 ≤ y := by
  unfold f64Round at h
  split_ifs at h
  simp only [Option.some.injEq] at h
  rw [← h]
  apply mul_nonneg
  · exact_mod_cast roundHalfEven_nonneg _ (div_nonneg h0 (two_zpow_pos _).le)
  · exact (two_zpow_pos _).le

theorem parseFloat_nonneg (s : Str) (p : ℚ) (h : parseFloat s = some p) : 0 ≤ p := by
  unfold parseFloat at h
  split at h
  · split_ifs at h
    · simp only [Option.some.injEq] at h
      rw [← h]
    · exact f64Round_nonneg _ _ (by positivity) h
  · split_ifs at h
    · exact f64Round_nonneg _ _ (by positivity) h
    · simp only [Option.some.injEq] at h
      rw [← h]
  · simp only [Option.some.injEq] at h
    rw [← h]

theorem fmul_some_nonneg (a : F64) (b y : ℚ) (ha : ∀ x, a = some x → 0 ≤ x) (hb : 0 ≤ b)
    (h : fmul a (some b) = some y) : 0 ≤ y := by
  cases a with
  | none => simp [fmul] at h
  | some x => exact f64Round_nonneg _ _ (mul_nonneg (ha x rfl) hb) h

theorem toInt64_nonneg (a : F64) (t : ℤ) (ha : ∀ x, a = some x → 0 ≤ x)
    (h : toInt64 a = some t) : 0 ≤ t := by
  cases a with
  | none => simp [toInt64] at h
  | some x =>
    have hx := ha x rfl
    simp only [toInt64] at h
    split_ifs at h
    simp only [Option.some.injEq] at h
    rw [← h]
    unfold truncate
    rw [if_pos hx]
    exact Int.floor_nonneg.mpr hx

theorem toBytes_nonneg (v : F64) (u : Str) (t : ℤ) (hv : ∀ x, v = some x → 0 ≤ x)
    (h : toBytes v u = some t) : 0 ≤ t := by
  have h1 : ∀ x, fmul v (some 1024) = some x → 0 ≤ x :=
    fun x hx => fmul_some_nonneg v 1024 x hv (by norm_num) hx
  have h2 : ∀ x, fmul (fmul v (some 1024)) (some 1024) = some x → 0 ≤ x :=
    fun x hx => fmul_some_nonneg _ 1024 x h1 (by norm_num) hx
  have h3 : ∀ x, fmul (fmul (fmul v (some 1024)) (some 1024)) (some 1024) = some x → 0 ≤ x :=
    fun x hx => fmul_some_nonneg _ 1024 x h2 (by norm_num) hx
  unfold toBytes at h
  split_ifs at h
  · exact toInt64_nonneg _ t h1 h
  · exact toInt64_nonneg _ t h2 h
  · exact toInt64_nonneg _ t h3 h
  · exact toInt64_nonneg _ t hv h

/-- For a total below `2^52` and a percentage of at most 100, the bytes transferred lie
between 0 and the total. -/
theorem progress_bound (t : ℤ) (p : ℚ) (ht0 : 0 ≤ t) (ht : t < 2 ^ 52) (hp0 : 0 ≤ p)
    (hp : p ≤ 100) :
    ∃ c, toInt64 (fdiv (fmul (ofInt64 (some t)) (some p)) (some 100)) = some c ∧
      0 ≤ c ∧ c ≤ t := by
  have hT0 : (0 : ℚ) ≤ (t : ℚ) := by exact_mod_cast ht0
  have hT : (t : ℚ) ≤ 2 ^ 52 - 1 := by
    have : t ≤ 2 ^ 52 - 1 := by omega
    exact_mod_cast this
  have hconv : ofInt64 (some t) = some (t : ℚ) := by
    have habs : |t| < 2 ^ 53 := by
      rw [abs_of_nonneg ht0]
      omega
    exact f64Round_intCast t habs
  have hδ : (1 : ℚ) / 2 ^ 1075 ≤ 1 / 2 ^ 60 := by norm_num
  have hx1 : (0 : ℚ) ≤ (t : ℚ) * p := mul_nonneg hT0 hp0
  have hx1le : (t : ℚ) * p ≤ 100 * (t : ℚ) := by nlinarith
  obtain ⟨y1, hy1, hy1pos, hy1le⟩ := f64Round_nonneg_bound ((t : ℚ) * p) hx1
    (by
      have : (100 : ℚ) * (2 ^ 52 - 1) ≤ 2 ^ 1023 := by norm_num
      linarith)
  have hy1b : y1 ≤ 100 * (t : ℚ) + 100 * (t : ℚ) / 2 ^ 53 + 1 / 2 ^ 60 := by
    have : (t : ℚ) * p / 2 ^ 53 ≤ 100 * (t : ℚ) / 2 ^ 53 :=
      div_le_div_of_nonneg_right hx1le (by positivity)
    linarith
  have hx2 : (0 : ℚ) ≤ y1 / 100 := div_nonneg hy1pos (by norm_num)
  have hx2le : y1 / 100 ≤ (t : ℚ) + (t : ℚ) / 2 ^ 53 + 1 / 2 ^ 60 := by
    rw [div_le_iff₀ (by norm_num : (0 : ℚ) < 100)]
    have h3 : (0 : ℚ) ≤ 1 / 2 ^ 60 := by positivity
    linarith
  obtain ⟨y2, hy2, hy2pos, hy2le⟩ := f64Round_nonneg_bound (y1 / 100) hx2
    (by
      have : (2 : ℚ) ^ 52 - 1 + (2 ^ 52 - 1) / 2 ^ 53 + 1 / 2 ^ 60 ≤ 2 ^ 1023 := by norm_num
      have h4 : (t : ℚ) / 2 ^ 53 ≤ (2 ^ 52 - 1) / 2 ^ 53 :=
        div_le_div_of_nonneg_right hT (by positivity)
      linarith)
  have hy2lt : y2 < (t : ℚ) + 1 := by
    have h5 : y1 / 100 / 2 ^ 53 ≤ ((t : ℚ) + (t : ℚ) / 2 ^ 53 + 1 / 2 ^ 60) / 2 ^ 53 :=
      div_le_div_of_nonneg_right hx2le (by positivity)
    have h6 : y2 ≤ ((t : ℚ) + (t : ℚ) / 2 ^ 53 + 1 / 2 ^ 60)
        + ((t : ℚ) + (t : ℚ) / 2 ^ 53 + 1 / 2 ^ 60) / 2 ^ 53 + 1 / 2 ^ 60 := by linarith
    have h7 : ((2 : ℚ) ^ 52 - 1 + (2 ^ 52 - 1) / 2 ^ 53 + 1 / 2 ^ 60)
        + ((2 : ℚ) ^ 52 - 1 + (2 ^ 52 - 1) / 2 ^ 53 + 1 / 2 ^ 60) / 2 ^ 53 + 1 / 2 ^ 60
        < 2 ^ 52 - 1 + 1 := by norm_num
    have h8 : ((t : ℚ) + (t : ℚ) / 2 ^ 53 + 1 / 2 ^ 60)
        + ((t : ℚ) + (t : ℚ) / 2 ^ 53 + 1 / 2 ^ 60) / 2 ^ 53 + 1 / 2 ^ 60 - (t : ℚ)
        ≤ ((2 : ℚ) ^ 52 - 1 + (2 ^ 52 - 1) / 2 ^ 53 + 1 / 2 ^ 60)
        + ((2 : ℚ) ^ 52 - 1 + (2 ^ 52 - 1) / 2 ^ 53 + 1 / 2 ^ 60) / 2 ^ 53 + 1 / 2 ^ 60
          - (2 ^ 52 - 1) := by
      have e : ∀ x : ℚ, (x + x / 2 ^ 53 + 1 / 2 ^ 60) + (x + x / 2 ^ 53 + 1 / 2 ^ 60) / 2 ^ 53
          + 1 / 2 ^ 60 - x
          = x * (2 / 2 ^ 53 + 1 / 2 ^ 106) + (1 / 2 ^ 60 + 1 / 2 ^ 113 + 1 / 2 ^ 60) := by
        intro x
        ring
      rw [e, e]
      have : (t : ℚ) * (2 / 2 ^ 53 + 1 / 2 ^ 106) ≤ (2 ^ 52 - 1) * (2 / 2 ^ 53 + 1 / 2 ^ 106) :=
        mul_le_mul_of_nonneg_right hT (by positivity)
      linarith
    linarith
  have hfm : fmul (ofInt64 (some t)) (some p) = some y1 := by
    rw [hconv]
    exact hy1
  have hfd : fdiv (some y1) (some 100) = some y2 := by
    show (if (100 : ℚ) = 0 then none else f64Round (y1 / 100)) = some y2
    rw [if_neg (by norm_num), hy2]
  have habs : |y2| < 2 ^ 63 := by
    rw [abs_of_nonneg hy2pos]
    have : (2 : ℚ) ^ 52 - 1 + 1 < 2 ^ 63 := by norm_num
    linarith
  refine ⟨truncate y2, ?_, ?_, ?_⟩
  · rw [hfm, hfd, toInt64_of_abs_lt y2 habs]
  · unfold truncate
    rw [if_pos hy2pos]
    exact Int.floor_nonneg.mpr hy2pos
  · unfold truncate
    rw [if_pos hy2pos]
    have : ⌊y2⌋ < t + 1 := by
      rw [Int.floor_lt]
      push_cast
      exact hy2lt
    omega

theorem parseLine_calls_progressLine (pct size unit : Str) (st : Harvest)
    (hP : Run1 isDigitDot pct) (hS : Run1 isDigitDot size) (hU : Run1 isWord unit)
    (hU0 : ∀ c ∈ unit.head?, c.isDigit = false) :
    (parseLine true st (progressLine pct size unit)).calls =
      st.calls ++
        [⟨toInt64 (fdiv (fmul (ofInt64 (toBytes (parseFloat size) unit)) (parseFloat pct))
            (some 100)),
          toBytes (parseFloat size) unit⟩] := by
  have hf := FindStringSubmatch_progressLine pct size unit hP hS hU hU0
  rw [parseLine_calls, if_pos ⟨by rw [hf]; simp, rfl⟩, hf]
  rfl

/-- C8, as the code has it: for a progress line `[download]  P% of ~SU` (`P` and `S`
non-empty runs of digits and dots, `U` a non-empty run of word characters that does not start
with a digit) and a supplied callback, the handler invokes the callback exactly once, with
`total = toBytes(S, U)` and `current` the `float64` product of `total` and `P`, divided by
100 and truncated toward zero, each operation rounded to the nearest double.  Where the size
in bytes fits an `int64` the total is determined and not negative, and then
`0 ≤ current ≤ total` whenever `P ≤ 100` and `total < 2^52`; a size that does not fit leaves
the total to the implementation, and nothing is said of it. -/
theorem progress_call (pct size unit : Str) (st : Harvest)
    (hP : Run1 isDigitDot pct) (hS : Run1 isDigitDot size) (hU : Run1 isWord unit)
    (hU0 : ∀ c ∈ unit.head?, c.isDigit = false) :
    (parseLine true st (progressLine pct size unit)).calls =
      st.calls ++
        [⟨toInt64 (fdiv (fmul (ofInt64 (toBytes (parseFloat size) unit)) (parseFloat pct))
            (some 100)),
          toBytes (parseFloat size) unit⟩] ∧
    (∀ (t : ℤ) (p : ℚ), toBytes (parseFloat size) unit = some t → t < 2 ^ 52 →
      parseFloat pct = some p → p ≤ 100 →
      ∃ c, toInt64 (fdiv (fmul (ofInt64 (toBytes (parseFloat size) unit)) (parseFloat pct))
            (some 100)) = some c ∧ 0 ≤ c ∧ c ≤ t) ∧
    (∀ t : ℤ, toBytes (parseFloat size) unit = some t → 0 ≤ t) := by
  refine ⟨parseLine_calls_progressLine pct size unit st hP hS hU hU0, ?_,
    fun t ht => toBytes_nonneg (parseFloat size) unit t
      (fun x hx => parseFloat_nonneg size x hx) ht⟩
  intro t p ht hlt hp hle
  have ht0 : 0 ≤ t :=
    toBytes_nonneg (parseFloat size) unit t (fun x hx => parseFloat_nonneg size x hx) ht
  rw [ht, hp]
  exact progress_bound t p ht0 hlt (parseFloat_nonneg pct p hp) hle

theorem run1_of_all (p : Char → Bool) (s : Str) (hne : s ≠ []) (h : s.all p = true) :
    Run1 p s :=
  ⟨hne, fun c hc => List.all_eq_true.mp h c hc⟩

theorem parseFloat_50_0 : parseFloat "50.0".toList = some 50 := by
  have e : parseFloat "50.0".toList = f64Round (500 / 10) := by
    simp [parseFloat, digitsValue]
  have e2 : (500 / 10 : ℚ) = ((50 : ℤ) : ℚ) := by norm_num
  rw [e, e2, f64Round_intCast 50 (by norm_num)]
  norm_num

theorem parseFloat_2_5 : parseFloat "2.5".toList = some (5 / 2) := by
  have e : parseFloat "2.5".toList = f64Round (25 / 10) := by
    simp [parseFloat, digitsValue]
  have e2 : (25 / 10 : ℚ) = ((5 : ℤ) : ℚ) * 2 ^ (-1 : ℤ) := by
    rw [zpow_neg]
    norm_num
  have e3 : ((5 : ℤ) : ℚ) * 2 ^ (-1 : ℤ) = 5 / 2 := by
    rw [zpow_neg]
    norm_num
  rw [e, e2, f64Round_exact 5 (-1) (by norm_num) (by norm_num)
    (by rw [e3, abs_of_pos (by norm_num)]; norm_num), e3]

theorem toBytes_2_5_MiB : toBytes (some (5 / 2)) "MiB".toList = some 2621440 := by
  have h := toBytes_mib (5 / 2) "MiB".toList isF64_five_halves (by norm_num) (by decide)
  have e : (5 / 2 : ℚ) * 1024 * 1024 = ((2621440 : ℤ) : ℚ) := by norm_num
  rw [h, e, truncate_intCast]

theorem progress_call_witness :
    Run1 isDigitDot "50.0".toList ∧ Run1 isDigitDot "2.5".toList ∧ Run1 isWord "MiB".toList ∧
    (parseLine true ⟨[], []⟩ "[download]  50.0% of ~2.5MiB".toList).calls.length = 1 ∧
    ∃ c, toInt64 (fdiv (fmul (ofInt64 (toBytes (parseFloat "2.5".toList) "MiB".toList))
        (parseFloat "50.0".toList)) (some 100)) = some c ∧ 0 ≤ c ∧ c ≤ 2621440 :=
  ⟨run1_of_all _ _ (by decide) (by decide), run1_of_all _ _ (by decide) (by decide),
   run1_of_all _ _ (by decide) (by decide),
   by
    have h := (progress_call "50.0".toList "2.5".toList "MiB".toList ⟨[], []⟩
      (run1_of_all _ _ (by decide) (by decide)) (run1_of_all _ _ (by decide) (by decide))
      (run1_of_all _ _ (by decide) (by decide)) (by decide)).1
    have hl : progressLine "50.0".toList "2.5".toList "MiB".toList
        = "[download]  50.0% of ~2.5MiB".toList := by decide
    rw [hl] at h
    rw [h]
    rfl,
   (progress_call "50.0".toList "2.5".toList "MiB".toList ⟨[], []⟩
      (run1_of_all _ _ (by decide) (by decide)) (run1_of_all _ _ (by decide) (by decide))
      (run1_of_all _ _ (by decide) (by decide)) (by decide)).2.1 2621440 50
      (by rw [parseFloat_2_5]; exact toBytes_2_5_MiB) (by norm_num) parseFloat_50_0
      (by norm_num)⟩

theorem parseFloat_total_example :
    parseFloat "5764607523034242".toList = some 5764607523034242 := by
  have e : parseFloat "5764607523034242".toList = f64Round 5764607523034242 := by
    simp [parseFloat, digitsValue]
  have e2 : (5764607523034242 : ℚ) = ((5764607523034242 : ℤ) : ℚ) := by norm_num
  rw [e, e2, f64Round_intCast _ (by norm_num)]

theorem parseFloat_100 : parseFloat "100".toList = some 100 := by
  have e : parseFloat "100".toList = f64Round 100 := by
    simp [parseFloat, digitsValue]
  have e2 : (100 : ℚ) = ((100 : ℤ) : ℚ) := by norm_num
  rw [e, e2, f64Round_intCast _ (by norm_num)]

theorem toBytes_total_example :
    toBytes (some 5764607523034242) "B".toList = some 5764607523034242 := by
  have h := toBytes_other 5764607523034242 "B".toList (by norm_num) (by decide) (by decide)
    (by decide)
  have e : (5764607523034242 : ℚ) = ((5764607523034242 : ℤ) : ℚ) := by norm_num
  rw [h, e, truncate_intCast]

theorem fmul_total_example :
    fmul (some 5764607523034242) (some 100) = some 576460752303424256 := by
  have h := f64Round_cert_nonneg ((5764607523034242 : ℚ) * 100) 59 4503599627370502
    (by norm_num) (by norm_num) (by norm_num) (by norm_num)
    (by
      have e : (5764607523034242 : ℚ) * 100 / 2 ^ ((59 : ℤ) - 52) = 576460752303424200 / 128 := by
        norm_num
      rw [e]
      decide!)
    (by norm_num) (by norm_num)
  have e2 : ((4503599627370502 : ℤ) : ℚ) * 2 ^ ((59 : ℤ) - 52) = 576460752303424256 := by
    norm_num
  rw [e2] at h
  exact h

theorem fdiv_total_example :
    fdiv (some 576460752303424256) (some 100) = some 5764607523034243 := by
  have h := f64Round_cert_nonneg ((576460752303424256 : ℚ) / 100) 52 5764607523034243
    (by norm_num) (by norm_num) (by norm_num) (by norm_num)
    (by
      have e : (576460752303424256 : ℚ) / 100 / 2 ^ ((52 : ℤ) - 52) = 576460752303424256 / 100 := by
        norm_num
      rw [e]
      decide!)
    (by norm_num) (by norm_num)
  have e2 : ((5764607523034243 : ℤ) : ℚ) * 2 ^ ((52 : ℤ) - 52) = 5764607523034243 := by
    norm_num
  rw [e2] at h
  show (if (100 : ℚ) = 0 then none else f64Round (576460752303424256 / 100))
    = some 5764607523034243
  rw [if_neg (by norm_num), h]

/-- C8 as stated fails: on `[download]  100% of ~5764607523034242B` the total is
5764607523034242 bytes and the callback receives 5764607523034243 as the bytes transferred,
more than the total although the percentage is 100 (the product `total × 100` is not a
double and is rounded up before the division). -/
theorem progress_exceeds_total :
    (parseLine true ⟨[], []⟩ (progressLine "100".toList "5764607523034242".toList "B".toList)).calls
      = [⟨some 5764607523034243, some 5764607523034242⟩] ∧
    parseFloat "100".toList = some 100 ∧
    ¬ ((5764607523034243 : ℤ) ≤ 5764607523034242) := by
  refine ⟨?_, parseFloat_100, by norm_num⟩
  rw [parseLine_calls_progressLine _ _ _ _ (run1_of_all _ _ (by decide) (by decide))
    (run1_of_all _ _ (by decide) (by decide)) (run1_of_all _ _ (by decide) (by decide))
    (by decide)]
  rw [parseFloat_total_example, toBytes_total_example, parseFloat_100]
  have hconv : ofInt64 (some 5764607523034242) = some 5764607523034242 := by
    have h := f64Round_intCast 5764607523034242 (by norm_num)
    have e : ((5764607523034242 : ℤ) : ℚ) = 5764607523034242 := by norm_num
    rw [e] at h
    exact h
  have htrunc : toInt64 (some 5764607523034243) = some 5764607523034243 := by
    have h := toInt64_of_abs_lt 5764607523034243 (by norm_num)
    have e : (5764607523034243 : ℚ) = ((5764607523034243 : ℤ) : ℚ) := by norm_num
    rw [h, e, truncate_intCast]
  rw [hconv, fmul_total_example, fdiv_total_example, htrunc]
  rfl

/-! ## Sizes beyond `int64` -/

theorem parseFloat_int64_max :
    parseFloat "9223372036854775807".toList = some 9223372036854775808 := by
  have e : parseFloat "9223372036854775807".toList = f64Round 9223372036854775807 := by
    simp [parseFloat, digitsValue]
  have h := f64Round_cert_nonneg (9223372036854775807 : ℚ) 62 9007199254740992
    (by norm_num) (by norm_num) (by norm_num) (by norm_num)
    (by
      have e1 : (9223372036854775807 : ℚ) / 2 ^ ((62 : ℤ) - 52) = 9223372036854775807 / 1024 := by
        norm_num
      rw [e1]
      decide!)
    (by norm_num) (by norm_num)
  have e2 : ((9007199254740992 : ℤ) : ℚ) * 2 ^ ((62 : ℤ) - 52) = 9223372036854775808 := by
    norm_num
  rw [e2] at h
  rw [e, h]

theorem truncate_two_pow_63 : truncate (9223372036854775808 : ℚ) = 9223372036854775808 := by
  have e : (9223372036854775808 : ℚ) = ((9223372036854775808 : ℤ) : ℚ) := by norm_num
  rw [e, truncate_intCast]

theorem toInt64_two_pow_63 : toInt64 (some 9223372036854775808) = none := by
  show (if -(2 : ℤ) ^ 63 ≤ truncate (9223372036854775808 : ℚ) ∧
      truncate (9223372036854775808 : ℚ) < (2 : ℤ) ^ 63
    then some (truncate (9223372036854775808 : ℚ)) else none) = none
  rw [truncate_two_pow_63, if_neg (by norm_num)]

theorem toBytes_two_pow_63 : toBytes (some 9223372036854775808) "B".toList = none := by
  unfold toBytes
  rw [if_neg (by decide), if_neg (by decide), if_neg (by decide), toInt64_two_pow_63]

/-- C10 as stated fails: the size `9223372036854775807` parses to the double `2^63`; with
the unit `B`, `toBytes` converts that value as it is, and its truncation, `2^63`, is more
than an `int64` holds, so the result is not the value truncated: Go leaves the converted
integer to the implementation (amd64 gives `-2^63`). -/
theorem toBytes_out_of_range :
    parseFloat "9223372036854775807".toList = some 9223372036854775808 ∧
    truncate (9223372036854775808 : ℚ) = 9223372036854775808 ∧
    ¬ ((9223372036854775808 : ℤ) < 2 ^ 63) ∧
    toBytes (some 9223372036854775808) "B".toList = none ∧
    toBytes (some 9223372036854775808) "B".toList
      ≠ some (truncate (9223372036854775808 : ℚ)) := by
  refine ⟨parseFloat_int64_max, truncate_two_pow_63, by norm_num, toBytes_two_pow_63, ?_⟩
  rw [toBytes_two_pow_63]
  exact fun h => Option.noConfusion h

/-! ## `Download` -/

theorem Download_started (hp : Bool) (run : ToolRun) (h1 : run.stdoutPipeOk = true)
    (h2 : run.stderrPipeOk = true) (h3 : run.startOk = true) :
    (Download hp run).2 =
      if run.exitStatus ≠ 0 then Except.error DownloadError.wait
      else Except.ok ⟨(harvest hp run.lines).filePath⟩ := by
  unfold Download
  simp only [h1, h2, h3, Bool.true_eq_false, if_false]
  split_ifs <;> rfl

theorem find?_none_of_no_path (lines : List Str) (h : ∀ l ∈ lines, extractFilePath l = []) :
    lines.reverse.find? (fun l => !(extractFilePath l).isEmpty) = none := by
  rw [List.find?_eq_none]
  intro l hl
  rw [h l (List.mem_reverse.mp hl)]
  simp

/-- C11: once the tool has been started, `Download` returns an error exactly when the exit
status is not zero; on exit status zero it returns the path of the last line that carries
one, and the empty path, not an error, when no line carries a path. -/
theorem Download_result (hp : Bool) (run : ToolRun) (h1 : run.stdoutPipeOk = true)
    (h2 : run.stderrPipeOk = true) (h3 : run.startOk = true) :
    ((∃ e, (Download hp run).2 = Except.error e) ↔ run.exitStatus ≠ 0) ∧
    (run.exitStatus = 0 →
      (Download hp run).2 = Except.ok
        ⟨((run.lines.reverse.find? (fun l => !(extractFilePath l).isEmpty)).map
          extractFilePath).getD []⟩) ∧
    (run.exitStatus = 0 → (∀ l ∈ run.lines, extractFilePath l = []) →
      (Download hp run).2 = Except.ok ⟨[]⟩) := by
  have hd := Download_started hp run h1 h2 h3
  have hpath : (harvest hp run.lines).filePath =
      ((run.lines.reverse.find? (fun l => !(extractFilePath l).isEmpty)).map
        extractFilePath).getD [] := foldl_parseLine_filePath hp run.lines ⟨[], []⟩
  refine ⟨?_, ?_, ?_⟩
  · constructor
    · rintro ⟨e, he⟩ h0
      rw [hd, if_neg (by simpa using h0)] at he
      cases he
    · intro h0
      exact ⟨DownloadError.wait, by rw [hd, if_pos h0]⟩
  · intro h0
    rw [hd, if_neg (by simpa using h0), hpath]
  · intro h0 hno
    rw [hd, if_neg (by simpa using h0), hpath, find?_none_of_no_path run.lines hno]
    rfl

set_option maxRecDepth 100000 in
theorem Download_result_witness :
    (Download true ⟨true, true, true,
        ["[download]  50.0% of ~2.5MiB".toList, "[youtube] abc: Downloading webpage".toList], 0⟩).2
      = Except.ok ⟨[]⟩ ∧
    (∃ e, (Download true ⟨true, true, true, ["ERROR: unavailable".toList], 1⟩).2
      = Except.error e) :=
  ⟨(Download_result true ⟨true, true, true,
        ["[download]  50.0% of ~2.5MiB".toList, "[youtube] abc: Downloading webpage".toList], 0⟩
      rfl rfl rfl).2.2 rfl (by decide),
   (Download_result true ⟨true, true, true, ["ERROR: unavailable".toList], 1⟩
      rfl rfl rfl).1.mpr (by decide)⟩

/-! ## Dependency bootstrap -/

theorem EnsureDependencies_path (w : DepsWorld) (path d : Str) (hd : w.binDir = some d)
    (hm : w.mkdirOk = true) :
    (EnsureDependencies w path).1 = d ++ [w.pathListSeparator] ++ path := by
  unfold EnsureDependencies
  simp only [hd, hm, Bool.true_eq_false, if_false]
  split_ifs <;> rfl

theorem EnsureDependencies_path_failed (w : DepsWorld) (path : Str)
    (h : w.binDir = none ∨ w.mkdirOk = false) : (EnsureDependencies w path).1 = path := by
  unfold EnsureDependencies
  cases hb : w.binDir with
  | none => rfl
  | some d =>
    rcases h with h | h
    · rw [hb] at h
      cases h
    · simp only [h, if_true]

/-- C16, as the code has it: every run of `EnsureDependencies` that gets past the creation
of the install directory prepends the directory and the list separator to the search path,
whatever the path already holds.  After one run the directory occurs once as a prefix; a
second run prepends it again, so the path after two runs differs from the path after one.
A run that fails before leaves the path as it was. -/
theorem EnsureDependencies_prepends (w1 w2 : DepsWorld) (path d : Str)
    (h1 : w1.binDir = some d) (m1 : w1.mkdirOk = true)
    (h2 : w2.binDir = some d) (m2 : w2.mkdirOk = true)
    (hs : w2.pathListSeparator = w1.pathListSeparator) :
    (EnsureDependencies w1 path).1 = d ++ [w1.pathListSeparator] ++ path ∧
    (EnsureDependencies w2 (EnsureDependencies w1 path).1).1
      = d ++ [w1.pathListSeparator] ++ (d ++ [w1.pathListSeparator] ++ path) ∧
    (EnsureDependencies w2 (EnsureDependencies w1 path).1).1 ≠ (EnsureDependencies w1 path).1 ∧
    (∀ (w : DepsWorld) (p : Str), w.binDir = none ∨ w.mkdirOk = false →
      (EnsureDependencies w p).1 = p) := by
  have e1 := EnsureDependencies_path w1 path d h1 m1
  have e2 := EnsureDependencies_path w2 (EnsureDependencies w1 path).1 d h2 m2
  rw [hs] at e2
  have e3 : (EnsureDependencies w2 (EnsureDependencies w1 path).1).1
      = d ++ [w1.pathListSeparator] ++ (d ++ [w1.pathListSeparator] ++ path) := by
    rw [e2, e1]
  refine ⟨e1, e3, ?_, EnsureDependencies_path_failed⟩
  rw [e3, e1]
  intro h
  have hl := congrArg List.length h
  simp only [List.length_append, List.length_singleton] at hl
  omega

theorem EnsureDependencies_prepends_witness :
    (EnsureDependencies ⟨some "/c/bin".toList, true, ':', true, true, true, true, true, true⟩
        "/usr/bin".toList).1 = "/c/bin:/usr/bin".toList ∧
    (EnsureDependencies ⟨some "/c/bin".toList, true, ':', true, true, true, true, true, true⟩
        (EnsureDependencies ⟨some "/c/bin".toList, true, ':', false, true, true, true, true, true⟩
          "/usr/bin".toList).1).1 = "/c/bin:/c/bin:/usr/bin".toList :=
  ⟨(EnsureDependencies_prepends
      ⟨some "/c/bin".toList, true, ':', true, true, true, true, true, true⟩
      ⟨some "/c/bin".toList, true, ':', true, true, true, true, true, true⟩
      "/usr/bin".toList "/c/bin".toList rfl rfl rfl rfl rfl).1,
   (EnsureDependencies_prepends
      ⟨some "/c/bin".toList, true, ':', false, true, true, true, true, true⟩
      ⟨some "/c/bin".toList, true, ':', true, true, true, true, true, true⟩
      "/usr/bin".toList "/c/bin".toList rfl rfl rfl rfl rfl).2.1⟩

/-- C16 as stated fails: with the install directory `/c/bin` and the search path `/usr/bin`,
a first run of `EnsureDependencies` gives `/c/bin:/usr/bin` and a second run gives
`/c/bin:/c/bin:/usr/bin`, not the path the first run left. -/
theorem EnsureDependencies_twice :
    (EnsureDependencies ⟨some "/c/bin".toList, true, ':', true, true, true, true, true, true⟩
        "/usr/bin".toList).1 = "/c/bin:/usr/bin".toList ∧
    (EnsureDependencies ⟨some "/c/bin".toList, true, ':', true, true, true, true, true, true⟩
        (EnsureDependencies ⟨some "/c/bin".toList, true, ':', true, true, true, true, true, true⟩
          "/usr/bin".toList).1).1 = "/c/bin:/c/bin:/usr/bin".toList ∧
    (EnsureDependencies ⟨some "/c/bin".toList, true, ':', true, true, true, true, true, true⟩
        (EnsureDependencies ⟨some "/c/bin".toList, true, ':', true, true, true, true, true, true⟩
          "/usr/bin".toList).1).1 ≠
      (EnsureDependencies ⟨some "/c/bin".toList, true, ':', true, true, true, true, true, true⟩
        "/usr/bin".toList).1 := by
  decide

/-! ## `extractFromZip` -/

theorem extractEntries_all_ok (lower base : Str → Str) (entryOk : ZipEntry → Bool)
    (targetSet : List Str) (files : List ZipEntry) (h : ∀ f ∈ files, entryOk f = true) :
    ∀ done : List ZipEntry,
      extractEntries lower base entryOk targetSet files done =
        (done ++ files.filter (fun f => !f.isDir && targetSet.contains (lower (base f.Name))),
          none) := by
  induction files with
  | nil => intro done; simp [extractEntries]
  | cons f rest ih =>
    intro done
    have ihr := ih (fun g hg => h g (List.mem_cons_of_mem _ hg))
    have hf : entryOk f = true := h f (List.mem_cons_self _ _)
    unfold extractEntries
    by_cases hdir : f.isDir = true
    · rw [if_pos hdir, ihr, List.filter_cons_of_neg (by simp [hdir])]
    · rw [if_neg hdir]
      have hdir2 : f.isDir = false := by simpa using hdir
      by_cases ht : targetSet.contains (lower (base f.Name)) = true
      · rw [if_neg (by rw [ht]; decide), if_neg (by rw [hf]; decide), ihr,
          List.filter_cons_of_pos (by simp only [hdir2, ht]; rfl)]
        simp
      · have ht2 : targetSet.contains (lower (base f.Name)) = false := by simpa using ht
        rw [if_pos (by simp only [ht2]; rfl), ihr,
          List.filter_cons_of_neg (by simp only [hdir2, ht2]; decide)]

/-- C15: when every single extraction succeeds, `extractFromZip` writes exactly the entries
that are not directories and whose base name equals a target once both are lowered, in the
order of the archive; it fails exactly when there is no such entry, so an archive that holds
one target only succeeds. -/
theorem extractFromZip_targets (lower base : Str → Str) (entryOk : ZipEntry → Bool)
    (files : List ZipEntry) (targets : List Str) (h : ∀ f ∈ files, entryOk f = true) :
    (extractFromZip lower base entryOk (some files) targets).1 =
      files.filter (fun f => !f.isDir && (targets.map lower).contains (lower (base f.Name))) ∧
    ((∃ e, (extractFromZip lower base entryOk (some files) targets).2 = Except.error e) ↔
      files.filter (fun f => !f.isDir && (targets.map lower).contains (lower (base f.Name)))
        = []) ∧
    (∀ f ∈ files, f.isDir = false → (∃ t ∈ targets, lower (base f.Name) = lower t) →
      (extractFromZip lower base entryOk (some files) targets).2 = Except.ok ()) := by
  have hloop := extractEntries_all_ok lower base entryOk (targets.map lower) files h []
  simp only [List.nil_append] at hloop
  have hres : extractFromZip lower base entryOk (some files) targets =
      (files.filter (fun f => !f.isDir && (targets.map lower).contains (lower (base f.Name))),
        if (files.filter (fun f => !f.isDir &&
            (targets.map lower).contains (lower (base f.Name)))).length = 0
        then Except.error ZipError.noTarget else Except.ok ()) := by
    unfold extractFromZip
    simp only [hloop]
    split_ifs <;> rfl
  have hiff : (∃ e, (extractFromZip lower base entryOk (some files) targets).2 = Except.error e) ↔
      files.filter (fun f => !f.isDir && (targets.map lower).contains (lower (base f.Name)))
        = [] := by
    rw [hres]
    constructor
    · rintro ⟨e, he⟩
      by_contra hne
      rw [if_neg (by simpa using hne)] at he
      cases he
    · intro hnil
      exact ⟨ZipError.noTarget, by rw [hnil]; rfl⟩
  refine ⟨by rw [hres], hiff, ?_⟩
  intro f hf hdir ⟨t, ht, hlt⟩
  have hmem : f ∈ files.filter
      (fun f => !f.isDir && (targets.map lower).contains (lower (base f.Name))) := by
    rw [List.mem_filter]
    refine ⟨hf, ?_⟩
    have hin : lower (base f.Name) ∈ targets.map lower :=
      List.mem_map.mpr ⟨t, ht, hlt.symm⟩
    have hc : (targets.map lower).contains (lower (base f.Name)) = true :=
      List.elem_eq_true_of_mem hin
    simp only [hdir, hc]
    rfl
  rw [hres]
  have hne : (files.filter (fun f => !f.isDir &&
      (targets.map lower).contains (lower (base f.Name)))).length ≠ 0 := by
    intro h0
    rw [List.length_eq_zero] at h0
    rw [h0] at hmem
    simp at hmem
  simp only [hne, if_false]

set_option maxRecDepth 100000 in
theorem extractFromZip_targets_witness :
    (extractFromZip toLower filepathBase (fun _ => true)
        (some [⟨"ffmpeg-win64/bin/".toList, true⟩, ⟨"ffmpeg-win64/bin/FFmpeg.exe".toList, false⟩,
          ⟨"ffmpeg-win64/LICENSE.txt".toList, false⟩])
        ["ffmpeg.exe".toList, "ffprobe.exe".toList]).2 = Except.ok () :=
  (extractFromZip_targets toLower filepathBase (fun _ => true)
      [⟨"ffmpeg-win64/bin/".toList, true⟩, ⟨"ffmpeg-win64/bin/FFmpeg.exe".toList, false⟩,
        ⟨"ffmpeg-win64/LICENSE.txt".toList, false⟩]
      ["ffmpeg.exe".toList, "ffprobe.exe".toList] (fun _ _ => rfl)).2.2
    ⟨"ffmpeg-win64/bin/FFmpeg.exe".toList, false⟩ (by decide) rfl
    ⟨"ffmpeg.exe".toList, by decide, by decide⟩

/-! ## The progress bar of the menu -/

theorem f64Round_small (n : ℤ) (q : ℚ) (hq : q = (n : ℚ)) (hn : |n| < 2 ^ 53) :
    f64Round q = some (n : ℚ) := by
  rw [hq]
  exact f64Round_intCast n hn

theorem barFilled_double : barFilled 20971520 10485760 = some 60 := by
  have h1 : ofInt64 (some 20971520) = some ((20971520 : ℤ) : ℚ) :=
    f64Round_intCast 20971520 (by norm_num)
  have h2 : ofInt64 (some 10485760) = some ((10485760 : ℤ) : ℚ) :=
    f64Round_intCast 10485760 (by norm_num)
  have h3 : ofInt64 (some 30) = some ((30 : ℤ) : ℚ) := f64Round_intCast 30 (by norm_num)
  have d1 : fdiv (some ((20971520 : ℤ) : ℚ)) (some ((10485760 : ℤ) : ℚ)) = some ((2 : ℤ) : ℚ) := by
    show (if ((10485760 : ℤ) : ℚ) = 0 then none
      else f64Round (((20971520 : ℤ) : ℚ) / ((10485760 : ℤ) : ℚ))) = _
    rw [if_neg (by norm_num)]
    exact f64Round_small 2 _ (by norm_num) (by norm_num)
  have m1 : fmul (some ((2 : ℤ) : ℚ)) (some 100) = some ((200 : ℤ) : ℚ) :=
    f64Round_small 200 _ (by norm_num) (by norm_num)
  have d2 : fdiv (some ((200 : ℤ) : ℚ)) (some 100) = some ((2 : ℤ) : ℚ) := by
    show (if (100 : ℚ) = 0 then none else f64Round (((200 : ℤ) : ℚ) / 100)) = _
    rw [if_neg (by norm_num)]
    exact f64Round_small 2 _ (by norm_num) (by norm_num)
  have m2 : fmul (some ((2 : ℤ) : ℚ)) (some ((30 : ℤ) : ℚ)) = some ((60 : ℤ) : ℚ) :=
    f64Round_small 60 _ (by norm_num) (by norm_num)
  unfold barFilled
  rw [h1, h2, h3, d1, m1, d2, m2, toInt64_of_abs_lt _ (by norm_num), truncate_intCast]

theorem parseFloat_small (s : Str) (n : ℤ) (q : ℚ) (hs : parseFloat s = f64Round q)
    (hq : q = (n : ℚ)) (hn : |n| < 2 ^ 53) : parseFloat s = some (n : ℚ) := by
  rw [hs]
  exact f64Round_small n q hq hn

theorem harvest_double :
    (harvest true ["[download]  200% of ~10MiB".toList]).calls
      = [⟨some 20971520, some 10485760⟩] := by
  have hl : "[download]  200% of ~10MiB".toList
      = progressLine "200".toList "10".toList "MiB".toList := by decide
  have p200 : parseFloat "200".toList = some ((200 : ℤ) : ℚ) :=
    parseFloat_small _ 200 200 (by simp [parseFloat, digitsValue]) (by norm_num) (by norm_num)
  have p10 : parseFloat "10".toList = some ((10 : ℤ) : ℚ) :=
    parseFloat_small _ 10 10 (by simp [parseFloat, digitsValue]) (by norm_num) (by norm_num)
  have f10 : IsF64 ((10 : ℤ) : ℚ) :=
    ⟨by norm_num, 10, 0, by norm_num, by norm_num, by norm_num⟩
  have tb : toBytes (some ((10 : ℤ) : ℚ)) "MiB".toList = some 10485760 := by
    have h := toBytes_mib ((10 : ℤ) : ℚ) "MiB".toList f10 (by norm_num) (by decide)
    have e : ((10 : ℤ) : ℚ) * 1024 * 1024 = ((10485760 : ℤ) : ℚ) := by norm_num
    rw [h, e, truncate_intCast]
  have c1 : ofInt64 (some 10485760) = some ((10485760 : ℤ) : ℚ) :=
    f64Round_intCast 10485760 (by norm_num)
  have m1 : fmul (some ((10485760 : ℤ) : ℚ)) (some ((200 : ℤ) : ℚ))
      = some ((2097152000 : ℤ) : ℚ) :=
    f64Round_small 2097152000 _ (by norm_num) (by norm_num)
  have d1 : fdiv (some ((2097152000 : ℤ) : ℚ)) (some 100) = some ((20971520 : ℤ) : ℚ) := by
    show (if (100 : ℚ) = 0 then none else f64Round (((2097152000 : ℤ) : ℚ) / 100)) = _
    rw [if_neg (by norm_num)]
    exact f64Round_small 20971520 _ (by norm_num) (by norm_num)
  show (parseLine true ⟨[], []⟩ "[download]  200% of ~10MiB".toList).calls = _
  rw [hl, parseLine_calls_progressLine _ _ _ _ (run1_of_all _ _ (by decide) (by decide))
    (run1_of_all _ _ (by decide) (by decide)) (run1_of_all _ _ (by decide) (by decide))
    (by decide), p200, p10, tb, c1, m1, d1, toInt64_of_abs_lt _ (by norm_num), truncate_intCast]
  rfl

/-- C17 fails in the code: for the line `[download]  200% of ~10MiB` the handler of `Download`
calls the callback with current 20971520 and total 10485760; the callback of the menu then
computes 60 filled cells and `30 - 60 = -30` empty ones, a negative count on which
`strings.Repeat` panics.  The bar of the dependency download, on the same numbers, caps the
filled cells at 30 and prints. -/
theorem menuProgress_panics :
    (harvest true ["[download]  200% of ~10MiB".toList]).calls
      = [⟨some 20971520, some 10485760⟩] ∧
    barFilled 20971520 10485760 = some 60 ∧
    stringsRepeat ['░'] (30 - 60) = none ∧
    menuProgress 20971520 10485760 = BarOutcome.panicked ∧
    printProgress 20971520 10485760 = BarOutcome.printed (List.replicate 30 '█') := by
  refine ⟨harvest_double, barFilled_double, by decide, ?_, ?_⟩
  · unfold menuProgress
    rw [if_neg (by norm_num), barFilled_double]
    decide
  · unfold printProgress
    rw [if_neg (by norm_num), barFilled_double]
    decide

/-! ## Sorting -/

theorem insertSorted_perm {α : Type} (less : α → α → Bool) (x : α) (l : List α) :
    (insertSorted less x l).Perm (x :: l) := by
  induction l with
  | nil => exact List.Perm.refl _
  | cons y ys ih =>
    unfold insertSorted
    split_ifs
    · exact List.Perm.refl _
    · exact (List.Perm.cons y ih).trans (List.Perm.swap x y ys)

theorem sortSlice_perm {α : Type} (less : α → α → Bool) (l : List α) :
    (sortSlice less l).Perm l := by
  induction l with
  | nil => exact List.Perm.refl _
  | cons x xs ih =>
    unfold sortSlice
    exact (insertSorted_perm less x _).trans (List.Perm.cons x ih)

theorem insertSorted_pairwise {α : Type} (less : α → α → Bool)
    (hasymm : ∀ a b, less a b = true → less b a = false)
    (htrans : ∀ a b c, less a b = true → less b c = true → less a c = true)
    (x : α) (l : List α) (hl : l.Pairwise (fun a b => less b a = false)) :
    (insertSorted less x l).Pairwise (fun a b => less b a = false) := by
  induction l with
  | nil => exact List.pairwise_singleton _ _
  | cons y ys ih =>
    rw [List.pairwise_cons] at hl
    unfold insertSorted
    by_cases hxy : less x y = true
    · rw [if_pos hxy, List.pairwise_cons]
      refine ⟨?_, List.pairwise_cons.mpr hl⟩
      intro z hz
      rcases List.mem_cons.mp hz with rfl | hz
      · exact hasymm _ _ hxy
      · cases hzx : less z x with
        | false => rfl
        | true =>
          have h1 := htrans z x y hzx hxy
          rw [hl.1 z hz] at h1
          cases h1
    · rw [if_neg hxy, List.pairwise_cons]
      refine ⟨?_, ih hl.2⟩
      intro z hz
      rcases List.mem_cons.mp ((insertSorted_perm less x ys).mem_iff.mp hz) with rfl | hz
      · simpa using hxy
      · exact hl.1 z hz

theorem sortSlice_isSorted {α : Type} (less : α → α → Bool)
    (hasymm : ∀ a b, less a b = true → less b a = false)
    (htrans : ∀ a b c, less a b = true → less b c = true → less a c = true)
    (l : List α) : IsSorted less l (sortSlice less l) := by
  refine ⟨sortSlice_perm less l, ?_⟩
  induction l with
  | nil => exact List.Pairwise.nil
  | cons x xs ih =>
    unfold sortSlice
    exact insertSorted_pairwise less hasymm htrans x _ ih

theorem lessHeight_asymm (a b : Format) (h : lessHeight a b = true) : lessHeight b a = false := by
  unfold lessHeight at *
  simp only [decide_eq_true_eq, decide_eq_false_iff_not] at *
  omega

theorem lessHeight_trans (a b c : Format) (h1 : lessHeight a b = true)
    (h2 : lessHeight b c = true) : lessHeight a c = true := by
  unfold lessHeight at *
  simp only [decide_eq_true_eq] at *
  omega

theorem lessName_asymm (a b : AudioLang) (h : lessName a b = true) : lessName b a = false := by
  unfold lessName at *
  simp only [decide_eq_true_eq, decide_eq_false_iff_not] at *
  exact lt_asymm h

theorem lessName_trans (a b c : AudioLang) (h1 : lessName a b = true)
    (h2 : lessName b c = true) : lessName a c = true := by
  unfold lessName at *
  simp only [decide_eq_true_eq] at *
  exact lt_trans h1 h2

/-- The executable `GetVideoInfo` returns one of the results the code can give. -/
theorem GetVideoInfo_isVideoInfo (formats : List ytdlpFormat) :
    IsVideoInfo formats (GetVideoInfo formats) :=
  ⟨sortSlice_isSorted lessHeight lessHeight_asymm lessHeight_trans _,
   langEntries (collectLangs formats []), List.Perm.refl _,
   sortSlice_isSorted lessName lessName_asymm lessName_trans _⟩

/-! ## Quality options -/

theorem collectFormats_spec (fs : List ytdlpFormat) :
    ∀ (seen : List Int) (acc : List Format),
      (∀ h, h ∈ seen ↔ h ∈ acc.map Format.Height) → (acc.map Format.Height).Nodup →
      ((collectFormats fs (seen, acc)).2.map Format.Height).Nodup ∧
      (∀ h, h ∈ (collectFormats fs (seen, acc)).2.map Format.Height ↔
        h ∈ acc.map Format.Height ∨
          ∃ f ∈ fs, f.VCodec ≠ "none".toList ∧ f.Height ≠ 0 ∧ f.Height = h) ∧
      (∀ o ∈ (collectFormats fs (seen, acc)).2,
        o ∈ acc ∨ o.Label = itoa o.Height ++ "p".toList) := by
  induction fs with
  | nil =>
    intro seen acc _ hnd
    exact ⟨hnd, fun h => by simp [collectFormats], fun o ho => Or.inl ho⟩
  | cons f rest ih =>
    intro seen acc hseen hnd
    unfold collectFormats
    by_cases hskip : f.VCodec = "none".toList ∨ f.Height = 0
    · rw [if_pos hskip]
      obtain ⟨i1, i2, i3⟩ := ih seen acc hseen hnd
      refine ⟨i1, ?_, i3⟩
      intro h
      rw [i2 h]
      constructor
      · rintro (h1 | ⟨g, hg, hq⟩)
        · exact Or.inl h1
        · exact Or.inr ⟨g, List.mem_cons_of_mem _ hg, hq⟩
      · rintro (h1 | ⟨g, hg, hq1, hq2, hq3⟩)
        · exact Or.inl h1
        · rcases List.mem_cons.mp hg with rfl | hg
          · rcases hskip with hs | hs
            · exact absurd hs hq1
            · exact absurd hs hq2
          · exact Or.inr ⟨g, hg, hq1, hq2, hq3⟩
    · rw [if_neg hskip]
      have hq : f.VCodec ≠ "none".toList ∧ f.Height ≠ 0 := not_or.mp hskip
      by_cases hdup : seen.contains f.Height = true
      · rw [if_pos hdup]
        have hmem : f.Height ∈ acc.map Format.Height :=
          (hseen _).mp (List.mem_of_elem_eq_true hdup)
        obtain ⟨i1, i2, i3⟩ := ih seen acc hseen hnd
        refine ⟨i1, ?_, i3⟩
        intro h
        rw [i2 h]
        constructor
        · rintro (h1 | ⟨g, hg, hq⟩)
          · exact Or.inl h1
          · exact Or.inr ⟨g, List.mem_cons_of_mem _ hg, hq⟩
        · rintro (h1 | ⟨g, hg, hq1, hq2, hq3⟩)
          · exact Or.inl h1
          · rcases List.mem_cons.mp hg with rfl | hg
            · exact Or.inl (hq3 ▸ hmem)
            · exact Or.inr ⟨g, hg, hq1, hq2, hq3⟩
      · rw [if_neg hdup]
        have hnot : f.Height ∉ acc.map Format.Height := by
          intro hm
          exact hdup (List.elem_eq_true_of_mem ((hseen _).mpr hm))
        have hseen2 : ∀ h, h ∈ f.Height :: seen ↔
            h ∈ (acc ++ [(⟨f.Height, itoa f.Height ++ "p".toList⟩ : Format)]).map Format.Height := by
          intro h
          rw [List.mem_cons, List.map_append, List.mem_append, hseen h]
          simp only [List.map_cons, List.map_nil, List.mem_singleton]
          exact or_comm
        have hnd2 : ((acc ++ [(⟨f.Height, itoa f.Height ++ "p".toList⟩ : Format)]).map
            Format.Height).Nodup := by
          simp only [List.map_append, List.map_cons, List.map_nil]
          rw [List.nodup_append]
          refine ⟨hnd, List.nodup_singleton _, ?_⟩
          intro a ha hb
          rw [List.mem_singleton.mp hb] at ha
          exact hnot ha
        obtain ⟨i1, i2, i3⟩ := ih _ _ hseen2 hnd2
        refine ⟨i1, ?_, ?_⟩
        · intro h
          rw [i2 h]
          simp only [List.map_append, List.map_cons, List.map_nil, List.mem_append,
            List.mem_singleton]
          constructor
          · rintro ((h1 | h1) | ⟨g, hg, hq'⟩)
            · exact Or.inl h1
            · exact Or.inr ⟨f, List.mem_cons_self _ _, hq.1, hq.2, h1.symm⟩
            · exact Or.inr ⟨g, List.mem_cons_of_mem _ hg, hq'⟩
          · rintro (h1 | ⟨g, hg, hq1, hq2, hq3⟩)
            · exact Or.inl (Or.inl h1)
            · rcases List.mem_cons.mp hg with rfl | hg
              · exact Or.inl (Or.inr hq3.symm)
              · exact Or.inr ⟨g, hg, hq1, hq2, hq3⟩
        · intro o ho
          rcases i3 o ho with h1 | h1
          · rcases List.mem_append.mp h1 with h2 | h2
            · exact Or.inl h2
            · rw [List.mem_singleton.mp h2]
              exact Or.inr rfl
          · exact Or.inr h1

theorem collectFormats_init (fs : List ytdlpFormat) :
    ((collectFormats fs ([], [])).2.map Format.Height).Nodup ∧
    (∀ h, h ∈ (collectFormats fs ([], [])).2.map Format.Height ↔
      ∃ f ∈ fs, f.VCodec ≠ "none".toList ∧ f.Height ≠ 0 ∧ f.Height = h) ∧
    (∀ o ∈ (collectFormats fs ([], [])).2, o.Label = itoa o.Height ++ "p".toList) := by
  obtain ⟨i1, i2, i3⟩ := collectFormats_spec fs [] [] (fun h => by simp) List.nodup_nil
  refine ⟨i1, ?_, ?_⟩
  · intro h
    rw [i2 h]
    simp
  · intro o ho
    rcases i3 o ho with h1 | h1
    · cases h1
    · exact h1

theorem isVideoInfo_heights (fs : List ytdlpFormat) (info : VideoInfo)
    (h : IsVideoInfo fs info) (x : Int) :
    x ∈ info.Formats.map Format.Height ↔
      ∃ f ∈ fs, f.VCodec ≠ "none".toList ∧ f.Height ≠ 0 ∧ f.Height = x := by
  rw [← (collectFormats_init fs).2.1 x]
  exact (h.1.1.map Format.Height).mem_iff

/-- C12: in every result of `GetVideoInfo` no two quality options have the same height, the
options are strictly ascending by height, their heights are exactly the heights of the raw
formats whose video codec is not `none` and whose height is not zero, and the label of each
option is its height in decimal followed by `p`. -/
theorem GetVideoInfo_formats (fs : List ytdlpFormat) (info : VideoInfo)
    (h : IsVideoInfo fs info) :
    (info.Formats.map Format.Height).Nodup ∧
    info.Formats.Pairwise (fun a b => a.Height < b.Height) ∧
    (∀ x, x ∈ info.Formats.map Format.Height ↔
      ∃ f ∈ fs, f.VCodec ≠ "none".toList ∧ f.Height ≠ 0 ∧ f.Height = x) ∧
    (∀ o ∈ info.Formats, o.Label = itoa o.Height ++ "p".toList) := by
  obtain ⟨i1, _, i3⟩ := collectFormats_init fs
  obtain ⟨hperm, hsorted⟩ := h.1
  have hnd : (info.Formats.map Format.Height).Nodup :=
    (hperm.map Format.Height).nodup_iff.mpr i1
  refine ⟨hnd, ?_, isVideoInfo_heights fs info h, ?_⟩
  · have hne : info.Formats.Pairwise (fun a b => a.Height ≠ b.Height) :=
      List.pairwise_map.mp hnd
    refine (hsorted.and hne).imp ?_
    intro a b hab
    have hle : ¬ b.Height < a.Height := by
      have := hab.1
      unfold lessHeight at this
      simpa using this
    have hne2 := hab.2
    omega
  · intro o ho
    exact i3 o (hperm.mem_iff.mp ho)

set_option maxRecDepth 100000 in
theorem GetVideoInfo_formats_witness :
    (GetVideoInfo [⟨720, "avc1".toList, "none".toList, []⟩,
        ⟨360, "avc1".toList, "mp4a".toList, "en".toList⟩,
        ⟨720, "vp9".toList, "none".toList, []⟩, ⟨0, "avc1".toList, "none".toList, []⟩,
        ⟨1080, "none".toList, "mp4a".toList, "pt".toList⟩]).Formats
      = [⟨360, "360p".toList⟩, ⟨720, "720p".toList⟩] ∧
    (GetVideoInfo [⟨720, "avc1".toList, "none".toList, []⟩,
        ⟨360, "avc1".toList, "mp4a".toList, "en".toList⟩,
        ⟨720, "vp9".toList, "none".toList, []⟩, ⟨0, "avc1".toList, "none".toList, []⟩,
        ⟨1080, "none".toList, "mp4a".toList, "pt".toList⟩]).Formats.Pairwise
      (fun a b => a.Height < b.Height) :=
  ⟨by decide,
   (GetVideoInfo_formats _ _ (GetVideoInfo_isVideoInfo
      [⟨720, "avc1".toList, "none".toList, []⟩,
        ⟨360, "avc1".toList, "mp4a".toList, "en".toList⟩,
        ⟨720, "vp9".toList, "none".toList, []⟩, ⟨0, "avc1".toList, "none".toList, []⟩,
        ⟨1080, "none".toList, "mp4a".toList, "pt".toList⟩])).2.1⟩

/-- C13 as stated fails: a raw format with a video codec and the height `-1` passes the
guard of `GetVideoInfo`, which only drops the height zero, and the result holds the quality
option of height `-1`, labelled `-1p`. -/
theorem GetVideoInfo_negative_height :
    (GetVideoInfo [⟨-1, "avc1".toList, "none".toList, []⟩]).Formats
      = [⟨-1, "-1p".toList⟩] ∧
    ¬ ∀ o ∈ (GetVideoInfo [⟨-1, "avc1".toList, "none".toList, []⟩]).Formats, 0 < o.Height := by
  decide

/-- C13, as the code has it: in every result of `GetVideoInfo` the height of a quality
option is not zero and is the height of a raw format whose video codec is not `none`; it is
positive unless that raw format has a negative height, so positive throughout when no raw
height is negative.  A raw format with a video codec and a negative height is not dropped:
the result holds an option of that height, labelled with it. -/
theorem GetVideoInfo_heights (fs : List ytdlpFormat) (info : VideoInfo)
    (h : IsVideoInfo fs info) :
    (∀ o ∈ info.Formats, o.Height ≠ 0) ∧
    (∀ o ∈ info.Formats, ∃ f ∈ fs, f.VCodec ≠ "none".toList ∧ f.Height = o.Height ∧
      (0 < o.Height ∨ f.Height < 0)) ∧
    ((∀ f ∈ fs, 0 ≤ f.Height) → ∀ o ∈ info.Formats, 0 < o.Height) ∧
    (∀ f ∈ fs, f.VCodec ≠ "none".toList → f.Height < 0 →
      ∃ o ∈ info.Formats, o.Height = f.Height ∧ o.Label = itoa f.Height ++ "p".toList) := by
  have hh := isVideoInfo_heights fs info h
  have hsrc : ∀ o ∈ info.Formats,
      ∃ f ∈ fs, f.VCodec ≠ "none".toList ∧ f.Height ≠ 0 ∧ f.Height = o.Height := by
    intro o ho
    exact (hh o.Height).mp (List.mem_map_of_mem _ ho)
  refine ⟨?_, ?_, ?_, ?_⟩
  · intro o ho
    obtain ⟨f, _, _, h0, he⟩ := hsrc o ho
    rw [← he]
    exact h0
  · intro o ho
    obtain ⟨f, hf, hv, h0, he⟩ := hsrc o ho
    refine ⟨f, hf, hv, he, ?_⟩
    by_cases hpos : 0 < o.Height
    · exact Or.inl hpos
    · exact Or.inr (by omega)
  · intro hnn o ho
    obtain ⟨f, hf, _, h0, he⟩ := hsrc o ho
    have := hnn f hf
    omega
  · intro f hf hv hneg
    obtain ⟨o, ho, he⟩ := List.mem_map.mp ((hh f.Height).mpr ⟨f, hf, hv, by omega, rfl⟩)
    refine ⟨o, ho, he, ?_⟩
    rw [← he]
    exact (collectFormats_init fs).2.2 o (h.1.1.mem_iff.mp ho)

set_option maxRecDepth 100000 in
theorem GetVideoInfo_heights_witness :
    (GetVideoInfo [⟨1080, "avc1".toList, "none".toList, []⟩,
        ⟨0, "avc1".toList, "mp4a".toList, "en".toList⟩,
        ⟨480, "vp9".toList, "opus".toList, []⟩]).Formats
      = [⟨480, "480p".toList⟩, ⟨1080, "1080p".toList⟩] ∧
    ∀ o ∈ (GetVideoInfo [⟨1080, "avc1".toList, "none".toList, []⟩,
        ⟨0, "avc1".toList, "mp4a".toList, "en".toList⟩,
        ⟨480, "vp9".toList, "opus".toList, []⟩]).Formats, 0 < o.Height :=
  ⟨by decide,
   (GetVideoInfo_heights _ _ (GetVideoInfo_isVideoInfo
      [⟨1080, "avc1".toList, "none".toList, []⟩,
        ⟨0, "avc1".toList, "mp4a".toList, "en".toList⟩,
        ⟨480, "vp9".toList, "opus".toList, []⟩])).2.2.1 (by decide)⟩

/-! ## Audio tracks -/

theorem mapGet_eq_none (m : StrMap) (k : Str) : mapGet m k = none ↔ k ∉ m.map Prod.fst := by
  induction m with
  | nil => simp [mapGet]
  | cons e m ih =>
    obtain ⟨k', v'⟩ := e
    unfold mapGet
    by_cases hk : k' = k
    · simp [hk]
    · rw [if_neg hk, ih]
      simp only [List.map_cons, List.mem_cons, not_or]
      exact ⟨fun h => ⟨fun h2 => hk h2.symm, h⟩, fun h => h.2⟩

theorem mapGet_eq_some (m : StrMap) (k v : Str) (h : mapGet m k = some v) : (k, v) ∈ m := by
  induction m with
  | nil => simp [mapGet] at h
  | cons e m ih =>
    obtain ⟨k', v'⟩ := e
    unfold mapGet at h
    by_cases hk : k' = k
    · rw [if_pos hk] at h
      cases h
      rw [hk]
      exact List.mem_cons_self _ _
    · rw [if_neg hk] at h
      exact List.mem_cons_of_mem _ (ih h)

theorem mapSet_keys (m : StrMap) (k v : Str) :
    (mapSet m k v).map Prod.fst =
      if k ∈ m.map Prod.fst then m.map Prod.fst else m.map Prod.fst ++ [k] := by
  induction m with
  | nil => simp [mapSet]
  | cons e m ih =>
    obtain ⟨k', v'⟩ := e
    unfold mapSet
    by_cases hk : k' = k
    · rw [if_pos hk, hk]
      simp
    · rw [if_neg hk, List.map_cons, ih]
      have hk2 : ¬ k = k' := fun h => hk h.symm
      by_cases hm : k ∈ m.map Prod.fst
      · simp [hm]
      · simp [hm, hk2]

theorem mapSet_mem (m : StrMap) (k v a b : Str) (hnd : (m.map Prod.fst).Nodup) :
    (a, b) ∈ mapSet m k v ↔ (a = k ∧ b = v) ∨ (a ≠ k ∧ (a, b) ∈ m) := by
  induction m with
  | nil => simp [mapSet]
  | cons e m ih =>
    obtain ⟨k', v'⟩ := e
    rw [List.map_cons, List.nodup_cons] at hnd
    unfold mapSet
    by_cases hk : k' = k
    · rw [if_pos hk]
      subst hk
      simp only [List.mem_cons, Prod.mk.injEq]
      constructor
      · rintro (h | h)
        · exact Or.inl h
        · refine Or.inr ⟨?_, Or.inr h⟩
          intro hak
          have hmem : a ∈ m.map Prod.fst := List.mem_map_of_mem Prod.fst h
          rw [hak] at hmem
          exact hnd.1 hmem
      · rintro (h | ⟨h1, h2 | h2⟩)
        · exact Or.inl h
        · exact absurd h2.1 h1
        · exact Or.inr h2
    · rw [if_neg hk]
      simp only [List.mem_cons, Prod.mk.injEq, ih hnd.2]
      constructor
      · rintro (h | h | h)
        · exact Or.inr ⟨fun hak => hk (h.1 ▸ hak), Or.inl h⟩
        · exact Or.inl h
        · exact Or.inr ⟨h.1, Or.inr h.2⟩
      · rintro (h | ⟨h1, h2 | h2⟩)
        · exact Or.inr (Or.inl h)
        · exact Or.inl h2
        · exact Or.inr (Or.inr ⟨h1, h2⟩)

theorem langInv_congr (m : StrMap) (S T : Str → Prop) (h : ∀ c, S c ↔ T c)
    (hi : LangInv m S) : LangInv m T := by
  obtain ⟨i1, i2, i3⟩ := hi
  refine ⟨i1, ?_, fun c hc => i3 c ((h c).mpr hc)⟩
  intro e he
  obtain ⟨j1, j2, j3⟩ := i2 e he
  exact ⟨(h _).mp j1, j2, fun c hc hb => j3 c ((h c).mpr hc) hb⟩

theorem langInv_insert (m : StrMap) (S : Str → Prop) (code : Str) (hi : LangInv m S)
    (hnew : ∀ c, S c → baseLang c = baseLang code → byteLen c < byteLen code) :
    LangInv (mapSet m (baseLang code) code) (fun c => S c ∨ c = code) := by
  obtain ⟨i1, i2, i3⟩ := hi
  refine ⟨?_, ?_, ?_⟩
  · rw [mapSet_keys]
    split_ifs with hk
    · exact i1
    · rw [List.nodup_append]
      refine ⟨i1, List.nodup_singleton _, ?_⟩
      intro a ha hb
      rw [List.mem_singleton.mp hb] at ha
      exact hk ha
  · rintro ⟨a, b⟩ he
    rcases (mapSet_mem m _ _ a b i1).mp he with ⟨ha, hb⟩ | ⟨ha, hmem⟩
    · subst ha hb
      refine ⟨Or.inr rfl, rfl, ?_⟩
      rintro c (hc | hc) hbase
      · exact le_of_lt (hnew c hc hbase)
      · rw [hc]
    · obtain ⟨j1, j2, j3⟩ := i2 (a, b) hmem
      refine ⟨Or.inl j1, j2, ?_⟩
      rintro c (hc | hc) hbase
      · exact j3 c hc hbase
      · rw [hc] at hbase
        exact absurd hbase.symm ha
  · rintro c (hc | hc)
    · rw [mapSet_keys]
      split_ifs
      · exact i3 c hc
      · exact List.mem_append_left _ (i3 c hc)
    · rw [hc, mapSet_keys]
      split_ifs with hk
      · exact hk
      · exact List.mem_append_right _ (List.mem_singleton_self _)

theorem langInv_keep (m : StrMap) (S : Str → Prop) (code existing : Str) (hi : LangInv m S)
    (hget : mapGet m (baseLang code) = some existing)
    (hle : byteLen code ≤ byteLen existing) :
    LangInv m (fun c => S c ∨ c = code) := by
  obtain ⟨i1, i2, i3⟩ := hi
  have hex := mapGet_eq_some m _ _ hget
  obtain ⟨x1, x2, _⟩ := i2 _ hex
  refine ⟨i1, ?_, ?_⟩
  · intro e he
    obtain ⟨j1, j2, j3⟩ := i2 e he
    refine ⟨Or.inl j1, j2, ?_⟩
    rintro c (hc | hc) hbase
    · exact j3 c hc hbase
    · rw [hc] at hbase ⊢
      exact le_trans hle (j3 existing x1 (x2.trans hbase))
  · rintro c (hc | hc)
    · exact i3 c hc
    · rw [hc]
      exact List.mem_map_of_mem Prod.fst hex

theorem collectLangs_inv (fs : List ytdlpFormat) :
    ∀ (m : StrMap) (S : Str → Prop), LangInv m S →
      LangInv (collectLangs fs m)
        (fun c => S c ∨ ∃ f ∈ fs, HasAudioLanguage f ∧ f.Language = c) := by
  induction fs with
  | nil =>
    intro m S hi
    exact langInv_congr m S _ (fun c => by simp) hi
  | cons f rest ih =>
    intro m S hi
    unfold collectLangs
    by_cases hskip : f.ACodec = "none".toList ∨ f.Language = []
    · rw [if_pos hskip]
      refine langInv_congr _ _ _ ?_ (ih m S hi)
      intro c
      constructor
      · rintro (h | ⟨g, hg, hq⟩)
        · exact Or.inl h
        · exact Or.inr ⟨g, List.mem_cons_of_mem _ hg, hq⟩
      · rintro (h | ⟨g, hg, hq, hl⟩)
        · exact Or.inl h
        · rcases List.mem_cons.mp hg with rfl | hg
          · rcases hskip with hs | hs
            · exact absurd hs hq.1
            · exact absurd hs hq.2
          · exact Or.inr ⟨g, hg, hq, hl⟩
    · rw [if_neg hskip]
      have hq : HasAudioLanguage f := not_or.mp hskip
      have hcongr : ∀ c, ((S c ∨ c = f.Language) ∨
            ∃ g ∈ rest, HasAudioLanguage g ∧ g.Language = c) ↔
          (S c ∨ ∃ g ∈ f :: rest, HasAudioLanguage g ∧ g.Language = c) := by
        intro c
        constructor
        · rintro ((h | h) | ⟨g, hg, hq'⟩)
          · exact Or.inl h
          · exact Or.inr ⟨f, List.mem_cons_self _ _, hq, h.symm⟩
          · exact Or.inr ⟨g, List.mem_cons_of_mem _ hg, hq'⟩
        · rintro (h | ⟨g, hg, hq', hl⟩)
          · exact Or.inl (Or.inl h)
          · rcases List.mem_cons.mp hg with rfl | hg
            · exact Or.inl (Or.inr hl.symm)
            · exact Or.inr ⟨g, hg, hq', hl⟩
      cases hget : mapGet m (baseLang f.Language) with
      | none =>
        refine langInv_congr _ _ _ hcongr (ih _ _ (langInv_insert m S f.Language hi ?_))
        intro c hc hbase
        have hk := hi.2.2 c hc
        rw [hbase] at hk
        exact absurd hk ((mapGet_eq_none m _).mp hget)
      | some existing =>
        by_cases hlen : byteLen f.Language > byteLen existing
        · simp only [hlen, if_true]
          refine langInv_congr _ _ _ hcongr (ih _ _ (langInv_insert m S f.Language hi ?_))
          intro c hc hbase
          obtain ⟨_, x2, x3⟩ := hi.2.1 _ (mapGet_eq_some m _ _ hget)
          exact lt_of_le_of_lt (x3 c hc hbase) hlen
        · simp only [hlen, if_false]
          exact langInv_congr _ _ _ hcongr
            (ih _ _ (langInv_keep m S f.Language existing hi hget (not_lt.mp hlen)))

theorem collectLangs_init (fs : List ytdlpFormat) :
    LangInv (collectLangs fs []) (fun c => ∃ f ∈ fs, HasAudioLanguage f ∧ f.Language = c) := by
  refine langInv_congr _ _ _ (fun c => by simp) (collectLangs_inv fs [] (fun _ => False) ?_)
  refine ⟨List.nodup_nil, ?_, ?_⟩
  · intro e he
    cases he
  · intro c hc
    exact False.elim hc

theorem collectLangs_cons_none (f : ytdlpFormat) (rest : List ytdlpFormat) (m : StrMap)
    (hq : HasAudioLanguage f) (hget : mapGet m (baseLang f.Language) = none) :
    collectLangs (f :: rest) m = collectLangs rest (mapSet m (baseLang f.Language) f.Language) := by
  rw [collectLangs, if_neg (not_or.mpr hq)]
  simp only [hget]

theorem collectLangs_cons_longer (f : ytdlpFormat) (rest : List ytdlpFormat) (m : StrMap)
    (existing : Str) (hq : HasAudioLanguage f)
    (hget : mapGet m (baseLang f.Language) = some existing)
    (hlen : byteLen f.Language > byteLen existing) :
    collectLangs (f :: rest) m = collectLangs rest (mapSet m (baseLang f.Language) f.Language) := by
  rw [collectLangs, if_neg (not_or.mpr hq)]
  simp only [hget, hlen, if_true]

set_option maxRecDepth 100000 in
theorem collectLangs_example (f1 f2 f3 : ytdlpFormat)
    (h1 : f1.Language = "en".toList) (h2 : f2.Language = "en-US".toList)
    (h3 : f3.Language = "pt".toList) (a1 : f1.ACodec ≠ "none".toList)
    (a2 : f2.ACodec ≠ "none".toList) (a3 : f3.ACodec ≠ "none".toList) :
    collectLangs [f1, f2, f3] [] =
      [("en".toList, "en-US".toList), ("pt".toList, "pt".toList)] := by
  rw [collectLangs_cons_none f1 _ _ ⟨a1, by rw [h1]; decide⟩ (by rw [h1]; decide),
    collectLangs_cons_longer f2 _ _ "en".toList ⟨a2, by rw [h2]; decide⟩
      (by rw [h1, h2]; decide) (by rw [h2]; decide),
    collectLangs_cons_none f3 _ _ ⟨a3, by rw [h3]; decide⟩ (by rw [h1, h2, h3]; decide),
    h1, h2, h3]
  decide

theorem perm_pair_sorted {α : Type} (less : α → α → Bool)
    (hasymm : ∀ a b, less a b = true → less b a = false) (a b : α) (out : List α)
    (hp : out.Perm [a, b]) (hs : out.Pairwise (fun x y => less y x = false))
    (hab : less a b = true) : out = [a, b] := by
  have hne : a ≠ b := by
    intro h
    have h2 := hasymm a b hab
    rw [h] at hab h2
    rw [hab] at h2
    cases h2
  have hlen := hp.length_eq
  match out, hp, hs, hlen with
  | [x, y], hp, hs, _ =>
    have hx : x ∈ [a, b] := hp.mem_iff.mp (List.mem_cons_self _ _)
    have ha : a ∈ [x, y] := hp.mem_iff.mpr (List.mem_cons_self _ _)
    have hb : b ∈ [x, y] := hp.mem_iff.mpr (List.mem_cons_of_mem _ (List.mem_cons_self _ _))
    simp only [List.mem_cons, List.mem_singleton, List.not_mem_nil, or_false] at hx ha hb
    rw [List.pairwise_cons] at hs
    have hyx := hs.1 y (List.mem_cons_self _ _)
    rcases hx with rfl | rfl
    · rcases hb with hb | hb
      · exact absurd hb.symm hne
      · rw [hb]
    · rcases ha with ha | ha
      · exact absurd ha hne
      · rw [← ha] at hyx
        rw [hab] at hyx
        cases hyx

/-- C14: in every result of the YouTube `GetVideoInfo` the audio tracks have pairwise
different base languages, and their base languages are exactly those of the raw formats
with an audio codec other than `none` and a language that is not empty; the code of a track
is the language of such a format and no such format with the same base language has a
longer code; its name is the display name of its code; the tracks are sorted by name.  For
the codes `en`, `en-US`, `pt` the result has two tracks, `en-US` and `pt`, in this order. -/
theorem GetVideoInfo_languages (fs : List ytdlpFormat) (info : VideoInfo)
    (h : IsVideoInfo fs info) :
    (info.Languages.map (fun a => baseLang a.Code)).Nodup ∧
    (∀ b, b ∈ info.Languages.map (fun a => baseLang a.Code) ↔
      ∃ f ∈ fs, (f.ACodec ≠ "none".toList ∧ f.Language ≠ []) ∧ baseLang f.Language = b) ∧
    (∀ a ∈ info.Languages,
      (∃ f ∈ fs, (f.ACodec ≠ "none".toList ∧ f.Language ≠ []) ∧ f.Language = a.Code) ∧
      (∀ f ∈ fs, f.ACodec ≠ "none".toList ∧ f.Language ≠ [] →
        baseLang f.Language = baseLang a.Code → byteLen f.Language ≤ byteLen a.Code) ∧
      a.Name = resolveLangName a.Code) ∧
    info.Languages.Pairwise (fun a b => a.Name ≤ b.Name) ∧
    (fs.map ytdlpFormat.Language = ["en".toList, "en-US".toList, "pt".toList] →
      (∀ f ∈ fs, f.ACodec ≠ "none".toList) →
      info.Languages = [⟨"en-US".toList, "English (US)".toList⟩,
        ⟨"pt".toList, "Português".toList⟩]) := by
  obtain ⟨visited, hv, hperm, hsorted⟩ := h.2
  have hp : info.Languages.Perm (langEntries (collectLangs fs [])) := hperm.trans hv
  obtain ⟨i1, i2, i3⟩ := collectLangs_init fs
  have hkeys : (langEntries (collectLangs fs [])).map (fun a => baseLang a.Code)
      = (collectLangs fs []).map Prod.fst := by
    unfold langEntries
    rw [List.map_map]
    apply List.map_congr_left
    intro e he
    exact (i2 e he).2.1
  have hpk : (info.Languages.map (fun a => baseLang a.Code)).Perm
      ((collectLangs fs []).map Prod.fst) := by
    rw [← hkeys]
    exact hp.map _
  have hmem : ∀ a ∈ info.Languages, ∃ e ∈ collectLangs fs [],
      a = ⟨e.2, resolveLangName e.2⟩ := by
    intro a ha
    have ha2 := hp.mem_iff.mp ha
    unfold langEntries at ha2
    obtain ⟨e, he, hea⟩ := List.mem_map.mp ha2
    exact ⟨e, he, hea.symm⟩
  refine ⟨hpk.nodup_iff.mpr i1, ?_, ?_, ?_, ?_⟩
  · intro b
    rw [hpk.mem_iff]
    constructor
    · intro hb
      obtain ⟨e, he, hfst⟩ := List.mem_map.mp hb
      obtain ⟨⟨f, hf, hq, hl⟩, j2, _⟩ := i2 e he
      exact ⟨f, hf, hq, by rw [hl, j2, hfst]⟩
    · rintro ⟨f, hf, hq, hb⟩
      rw [← hb]
      exact i3 f.Language ⟨f, hf, hq, rfl⟩
  · intro a ha
    obtain ⟨e, he, rfl⟩ := hmem a ha
    obtain ⟨j1, j2, j3⟩ := i2 e he
    refine ⟨j1, ?_, rfl⟩
    intro f hf hq hbase
    exact j3 f.Language ⟨f, hf, hq, rfl⟩ (hbase.trans j2)
  · refine hsorted.imp ?_
    intro a b hab
    unfold lessName at hab
    exact not_lt.mp (by simpa using hab)
  · intro hmap hac
    have hlen := congrArg List.length hmap
    rw [List.length_map] at hlen
    rcases fs with _ | ⟨f1, _ | ⟨f2, _ | ⟨f3, _ | ⟨f4, t⟩⟩⟩⟩
    · cases hlen
    · cases hlen
    · cases hlen
    · simp only [List.map_cons, List.map_nil, List.cons.injEq, and_true] at hmap
      rw [collectLangs_example f1 f2 f3 hmap.1 hmap.2.1 hmap.2.2
        (hac f1 (by simp)) (hac f2 (by simp)) (hac f3 (by simp))] at hp
      exact perm_pair_sorted lessName lessName_asymm _ _ _ hp hsorted (by decide)
    · simp at hlen

set_option maxRecDepth 100000 in
theorem GetVideoInfo_languages_witness :
    (GetVideoInfo [⟨0, "none".toList, "mp4a".toList, "en".toList⟩,
        ⟨0, "none".toList, "mp4a".toList, "en-US".toList⟩,
        ⟨360, "avc1".toList, "opus".toList, "pt".toList⟩]).Languages
      = [⟨"en-US".toList, "English (US)".toList⟩, ⟨"pt".toList, "Português".toList⟩] :=
  (GetVideoInfo_languages _ _ (GetVideoInfo_isVideoInfo
      [⟨0, "none".toList, "mp4a".toList, "en".toList⟩,
        ⟨0, "none".toList, "mp4a".toList, "en-US".toList⟩,
        ⟨360, "avc1".toList, "opus".toList, "pt".toList⟩])).2.2.2.2 (by decide) (by decide)

end DownloaderTube
